import Mathlib

/-!
# Verification of the tiebameow rule compiler

A shallow embedding of the moderation rule compiler of the `tiebameow`
repository: the dual-grammar (DSL / CNL) rule parser, validator,
serializer and scanner, together with the `schemas.rules` entities
(`Condition`, `RuleGroup`, `Action`, `ReviewRule`).

The `tiebameow/parser/rule_parser.py` module and the enum-typed,
validated variant of `tiebameow/schemas/rules.py` are exercised by the
repository's tests but their implementation is not part of the source
tree that was provided; following the specification those parts are
modelled from the spec (each such definition carries a
`Modelled from the spec:` doc comment).  The loose `schemas/rules.py`
that is present is the authority for the `Action` entity.
-/

set_option maxHeartbeats 1000000

namespace TiebaMeow

/-! ## Core vocabulary types (spec §3, tests `test_schemas_rules.py`) -/

/-- Surface-syntax mode: symbolic DSL or Chinese natural language. -/
inductive Mode where
  | dsl
  | cnl
deriving DecidableEq, Repr

/-- Modelled from the spec: the closed `FieldType` vocabulary of the
enum-typed rules schema (spec §3; the loose schema in `src` types the
field as a free string instead). -/
inductive FieldType where
  | title
  | text
  | level
  | isGood
  | replyNum
  | viewNum
  | userId
  | createTime
deriving DecidableEq, Repr

/-- The runtime (string) value of a `FieldType` member, as carried by a
`Condition`. -/
def FieldType.value : FieldType → String
  | .title => "title"
  | .text => "text"
  | .level => "level"
  | .isGood => "is_good"
  | .replyNum => "reply_num"
  | .viewNum => "view_num"
  | .userId => "user_id"
  | .createTime => "create_time"

/-- The closed operator vocabulary (`OpType` in `schemas/rules.py`). -/
inductive OperatorType where
  | contains
  | regex
  | eq
  | gt
  | lt
  | gte
  | lte
  | isIn
deriving DecidableEq, Repr

/-- The closed logic-connective vocabulary (`LogicType`). -/
inductive LogicType where
  | and
  | or
  | not
  | xor
  | xnor
  | nand
  | nor
deriving DecidableEq, Repr

/-- The closed action vocabulary (`ActionType`). -/
inductive ActionType where
  | delete
  | ban
  | notify
deriving DecidableEq, Repr

/-- The closed target-type vocabulary (`TargetType`). -/
inductive TargetType where
  | all
  | thread
  | post
  | comment
deriving DecidableEq, Repr

/-- The runtime (string) value of a `TargetType` member. -/
def TargetType.value : TargetType → String
  | .all => "all"
  | .thread => "thread"
  | .post => "post"
  | .comment => "comment"

/-! ## Civil (timezone-fixed) instants

Modelled from the spec: date/time literals are "always materialized in a
single fixed timezone" (§4.2), so an instant is represented by its civil
components in that fixed zone. -/

/-- A timezone-fixed instant, by its civil components. -/
structure Civil where
  year : Int
  month : Nat
  day : Nat
  hour : Nat
  minute : Nat
  second : Nat
deriving DecidableEq, Repr

/-- Proleptic Gregorian leap-year test. -/
def isLeap (y : Int) : Bool :=
  y % 4 == 0 && (y % 100 != 0 || y % 400 == 0)

/-- Number of days of month `m` of year `y` (1-based month). -/
def daysInMonth (y : Int) (m : Nat) : Nat :=
  if m = 2 then (if isLeap y then 29 else 28)
  else if m = 4 ∨ m = 6 ∨ m = 9 ∨ m = 11 then 30
  else 31

/-- The civil components form a real calendar date and time of day. -/
def ValidCivil (c : Civil) : Prop :=
  1 ≤ c.month ∧ c.month ≤ 12 ∧ 1 ≤ c.day ∧ c.day ≤ daysInMonth c.year c.month ∧
    c.hour ≤ 23 ∧ c.minute ≤ 59 ∧ c.second ≤ 59

instance (c : Civil) : Decidable (ValidCivil c) := by
  unfold ValidCivil; infer_instance

/-- The calendar day immediately before the day of `c` (time of day kept). -/
def prevDay (c : Civil) : Civil :=
  if 2 ≤ c.day then { c with day := c.day - 1 }
  else if 2 ≤ c.month then
    { c with month := c.month - 1, day := daysInMonth c.year (c.month - 1) }
  else { c with year := c.year - 1, month := 12, day := 31 }

/-- Go back `n` calendar days. -/
def subDays (c : Civil) : Nat → Civil
  | 0 => c
  | n + 1 => subDays (prevDay c) n

/-- Modelled from the spec: relative durations are "resolved to
`now − duration`" (§4.2).  Subtracting `k` seconds from the civil
instant `c`. -/
def civilSub (c : Civil) (k : Nat) : Civil :=
  let tod := c.hour * 3600 + c.minute * 60 + c.second
  if _h : k ≤ tod then
    let tod2 := tod - k
    { c with hour := tod2 / 3600, minute := tod2 % 3600 / 60, second := tod2 % 60 }
  else
    let m := k - tod - 1
    let back := 1 + m / 86400
    let tod2 := 86400 - 1 - m % 86400
    let c2 := subDays c back
    { c2 with hour := tod2 / 3600, minute := tod2 % 3600 / 60, second := tod2 % 60 }

theorem daysInMonth_pos (y : Int) (m : Nat) : 1 ≤ daysInMonth y m := by
  unfold daysInMonth
  split <;> [split <;> omega; skip]
  split <;> omega

theorem daysInMonth_le (y : Int) (m : Nat) : daysInMonth y m ≤ 31 := by
  unfold daysInMonth
  split <;> [split <;> omega; skip]
  split <;> omega

theorem validCivil_prevDay {c : Civil} (h : ValidCivil c) : ValidCivil (prevDay c) := by
  obtain ⟨h1, h2, h3, h4, h5, h6, h7⟩ := h
  unfold prevDay ValidCivil
  split_ifs with hd hm <;> dsimp only
  · exact ⟨h1, h2, by omega, by omega, h5, h6, h7⟩
  · exact ⟨by omega, by omega, daysInMonth_pos _ _, le_refl _, h5, h6, h7⟩
  · refine ⟨by omega, by omega, by omega, ?_, h5, h6, h7⟩
    show (31 : Nat) ≤ daysInMonth (c.year - 1) 12
    simp [daysInMonth]

theorem validCivil_subDays {c : Civil} (h : ValidCivil c) (n : Nat) :
    ValidCivil (subDays c n) := by
  induction n generalizing c with
  | zero => exact h
  | succ n ih => exact ih (validCivil_prevDay h)

theorem validCivil_civilSub {c : Civil} (h : ValidCivil c) (k : Nat) :
    ValidCivil (civilSub c k) := by
  obtain ⟨h1, h2, h3, h4, h5, h6, h7⟩ := h
  rw [civilSub]
  unfold ValidCivil
  split_ifs with hk <;> dsimp only
  · exact ⟨h1, h2, h3, h4, by omega, by omega, by omega⟩
  · set back := 1 + (k - (c.hour * 3600 + c.minute * 60 + c.second) - 1) / 86400 with hback
    have hv := @validCivil_subDays c ⟨h1, h2, h3, h4, h5, h6, h7⟩ back
    obtain ⟨g1, g2, g3, g4, g5, g6, g7⟩ := hv
    have hm : (k - (c.hour * 3600 + c.minute * 60 + c.second) - 1) % 86400 < 86400 :=
      Nat.mod_lt _ (by omega)
    exact ⟨g1, g2, g3, g4, by omega, by omega, by omega⟩

theorem civilSub_day {T : Civil} (h : ValidCivil T) : civilSub T 86400 = prevDay T := by
  obtain ⟨-, -, -, -, h5, h6, h7⟩ := h
  have e : subDays T 1 = prevDay T := rfl
  unfold civilSub
  rw [dif_neg (by omega)]
  simp only []
  have hm : (86400 - (T.hour * 3600 + T.minute * 60 + T.second) - 1) / 86400 = 0 :=
    Nat.div_eq_of_lt (by omega)
  have hmod : (86400 - (T.hour * 3600 + T.minute * 60 + T.second) - 1) % 86400 =
      86400 - (T.hour * 3600 + T.minute * 60 + T.second) - 1 :=
    Nat.mod_eq_of_lt (by omega)
  rw [hm, hmod, e]
  have h1 : 86400 - 1 - (86400 - (T.hour * 3600 + T.minute * 60 + T.second) - 1) =
      T.hour * 3600 + T.minute * 60 + T.second := by omega
  rw [h1]
  have h2 : (T.hour * 3600 + T.minute * 60 + T.second) / 3600 = T.hour := by omega
  have h3 : (T.hour * 3600 + T.minute * 60 + T.second) % 3600 / 60 = T.minute := by omega
  have h4 : (T.hour * 3600 + T.minute * 60 + T.second) % 60 = T.second := by omega
  rw [h2, h3, h4]
  have p1 : T.hour = (prevDay T).hour := by unfold prevDay; split_ifs <;> rfl
  have p2 : T.minute = (prevDay T).minute := by unfold prevDay; split_ifs <;> rfl
  have p3 : T.second = (prevDay T).second := by unfold prevDay; split_ifs <;> rfl
  rw [p1, p2, p3]

/-! ## Literal values and rule trees (spec §3)

A literal `Value` is a string, an integer, a decimal number (kept at the
decimal level: integer part and fraction digits), a boolean, a
timezone-fixed instant, or an ordered (possibly heterogeneous) list of
values.  Rule trees are the tagged union `Condition | RuleGroup`; the
condition's `field` carries the runtime string of the `FieldType` member
(the Python enum is a string enum, and `model_construct` can bypass
validation and store a foreign string, which the serializer must
tolerate). -/

mutual

/-- A literal value of a condition. -/
inductive Value where
  | vstr (s : String)
  | vint (n : Nat)
  | vfloat (ip : Nat) (frac : String)
  | vbool (b : Bool)
  | vtime (c : Civil)
  | vlist (l : VList)

/-- An ordered sequence of values. -/
inductive VList where
  | nil
  | cons (v : Value) (t : VList)

end

mutual

/-- A rule-tree node: leaf `cond` (a `Condition`) or internal `group`
(a `RuleGroup`). -/
inductive RuleNode where
  | cond (field : String) (op : OperatorType) (v : Value)
  | group (lg : LogicType) (cs : NodeList)

/-- The ordered children of a `RuleGroup`. -/
inductive NodeList where
  | nil
  | cons (n : RuleNode) (t : NodeList)

end

mutual

def Value.beq : Value → Value → Bool
  | .vstr a, .vstr b => a == b
  | .vint a, .vint b => a == b
  | .vfloat a b, .vfloat c d => a == c && b == d
  | .vbool a, .vbool b => a == b
  | .vtime a, .vtime b => a == b
  | .vlist a, .vlist b => VList.beq a b
  | _, _ => false

def VList.beq : VList → VList → Bool
  | .nil, .nil => true
  | .cons a t, .cons b u => Value.beq a b && VList.beq t u
  | _, _ => false

end

mutual

theorem Value.beqIffV : ∀ a b : Value, Value.beq a b = true ↔ a = b
  | .vstr a, b => by cases b <;> simp [Value.beq]
  | .vint a, b => by cases b <;> simp [Value.beq]
  | .vfloat a b, c => by cases c <;> simp [Value.beq]
  | .vbool a, b => by cases b <;> simp [Value.beq]
  | .vtime a, b => by cases b <;> simp [Value.beq]
  | .vlist a, b => by cases b <;> simp [Value.beq, VList.beqIffVL a]

theorem VList.beqIffVL : ∀ a b : VList, VList.beq a b = true ↔ a = b
  | .nil, b => by cases b <;> simp [VList.beq]
  | .cons a t, b => by
      cases b <;> simp [VList.beq, Value.beqIffV a, VList.beqIffVL t]

end

instance : DecidableEq Value := fun a b =>
  decidable_of_iff _ (Value.beqIffV a b)

instance : DecidableEq VList := fun a b =>
  decidable_of_iff _ (VList.beqIffVL a b)

mutual

def RuleNode.beq : RuleNode → RuleNode → Bool
  | .cond f o v, .cond g p w => f == g && o == p && v == w
  | .group l cs, .group m ds => l == m && NodeList.beq cs ds
  | _, _ => false

def NodeList.beq : NodeList → NodeList → Bool
  | .nil, .nil => true
  | .cons a t, .cons b u => RuleNode.beq a b && NodeList.beq t u
  | _, _ => false

end

mutual

theorem RuleNode.beqIffN : ∀ a b : RuleNode, RuleNode.beq a b = true ↔ a = b
  | .cond f o v, b => by cases b <;> simp [RuleNode.beq, and_assoc]
  | .group l cs, b => by cases b <;> simp [RuleNode.beq, NodeList.beqIffNL cs]

theorem NodeList.beqIffNL : ∀ a b : NodeList, NodeList.beq a b = true ↔ a = b
  | .nil, b => by cases b <;> simp [NodeList.beq]
  | .cons a t, b => by
      cases b <;> simp [NodeList.beq, RuleNode.beqIffN a, NodeList.beqIffNL t]

end

instance : DecidableEq RuleNode := fun a b =>
  decidable_of_iff _ (RuleNode.beqIffN a b)

instance : DecidableEq NodeList := fun a b =>
  decidable_of_iff _ (NodeList.beqIffNL a b)

/-- The plain-list view of a `NodeList`. -/
def NodeList.toList : NodeList → List RuleNode
  | .nil => []
  | .cons n t => n :: NodeList.toList t

/-- Number of children. -/
def NodeList.length (l : NodeList) : Nat := l.toList.length

/-! ## Tokenization (spec §2, §4.1)

Modelled from the spec: "tokenization driven by per-language synonym
tables" (§2); the token configuration maps every canonical symbol to its
recognized surface strings and a primary rendering string (§4.1). -/

/-- A surface token: a word (identifier, operator symbol run, or a
CNL-vocabulary word), a number (integer part plus optional fraction
digits), a quoted string's content, or a punctuation character
(full-width punctuation is normalized to its ASCII counterpart). -/
inductive Tok where
  | word (s : String)
  | num (ip : Nat) (frac : Option String)
  | str (s : String)
  | punct (c : Char)
deriving DecidableEq, Repr

/-- Whitespace characters skipped between tokens. -/
def isWsChar (c : Char) : Bool :=
  c = ' ' ∨ c = '\t' ∨ c = '\n' ∨ c = '\r'

/-- ASCII decimal digit. -/
def isDigitChar (c : Char) : Bool :=
  '0' ≤ c ∧ c ≤ '9'

/-- First character of a DSL identifier. -/
def isIdentStart (c : Char) : Bool :=
  ('a' ≤ c ∧ c ≤ 'z') ∨ ('A' ≤ c ∧ c ≤ 'Z') ∨ c = '_'

/-- Continuation character of a DSL identifier; dotted field paths such
as `author.level` form a single word. -/
def isIdentChar (c : Char) : Bool :=
  isIdentStart c ∨ isDigitChar c ∨ c = '.'

/-- Operator-symbol characters; a maximal run forms one word token. -/
def isSymChar (c : Char) : Bool :=
  c = '=' ∨ c = '<' ∨ c = '>' ∨ c = '!' ∨ c = '?'

/-- Punctuation recognized by the grammar; full-width CNL punctuation is
normalized to ASCII (spec §4.2: CNL "additionally accepts full-width
bracket punctuation"). -/
def normPunct (c : Char) : Option Char :=
  if c = '(' ∨ c = '（' then some '('
  else if c = ')' ∨ c = '）' then some ')'
  else if c = '[' ∨ c = '【' then some '['
  else if c = ']' ∨ c = '】' then some ']'
  else if c = ',' ∨ c = '，' then some ','
  else if c = '-' then some '-'
  else if c = ':' ∨ c = '：' then some ':'
  else none

/-- Modelled from the spec: the CNL synonym vocabulary (spec §4.1 token
configuration; surface strings fixed by the repository's tests).  The
list is ordered by decreasing length so that the first prefix match is
the longest one. -/
def cnlVocab : List String :=
  ["大于等于", "小于等于", "用户等级", "创建时间", "发贴时间",
   "精华帖", "精华贴", "回复数", "浏览数",
   "或者", "或非", "并且", "异或", "同或", "与非",
   "大于", "小于", "等于", "包含", "属于", "匹配",
   "标题", "内容", "等级", "加精", "小时", "分钟", "现在",
   "且", "或", "非", "真", "是", "假", "否",
   "天", "秒", "前", "年", "月", "日", "时", "分"]

/-- Match a literal character sequence as a prefix, returning the rest. -/
def dropPre : List Char → List Char → Option (List Char)
  | [], l => some l
  | _ :: _, [] => none
  | c :: p, d :: l => if c = d then dropPre p l else none

/-- First table entry matching a prefix of the input. -/
def firstMatch : List String → List Char → Option (String × List Char)
  | [], _ => none
  | v :: vs, l =>
    match dropPre v.data l with
    | some rest => some (v, rest)
    | none => firstMatch vs l

/-- Numeric value of a digit run. -/
def natOfDigits (l : List Char) : Nat :=
  l.foldl (fun a c => a * 10 + (c.toNat - 48)) 0

theorem dropPre_length {p l r : List Char} (h : dropPre p l = some r) :
    r.length + p.length = l.length := by
  induction p generalizing l with
  | nil =>
    simp only [dropPre, Option.some.injEq] at h
    simp [h]
  | cons c p ih =>
    cases l with
    | nil => simp [dropPre] at h
    | cons d l =>
      simp only [dropPre] at h
      split_ifs at h
      have := ih h
      simp only [List.length_cons]
      omega

theorem firstMatch_spec {vs : List String} {l : List Char} {v : String}
    {rest : List Char} (h : firstMatch vs l = some (v, rest)) :
    v ∈ vs ∧ dropPre v.data l = some rest := by
  induction vs with
  | nil => simp [firstMatch] at h
  | cons w ws ih =>
    simp only [firstMatch] at h
    cases hw : dropPre w.data l with
    | some r =>
      rw [hw] at h
      simp only [Option.some.injEq, Prod.mk.injEq] at h
      obtain ⟨rfl, rfl⟩ := h
      exact ⟨List.mem_cons_self _ _, hw⟩
    | none =>
      rw [hw] at h
      obtain ⟨hm, hd⟩ := ih h
      exact ⟨List.mem_cons_of_mem _ hm, hd⟩

theorem cnlVocab_ne_nil : ∀ v ∈ cnlVocab, v.data ≠ [] := by decide

/-- The optional fraction part after a digit run: a `.` followed by at
least one digit extends the number token (so `3.14` is one token while
`3.x` leaves the dot behind). -/
def numTail : List Char → Option String × List Char
  | '.' :: d2 :: rest3 =>
    if isDigitChar d2 then
      (some (String.mk ((d2 :: rest3).takeWhile isDigitChar)),
        (d2 :: rest3).dropWhile isDigitChar)
    else (none, '.' :: d2 :: rest3)
  | l => (none, l)

theorem length_dropWhile_le (p : Char → Bool) (l : List Char) :
    (l.dropWhile p).length ≤ l.length := by
  induction l with
  | nil => simp
  | cons c cs ih =>
    by_cases h : p c
    · simp only [List.dropWhile_cons, h, if_true]
      have := ih
      simp only [List.length_cons]
      omega
    · simp [List.dropWhile_cons, h]

theorem numTail_length (l : List Char) : (numTail l).2.length ≤ l.length := by
  unfold numTail
  split
  · split_ifs
    · rename_i d2 rest3 _
      have := length_dropWhile_le isDigitChar (d2 :: rest3)
      simp only [List.length_cons] at this ⊢
      omega
    · simp
  · simp

/-- One lexing step: `none` means the input is empty or no token can be
read here; otherwise an optional token (whitespace yields none) and the
rest of the input, at least one character shorter. -/
def lexStep (mode : Mode) : List Char → Option (Option Tok × List Char)
  | [] => none
  | c :: cs =>
    if isWsChar c then some (none, cs)
    else if c = '\'' ∨ c = '"' then
      match cs.dropWhile (· ≠ c) with
      | [] => none
      | _ :: rest2 => some (some (.str (String.mk (cs.takeWhile (· ≠ c)))), rest2)
    else if isDigitChar c then
      let fr := numTail ((c :: cs).dropWhile isDigitChar)
      some (some (.num (natOfDigits ((c :: cs).takeWhile isDigitChar)) fr.1), fr.2)
    else if isIdentStart c then
      some (some (.word (String.mk ((c :: cs).takeWhile isIdentChar))),
        (c :: cs).dropWhile isIdentChar)
    else if isSymChar c then
      some (some (.word (String.mk ((c :: cs).takeWhile isSymChar))),
        (c :: cs).dropWhile isSymChar)
    else
      match normPunct c with
      | some p => some (some (.punct p), cs)
      | none =>
        match mode with
        | .dsl => none
        | .cnl =>
          match firstMatch cnlVocab (c :: cs) with
          | some (v, rest) => some (some (.word v), rest)
          | none => none

theorem lexStep_length {mode : Mode} {l rest : List Char} {t : Option Tok}
    (h : lexStep mode l = some (t, rest)) : rest.length < l.length := by
  match l with
  | [] => simp [lexStep] at h
  | c :: cs =>
    simp only [lexStep] at h
    split_ifs at h with h1 h2 h3 h4 h5
    · simp only [Option.some.injEq, Prod.mk.injEq] at h
      simp [← h.2]
    · revert h
      cases hd : cs.dropWhile (· ≠ c) with
      | nil => intro h; exact absurd h (by simp)
      | cons x rest2 =>
        intro h
        simp only [Option.some.injEq, Prod.mk.injEq] at h
        have hle : (cs.dropWhile (· ≠ c)).length ≤ cs.length := length_dropWhile_le _ _
        rw [hd] at hle
        rw [← h.2]
        simp only [List.length_cons] at hle ⊢
        omega
    · simp only [Option.some.injEq, Prod.mk.injEq] at h
      have hdw : ((c :: cs).dropWhile isDigitChar).length ≤ cs.length := by
        have heq : (c :: cs).dropWhile isDigitChar = cs.dropWhile isDigitChar := by
          simp [List.dropWhile_cons, h3]
        rw [heq]
        exact length_dropWhile_le _ _
      have := numTail_length ((c :: cs).dropWhile isDigitChar)
      rw [← h.2]
      simp only [List.length_cons]
      omega
    · simp only [Option.some.injEq, Prod.mk.injEq] at h
      rw [← h.2]
      have heq : (c :: cs).dropWhile isIdentChar = cs.dropWhile isIdentChar := by
        simp [List.dropWhile_cons, isIdentChar, h4]
      rw [heq]
      have := length_dropWhile_le isIdentChar cs
      simp only [List.length_cons]
      omega
    · simp only [Option.some.injEq, Prod.mk.injEq] at h
      rw [← h.2]
      have heq : (c :: cs).dropWhile isSymChar = cs.dropWhile isSymChar := by
        simp [List.dropWhile_cons, h5]
      rw [heq]
      have := length_dropWhile_le isSymChar cs
      simp only [List.length_cons]
      omega
    · revert h
      cases hp : normPunct c with
      | some p =>
        intro h
        simp only [Option.some.injEq, Prod.mk.injEq] at h
        simp [← h.2]
      | none =>
        cases mode with
        | dsl => intro h; exact absurd h (by simp)
        | cnl =>
          cases hf : firstMatch cnlVocab (c :: cs) with
          | none => intro h; exact absurd h (by simp)
          | some vr =>
            obtain ⟨v, r⟩ := vr
            intro h
            simp only [Option.some.injEq, Prod.mk.injEq] at h
            obtain ⟨hmem, hdp⟩ := firstMatch_spec hf
            have hlen := dropPre_length hdp
            have hne := cnlVocab_ne_nil v hmem
            have hone : 1 ≤ v.data.length := by
              cases hv : v.data with
              | nil => exact absurd hv hne
              | cons _ _ => simp
            rw [← h.2]
            omega

/-- Fuel-driven lexer loop; the fuel is chosen above the input length,
which `lexStep`'s consumption guarantees is enough. -/
def lexAuxF (mode : Mode) : Nat → List Char → Except Nat (List Tok)
  | 0, l => if l.isEmpty then .ok [] else .error l.length
  | f + 1, l =>
    match lexStep mode l with
    | none => if l.isEmpty then .ok [] else .error l.length
    | some (t, rest) =>
      match lexAuxF mode f rest with
      | .error e => .error e
      | .ok ts => .ok (match t with | none => ts | some tok => tok :: ts)

/-- The full lexer: a token list, or the number of characters remaining
at the point where no token could be read. -/
def lexAux (mode : Mode) (l : List Char) : Except Nat (List Tok) :=
  lexAuxF mode (l.length + 1) l

theorem lexStep_none_nonempty {mode : Mode} {l : List Char}
    (h : lexStep mode l = none) (hne : l ≠ []) : ¬l.isEmpty := by
  cases l with
  | nil => exact absurd rfl hne
  | cons c cs => simp

theorem lexAuxF_fuel (mode : Mode) : ∀ (k f1 f2 : Nat) (l : List Char),
    l.length ≤ k → l.length < f1 → l.length < f2 →
    lexAuxF mode f1 l = lexAuxF mode f2 l := by
  intro k
  induction k with
  | zero =>
    intro f1 f2 l hk h1 h2
    have : l = [] := by
      cases l with
      | nil => rfl
      | cons c cs => simp at hk
    subst this
    cases f1 with
    | zero => simp at h1
    | succ g1 =>
      cases f2 with
      | zero => simp at h2
      | succ g2 => simp [lexAuxF, lexStep]
  | succ k ih =>
    intro f1 f2 l hk h1 h2
    cases f1 with
    | zero => omega
    | succ g1 =>
      cases f2 with
      | zero => omega
      | succ g2 =>
        simp only [lexAuxF]
        cases hs : lexStep mode l with
        | none => rfl
        | some tr =>
          obtain ⟨t, rest⟩ := tr
          have hlt := lexStep_length hs
          simp only []
          rw [ih g1 g2 rest (by omega) (by omega) (by omega)]

/-! ## Digit-run and date-literal helpers (spec §4.2) -/

/-- Read a nonempty digit run. -/
def readNat (l : List Char) : Option (Nat × List Char) :=
  match l.takeWhile isDigitChar with
  | [] => none
  | ds => some (natOfDigits ds, l.dropWhile isDigitChar)

/-- Expect one specific character. -/
def expectChar (c : Char) : List Char → Option (List Char)
  | [] => none
  | d :: r => if d = c then some r else none

/-- Validate the read civil components. -/
def mkCivil (y : Int) (mo d h mi s : Nat) : Option Civil :=
  let c : Civil := ⟨y, mo, d, h, mi, s⟩
  if ValidCivil c then some c else none

/-- Unsigned part of an absolute `Y-M-D[ H:M:S]` literal. -/
def absCore (sign : Int) (l : List Char) : Option Civil :=
  match readNat l with
  | none => none
  | some (y, r1) =>
    match expectChar '-' r1 with
    | none => none
    | some r2 =>
      match readNat r2 with
      | none => none
      | some (mo, r3) =>
        match expectChar '-' r3 with
        | none => none
        | some r4 =>
          match readNat r4 with
          | none => none
          | some (d, r5) =>
            match r5 with
            | [] => mkCivil (sign * y) mo d 0 0 0
            | ' ' :: r6 =>
              match readNat r6 with
              | none => none
              | some (h, r7) =>
                match expectChar ':' r7 with
                | none => none
                | some r8 =>
                  match readNat r8 with
                  | none => none
                  | some (mi, r9) =>
                    match expectChar ':' r9 with
                    | none => none
                    | some r10 =>
                      match readNat r10 with
                      | none => none
                      | some (s, r11) =>
                        if r11 = [] then mkCivil (sign * y) mo d h mi s else none
            | _ => none

/-- Modelled from the spec: "absolute date/time strings in several fixed
formats (`YYYY-MM-DD[ HH:MM:SS]` …), always materialized in a single
fixed timezone" (§4.2).  Recognizes the full character content of a
quoted literal as an absolute instant, or fails. -/
def absFull : List Char → Option Civil
  | '-' :: rest => absCore (-1) rest
  | l => absCore 1 l

/-- The ASCII digit for `n < 10`. -/
def digitChar (n : Nat) : Char := Char.ofNat (48 + n)

/-- Fuel-driven digit expansion (the fuel is chosen above the value, so
it never runs out). -/
def natDigitsF : Nat → Nat → List Char
  | 0, _ => []
  | f + 1, n =>
    if n < 10 then [digitChar n]
    else natDigitsF f (n / 10) ++ [digitChar (n % 10)]

/-- Decimal digit list of a natural number (no leading zeros). -/
def natDigits (n : Nat) : List Char := natDigitsF (n + 1) n

/-- Decimal rendering of a natural number. -/
def natStr (n : Nat) : String := String.mk (natDigits n)

/-- Zero-padded decimal rendering, at least `k` digits. -/
def padNat (k n : Nat) : List Char :=
  List.replicate (k - (natDigits n).length) '0' ++ natDigits n

/-- Serialization of an instant: a signed `YYYY-MM-DD HH:MM:SS`. -/
def fmtAbs (c : Civil) : List Char :=
  (if c.year < 0 then ['-'] else []) ++ padNat 4 c.year.natAbs ++ ['-'] ++
    padNat 2 c.month ++ ['-'] ++ padNat 2 c.day ++ [' '] ++
    padNat 2 c.hour ++ [':'] ++ padNat 2 c.minute ++ [':'] ++ padNat 2 c.second

/-! ## Token configuration (spec §4.1)

Modelled from the spec: per-language tables mapping every canonical
symbol to its recognized surface tokens and its primary rendering
token; surface strings as fixed by the repository's tests. -/

/-- Recognized field tokens per mode. -/
def fieldTable : Mode → List (String × FieldType)
  | .dsl =>
    [("title", .title), ("text", .text), ("author.level", .level),
     ("is_good", .isGood), ("reply_num", .replyNum), ("view_num", .viewNum),
     ("author.user_id", .userId), ("user_id", .userId),
     ("create_time", .createTime)]
  | .cnl =>
    [("标题", .title), ("内容", .text), ("用户等级", .level), ("等级", .level),
     ("加精", .isGood), ("精华帖", .isGood), ("精华贴", .isGood),
     ("回复数", .replyNum), ("浏览数", .viewNum),
     ("创建时间", .createTime), ("发贴时间", .createTime), ("user_id", .userId)]

/-- Field lookup for a word token. -/
def fieldOf (mode : Mode) (w : String) : Option FieldType :=
  (fieldTable mode).lookup w

/-- Recognized operator tokens per mode. -/
def opTable : Mode → List (String × OperatorType)
  | .dsl =>
    [("contains", .contains), ("regex", .regex), ("==", .eq), (">=", .gte),
     ("<=", .lte), (">", .gt), ("<", .lt), ("in", .isIn)]
  | .cnl =>
    [("包含", .contains), ("匹配", .regex), ("等于", .eq), ("大于等于", .gte),
     ("小于等于", .lte), ("大于", .gt), ("小于", .lt), ("属于", .isIn)]

/-- Operator lookup for a word token. -/
def opOf (mode : Mode) (w : String) : Option OperatorType :=
  (opTable mode).lookup w

/-- Recognized logic-connective tokens per mode. -/
def logicTable : Mode → List (String × LogicType)
  | .dsl =>
    [("AND", .and), ("OR", .or), ("NOT", .not), ("XOR", .xor),
     ("XNOR", .xnor), ("NAND", .nand), ("NOR", .nor)]
  | .cnl =>
    [("并且", .and), ("且", .and), ("或者", .or), ("或", .or), ("非", .not),
     ("异或", .xor), ("同或", .xnor), ("与非", .nand), ("或非", .nor)]

/-- Logic-connective lookup for a word token. -/
def logicOf (mode : Mode) (w : String) : Option LogicType :=
  (logicTable mode).lookup w

/-- ASCII lowercase of a word (DSL keywords are case-insensitive). -/
def lowerChar (c : Char) : Char :=
  if 'A' ≤ c ∧ c ≤ 'Z' then Char.ofNat (c.toNat + 32) else c

/-- ASCII lowercase of a string. -/
def toLowerStr (w : String) : String := String.mk (w.data.map lowerChar)

/-- Boolean literal recognition: DSL `true`/`false` case-insensitively,
CNL additionally `真`/`是`/`假`/`否` (spec §4.2). -/
def boolOf (mode : Mode) (w : String) : Option Bool :=
  if toLowerStr w = "true" then some true
  else if toLowerStr w = "false" then some false
  else
    match mode with
    | .dsl => none
    | .cnl =>
      if w = "真" ∨ w = "是" then some true
      else if w = "假" ∨ w = "否" then some false
      else none

/-- The `now` keyword: case-insensitive `NOW`, CNL also `现在`. -/
def nowWord (mode : Mode) (w : String) : Bool :=
  toLowerStr w = "now" ∨ (mode = .cnl ∧ w = "现在")

/-- Relative-duration units in seconds (`d`/`h`/`m`/`s` and their CNL
lexical equivalents, spec §4.2). -/
def unitSecs (w : String) : Option Nat :=
  if w = "d" ∨ w = "天" then some 86400
  else if w = "h" ∨ w = "小时" then some 3600
  else if w = "m" ∨ w = "分钟" then some 60
  else if w = "s" ∨ w = "秒" then some 1
  else none

/-- The optional "ago" marker after a relative duration. -/
def agoWord (w : String) : Bool :=
  w = "ago" ∨ w = "前"

/-- Primary (serialization) token of a field. -/
def primaryField : Mode → FieldType → String
  | .dsl, .title => "title"
  | .dsl, .text => "text"
  | .dsl, .level => "author.level"
  | .dsl, .isGood => "is_good"
  | .dsl, .replyNum => "reply_num"
  | .dsl, .viewNum => "view_num"
  | .dsl, .userId => "author.user_id"
  | .dsl, .createTime => "create_time"
  | .cnl, .title => "标题"
  | .cnl, .text => "内容"
  | .cnl, .level => "等级"
  | .cnl, .isGood => "加精"
  | .cnl, .replyNum => "回复数"
  | .cnl, .viewNum => "浏览数"
  | .cnl, .userId => "user_id"
  | .cnl, .createTime => "创建时间"

/-- Primary (serialization) token of an operator. -/
def opPrimary : Mode → OperatorType → String
  | .dsl, .contains => "contains"
  | .dsl, .regex => "regex"
  | .dsl, .eq => "=="
  | .dsl, .gt => ">"
  | .dsl, .lt => "<"
  | .dsl, .gte => ">="
  | .dsl, .lte => "<="
  | .dsl, .isIn => "in"
  | .cnl, .contains => "包含"
  | .cnl, .regex => "匹配"
  | .cnl, .eq => "等于"
  | .cnl, .gt => "大于"
  | .cnl, .lt => "小于"
  | .cnl, .gte => "大于等于"
  | .cnl, .lte => "小于等于"
  | .cnl, .isIn => "属于"

/-- Primary (serialization) token of a logic connective. -/
def logicPrimary : Mode → LogicType → String
  | .dsl, .and => "AND"
  | .dsl, .or => "OR"
  | .dsl, .not => "NOT"
  | .dsl, .xor => "XOR"
  | .dsl, .xnor => "XNOR"
  | .dsl, .nand => "NAND"
  | .dsl, .nor => "NOR"
  | .cnl, .and => "且"
  | .cnl, .or => "或者"
  | .cnl, .not => "非"
  | .cnl, .xor => "异或"
  | .cnl, .xnor => "同或"
  | .cnl, .nand => "与非"
  | .cnl, .nor => "或非"

/-- Primary boolean spelling. -/
def boolPrimary : Mode → Bool → String
  | .dsl, true => "true"
  | .dsl, false => "false"
  | .cnl, true => "真"
  | .cnl, false => "假"

/-- The `FieldType` member whose runtime value is the given string. -/
def fieldTypeOf (f : String) : Option FieldType :=
  if f = "title" then some .title
  else if f = "text" then some .text
  else if f = "level" then some .level
  else if f = "is_good" then some .isGood
  else if f = "reply_num" then some .replyNum
  else if f = "view_num" then some .viewNum
  else if f = "user_id" then some .userId
  else if f = "create_time" then some .createTime
  else none

/-! ## The recursive grammar (spec §4.3)

Modelled from the spec:

```
rule      := or_expr
or_expr   := and_expr ( OR_TOKEN and_expr )*
and_expr  := not_expr ( AND_TOKEN not_expr )*
not_expr  := NOT_TOKEN? atom
atom      := "(" rule ")" | condition
condition := field_path operator_token value
```

with the extended connectives (XOR, XNOR, NAND, NOR) as infix levels at
the OR tier, parenthesized groups collapsing to their single child's own
node, and a `fuel` argument bounding the recursion depth (chosen large
enough at the entry point). -/

/-- Parse error: a positioned syntax error (as remaining token count),
an unknown field or operator naming the offending token (spec §7), or
fuel exhaustion. -/
inductive PErr where
  | failAt (rem : Nat)
  | unknownField (w : String)
  | unknownOperator (w : String)
  | noFuel
deriving DecidableEq, Repr

/-- Parse-time context: the language mode and the injected current-time
source (spec §9: an explicit clock capability, never a hidden global). -/
structure Ctx where
  mode : Mode
  now : Civil

/-- Parser result: error, or value plus remaining tokens. -/
abbrev P (α : Type) := Except PErr (α × List Tok)

/-- Build a `NodeList` from a list. -/
def NodeList.ofList : List RuleNode → NodeList
  | [] => .nil
  | n :: t => .cons n (NodeList.ofList t)

/-- Range-checked construction of an absolute instant value. -/
def mkDateV (y : Int) (mo d h mi s : Nat) (l : List Tok) : P Value :=
  match mkCivil y mo d h mi s with
  | some c => .ok (.vtime c, l)
  | none => .error (.failAt l.length)

/-- Tail of an unquoted ISO absolute literal after `Y-M-D`, with an
optional `H:M:S` time part. -/
def absIsoTail (y mo d : Nat) (l : List Tok) : P Value :=
  match l with
  | .num h none :: .punct ':' :: .num mi none :: .punct ':' :: .num s none :: l2 =>
    mkDateV y mo d h mi s l2
  | _ => mkDateV y mo d 0 0 0 l

/-- Tail of a CNL absolute literal after `Y 年`, with an optional
`H时M分S秒` time part. -/
def absCnlTail (y : Nat) (l : List Tok) : P Value :=
  match l with
  | .num mo none :: .word "月" :: .num d none :: .word "日" :: l4 =>
    match l4 with
    | .num h none :: .word "时" :: .num mi none :: .word "分" ::
        .num s none :: .word "秒" :: l5 =>
      mkDateV y mo d h mi s l5
    | _ => mkDateV y mo d 0 0 0 l4
  | _ => .error (.failAt l.length)

/-- The grammar's functions at one fuel level (spec §4.3).  A single
structure of parsers replaces mutual recursion so that one fuel
recursion (`fns`) drives them all. -/
structure ParseFns where
  pV : List Tok → P Value
  pL : List Tok → P VList
  pC : List Tok → P RuleNode
  pAt : List Tok → P RuleNode
  pN : List Tok → P RuleNode
  pAr : List Tok → P (List RuleNode)
  pA : List Tok → P RuleNode
  pOrR : LogicType → List Tok → P (List RuleNode)
  pO : List Tok → P RuleNode

/-- All parsers out of fuel. -/
def noFuelFns : ParseFns :=
  ⟨fun _ => .error .noFuel, fun _ => .error .noFuel, fun _ => .error .noFuel,
   fun _ => .error .noFuel, fun _ => .error .noFuel, fun _ => .error .noFuel,
   fun _ => .error .noFuel, fun _ _ => .error .noFuel, fun _ => .error .noFuel⟩

/-- One level of the grammar, on top of the previous level `p`. -/
def stepFns (ctx : Ctx) (p : ParseFns) : ParseFns where
  pV := fun l =>
    match l with
    | .str s :: l2 =>
      match absFull s.data with
      | some c => .ok (.vtime c, l2)
      | none => .ok (.vstr s, l2)
    | .num n none :: l2 =>
      match l2 with
      | .word u :: l3 =>
        match unitSecs u with
        | some k =>
          match l3 with
          | .word g :: l4 =>
            if agoWord g then .ok (.vtime (civilSub ctx.now (n * k)), l4)
            else .ok (.vtime (civilSub ctx.now (n * k)), l3)
          | _ => .ok (.vtime (civilSub ctx.now (n * k)), l3)
        | none =>
          if u = "年" then absCnlTail n l3 else .ok (.vint n, l2)
      | .punct '-' :: .num mo none :: .punct '-' :: .num d none :: l3 =>
        absIsoTail n mo d l3
      | _ => .ok (.vint n, l2)
    | .num n (some fr) :: l2 => .ok (.vfloat n fr, l2)
    | .word w :: l2 =>
      if nowWord ctx.mode w then .ok (.vtime ctx.now, l2)
      else
        match boolOf ctx.mode w with
        | some b => .ok (.vbool b, l2)
        | none => .error (.failAt l.length)
    | .punct '[' :: l2 =>
      match l2 with
      | .punct ']' :: l3 => .ok (.vlist .nil, l3)
      | _ =>
        match p.pV l2 with
        | .error e => .error e
        | .ok (v, l3) =>
          match p.pL l3 with
          | .error e => .error e
          | .ok (vs, l4) =>
            match l4 with
            | .punct ']' :: l5 => .ok (.vlist (.cons v vs), l5)
            | _ => .error (.failAt l4.length)
    | _ => .error (.failAt l.length)
  pL := fun l =>
    match l with
    | .punct ',' :: l2 =>
      match p.pV l2 with
      | .error e => .error e
      | .ok (v, l3) =>
        match p.pL l3 with
        | .error e => .error e
        | .ok (vs, l4) => .ok (.cons v vs, l4)
    | _ => .ok (.nil, l)
  pC := fun l =>
    match l with
    | .word w :: l2 =>
      match fieldOf ctx.mode w with
      | some ft =>
        match l2 with
        | .word ow :: l3 =>
          match opOf ctx.mode ow with
          | some op =>
            match p.pV l3 with
            | .error e => .error e
            | .ok (v, l4) => .ok (.cond ft.value op v, l4)
          | none => .error (.unknownOperator ow)
        | _ => .error (.failAt l2.length)
      | none => .error (.unknownField w)
    | _ => .error (.failAt l.length)
  pAt := fun l =>
    match l with
    | .punct '(' :: l2 =>
      match p.pO l2 with
      | .error e => .error e
      | .ok (a, l3) =>
        match l3 with
        | .punct ')' :: l4 => .ok (a, l4)
        | _ => .error (.failAt l3.length)
    | _ => p.pC l
  pN := fun l =>
    match l with
    | .word w :: l2 =>
      if logicOf ctx.mode w = some .not then
        match p.pAt l2 with
        | .error e => .error e
        | .ok (a, l3) => .ok (.group .not (.cons a .nil), l3)
      else p.pAt l
    | _ => p.pAt l
  pAr := fun l =>
    match l with
    | .word w :: l2 =>
      if logicOf ctx.mode w = some .and then
        match p.pN l2 with
        | .error e => .error e
        | .ok (b, l3) =>
          match p.pAr l3 with
          | .error e => .error e
          | .ok (bs, l4) => .ok (b :: bs, l4)
      else .ok ([], l)
    | _ => .ok ([], l)
  pA := fun l =>
    match p.pN l with
    | .error e => .error e
    | .ok (a, l1) =>
      match p.pAr l1 with
      | .error e => .error e
      | .ok ([], _) => .ok (a, l1)
      | .ok (b :: bs, l2) => .ok (.group .and (NodeList.ofList (a :: b :: bs)), l2)
  pOrR := fun L l =>
    match l with
    | .word w :: l2 =>
      if logicOf ctx.mode w = some L then
        match p.pA l2 with
        | .error e => .error e
        | .ok (b, l3) =>
          match p.pOrR L l3 with
          | .error e => .error e
          | .ok (bs, l4) => .ok (b :: bs, l4)
      else .ok ([], l)
    | _ => .ok ([], l)
  pO := fun l =>
    match p.pA l with
    | .error e => .error e
    | .ok (a, l1) =>
      match l1 with
      | .word w :: l2 =>
        match logicOf ctx.mode w with
        | some L =>
          if L = .and ∨ L = .not then .ok (a, l1)
          else
            match p.pA l2 with
            | .error e => .error e
            | .ok (b, l3) =>
              match p.pOrR L l3 with
              | .error e => .error e
              | .ok (bs, l4) => .ok (.group L (NodeList.ofList (a :: b :: bs)), l4)
        | none => .ok (a, l1)
      | _ => .ok (a, l1)

/-- The grammar at a given fuel. -/
def fns (ctx : Ctx) : Nat → ParseFns
  | 0 => noFuelFns
  | f + 1 => stepFns ctx (fns ctx f)

/-- The `rule := or_expr` level: an `and_expr` chain joined by one
OR-tier connective (OR, XOR, XNOR, NAND or NOR). -/
def parseOr (ctx : Ctx) (f : Nat) (l : List Tok) : P RuleNode := (fns ctx f).pO l

/-- Further `OR_TOKEN and_expr` repetitions of the same connective. -/
def orRest (ctx : Ctx) (f : Nat) (L : LogicType) (l : List Tok) :
    P (List RuleNode) := (fns ctx f).pOrR L l

/-- The `and_expr` level. -/
def parseAnd (ctx : Ctx) (f : Nat) (l : List Tok) : P RuleNode := (fns ctx f).pA l

/-- Further `AND_TOKEN not_expr` repetitions. -/
def andRest (ctx : Ctx) (f : Nat) (l : List Tok) : P (List RuleNode) :=
  (fns ctx f).pAr l

/-- The `not_expr := NOT_TOKEN? atom` level; NOT wraps exactly one
child. -/
def parseNot (ctx : Ctx) (f : Nat) (l : List Tok) : P RuleNode := (fns ctx f).pN l

/-- The `atom := "(" rule ")" | condition` level; a parenthesized group
yields its inner node unchanged (spec §4.3: a single-condition
parenthesization is distinct only syntactically, not semantically). -/
def parseAtom (ctx : Ctx) (f : Nat) (l : List Tok) : P RuleNode := (fns ctx f).pAt l

/-- The `condition := field_path operator_token value` leaf; an unknown
field or operator token fails the whole parse naming the token. -/
def parseCond (ctx : Ctx) (f : Nat) (l : List Tok) : P RuleNode := (fns ctx f).pC l

/-- The literal value grammar (spec §4.2), in priority order: quoted
strings (retyped as instants when date-shaped), relative durations,
absolute date literals, numbers, the now keyword, booleans, lists. -/
def parseValue (ctx : Ctx) (f : Nat) (l : List Tok) : P Value := (fns ctx f).pV l

/-- Further `, value` elements of a bracketed list. -/
def listRest (ctx : Ctx) (f : Nat) (l : List Tok) : P VList := (fns ctx f).pL l

theorem parseValue_zero (ctx : Ctx) (l : List Tok) :
    parseValue ctx 0 l = .error .noFuel := rfl

theorem listRest_zero (ctx : Ctx) (l : List Tok) :
    listRest ctx 0 l = .error .noFuel := rfl

theorem parseCond_zero (ctx : Ctx) (l : List Tok) :
    parseCond ctx 0 l = .error .noFuel := rfl

theorem parseAtom_zero (ctx : Ctx) (l : List Tok) :
    parseAtom ctx 0 l = .error .noFuel := rfl

theorem parseNot_zero (ctx : Ctx) (l : List Tok) :
    parseNot ctx 0 l = .error .noFuel := rfl

theorem andRest_zero (ctx : Ctx) (l : List Tok) :
    andRest ctx 0 l = .error .noFuel := rfl

theorem parseAnd_zero (ctx : Ctx) (l : List Tok) :
    parseAnd ctx 0 l = .error .noFuel := rfl

theorem orRest_zero (ctx : Ctx) (L : LogicType) (l : List Tok) :
    orRest ctx 0 L l = .error .noFuel := rfl

theorem parseOr_zero (ctx : Ctx) (l : List Tok) :
    parseOr ctx 0 l = .error .noFuel := rfl

theorem parseValue_succ (ctx : Ctx) (f : Nat) (l : List Tok) :
    parseValue ctx (f + 1) l =
      (match l with
      | .str s :: l2 =>
        match absFull s.data with
        | some c => .ok (.vtime c, l2)
        | none => .ok (.vstr s, l2)
      | .num n none :: l2 =>
        match l2 with
        | .word u :: l3 =>
          match unitSecs u with
          | some k =>
            match l3 with
            | .word g :: l4 =>
              if agoWord g then .ok (.vtime (civilSub ctx.now (n * k)), l4)
              else .ok (.vtime (civilSub ctx.now (n * k)), l3)
            | _ => .ok (.vtime (civilSub ctx.now (n * k)), l3)
          | none =>
            if u = "年" then absCnlTail n l3 else .ok (.vint n, l2)
        | .punct '-' :: .num mo none :: .punct '-' :: .num d none :: l3 =>
          absIsoTail n mo d l3
        | _ => .ok (.vint n, l2)
      | .num n (some fr) :: l2 => .ok (.vfloat n fr, l2)
      | .word w :: l2 =>
        if nowWord ctx.mode w then .ok (.vtime ctx.now, l2)
        else
          match boolOf ctx.mode w with
          | some b => .ok (.vbool b, l2)
          | none => .error (.failAt l.length)
      | .punct '[' :: l2 =>
        match l2 with
        | .punct ']' :: l3 => .ok (.vlist .nil, l3)
        | _ =>
          match parseValue ctx f l2 with
          | .error e => .error e
          | .ok (v, l3) =>
            match listRest ctx f l3 with
            | .error e => .error e
            | .ok (vs, l4) =>
              match l4 with
              | .punct ']' :: l5 => .ok (.vlist (.cons v vs), l5)
              | _ => .error (.failAt l4.length)
      | _ => .error (.failAt l.length)) := rfl

theorem listRest_succ (ctx : Ctx) (f : Nat) (l : List Tok) :
    listRest ctx (f + 1) l =
      (match l with
      | .punct ',' :: l2 =>
        match parseValue ctx f l2 with
        | .error e => .error e
        | .ok (v, l3) =>
          match listRest ctx f l3 with
          | .error e => .error e
          | .ok (vs, l4) => .ok (.cons v vs, l4)
      | _ => .ok (.nil, l)) := rfl

theorem parseCond_succ (ctx : Ctx) (f : Nat) (l : List Tok) :
    parseCond ctx (f + 1) l =
      (match l with
      | .word w :: l2 =>
        match fieldOf ctx.mode w with
        | some ft =>
          match l2 with
          | .word ow :: l3 =>
            match opOf ctx.mode ow with
            | some op =>
              match parseValue ctx f l3 with
              | .error e => .error e
              | .ok (v, l4) => .ok (.cond ft.value op v, l4)
            | none => .error (.unknownOperator ow)
          | _ => .error (.failAt l2.length)
        | none => .error (.unknownField w)
      | _ => .error (.failAt l.length)) := rfl

theorem parseAtom_succ (ctx : Ctx) (f : Nat) (l : List Tok) :
    parseAtom ctx (f + 1) l =
      (match l with
      | .punct '(' :: l2 =>
        match parseOr ctx f l2 with
        | .error e => .error e
        | .ok (a, l3) =>
          match l3 with
          | .punct ')' :: l4 => .ok (a, l4)
          | _ => .error (.failAt l3.length)
      | _ => parseCond ctx f l) := rfl

theorem parseNot_succ (ctx : Ctx) (f : Nat) (l : List Tok) :
    parseNot ctx (f + 1) l =
      (match l with
      | .word w :: l2 =>
        if logicOf ctx.mode w = some .not then
          match parseAtom ctx f l2 with
          | .error e => .error e
          | .ok (a, l3) => .ok (.group .not (.cons a .nil), l3)
        else parseAtom ctx f l
      | _ => parseAtom ctx f l) := rfl

theorem andRest_succ (ctx : Ctx) (f : Nat) (l : List Tok) :
    andRest ctx (f + 1) l =
      (match l with
      | .word w :: l2 =>
        if logicOf ctx.mode w = some .and then
          match parseNot ctx f l2 with
          | .error e => .error e
          | .ok (b, l3) =>
            match andRest ctx f l3 with
            | .error e => .error e
            | .ok (bs, l4) => .ok (b :: bs, l4)
        else .ok ([], l)
      | _ => .ok ([], l)) := rfl

theorem parseAnd_succ (ctx : Ctx) (f : Nat) (l : List Tok) :
    parseAnd ctx (f + 1) l =
      (match parseNot ctx f l with
      | .error e => .error e
      | .ok (a, l1) =>
        match andRest ctx f l1 with
        | .error e => .error e
        | .ok ([], _) => .ok (a, l1)
        | .ok (b :: bs, l2) =>
          .ok (.group .and (NodeList.ofList (a :: b :: bs)), l2)) := rfl

theorem orRest_succ (ctx : Ctx) (f : Nat) (L : LogicType) (l : List Tok) :
    orRest ctx (f + 1) L l =
      (match l with
      | .word w :: l2 =>
        if logicOf ctx.mode w = some L then
          match parseAnd ctx f l2 with
          | .error e => .error e
          | .ok (b, l3) =>
            match orRest ctx f L l3 with
            | .error e => .error e
            | .ok (bs, l4) => .ok (b :: bs, l4)
        else .ok ([], l)
      | _ => .ok ([], l)) := rfl

theorem parseOr_succ (ctx : Ctx) (f : Nat) (l : List Tok) :
    parseOr ctx (f + 1) l =
      (match parseAnd ctx f l with
      | .error e => .error e
      | .ok (a, l1) =>
        match l1 with
        | .word w :: l2 =>
          match logicOf ctx.mode w with
          | some L =>
            if L = .and ∨ L = .not then .ok (a, l1)
            else
              match parseAnd ctx f l2 with
              | .error e => .error e
              | .ok (b, l3) =>
                match orRest ctx f L l3 with
                | .error e => .error e
                | .ok (bs, l4) =>
                  .ok (.group L (NodeList.ofList (a :: b :: bs)), l4)
          | none => .ok (a, l1)
        | _ => .ok (a, l1)) := rfl

/-! ## Public operations (spec §6) -/

/-- Modelled from the spec: `parse_rule(text, mode) -> RuleNode`, failing
with a positioned diagnostic (§4.3, §6); the injected current-time
source is an explicit argument (§9).  The whole input must be consumed. -/
def parseRule (text : String) (mode : Mode) (now : Civil) : Except String RuleNode :=
  match lexAux mode text.data with
  | .error rem =>
    .error ("Parsing failed at position " ++ toString (text.data.length - rem))
  | .ok toks =>
    match parseOr ⟨mode, now⟩ (8 * (toks.length + 1)) toks with
    | .error (.unknownField w) =>
      .error ("Parsing failed: Unknown field: '" ++ w ++ "'")
    | .error (.unknownOperator w) =>
      .error ("Parsing failed: Unknown operator: '" ++ w ++ "'")
    | .error (.failAt rem) =>
      .error ("Parsing failed at position " ++ toString (toks.length - rem))
    | .error .noFuel => .error "Parsing failed: nesting too deep"
    | .ok (n, []) => .ok n
    | .ok (_, rest) =>
      .error ("Parsing failed at position " ++ toString (toks.length - rest.length) ++
        ": unexpected trailing input")

/-- Modelled from the spec: `validate(text, mode) -> (bool, message?)`
converts any parse failure into `(false, diagnostic)` instead of
raising, and returns `(true, absent)` on success (§4.4). -/
def validate (text : String) (mode : Mode) (now : Civil) : Bool × Option String :=
  match parseRule text mode now with
  | .ok _ => (true, none)
  | .error m => (false, some m)

/-! ## The serializer (spec §4.5) -/

/-- Quote a string literal, choosing the quote character not occurring
in the content. -/
def quoteStr (s : String) : String :=
  if s.data.contains '\'' then "\"" ++ s ++ "\"" else "'" ++ s ++ "'"

mutual

/-- Modelled from the spec: render a literal value using the language's
primary spellings (§4.5). -/
def dumpValue (mode : Mode) : Value → String
  | .vstr s => quoteStr s
  | .vint n => natStr n
  | .vfloat ip fr => natStr ip ++ "." ++ fr
  | .vbool b => boolPrimary mode b
  | .vtime c => "'" ++ String.mk (fmtAbs c) ++ "'"
  | .vlist l => "[" ++ dumpVList mode l ++ "]"

/-- Comma-separated list elements. -/
def dumpVList (mode : Mode) : VList → String
  | .nil => ""
  | .cons v .nil => dumpValue mode v
  | .cons v (.cons w t) => dumpValue mode v ++ ", " ++ dumpVList mode (.cons w t)

end

/-- Serialization of a condition's field: the primary token when the
tag is recognized, else the raw tag value (spec §4.5: unknown field
tags "fall back to rendering the raw tag value as a string token"). -/
def fieldText (mode : Mode) (f : String) : String :=
  match fieldTypeOf f with
  | some ft => primaryField mode ft
  | none => f

mutual

/-- Modelled from the spec: re-render a rule tree as canonical source
text using primary tokens (§4.5); `NOT` renders as the primary NOT
token followed by its parenthesized single child, and group children
that are themselves non-NOT groups are parenthesized so the output is
always reparseable. -/
def dumpNode (mode : Mode) : RuleNode → String
  | .cond f op v =>
    match mode with
    | .dsl => fieldText .dsl f ++ " " ++ opPrimary .dsl op ++ " " ++ dumpValue .dsl v
    | .cnl => fieldText .cnl f ++ opPrimary .cnl op ++ dumpValue .cnl v
  | .group .not (.cons c .nil) =>
    logicPrimary mode .not ++ "(" ++ dumpNode mode c ++ ")"
  | .group lg cs => dumpChildren mode lg cs

/-- Children of an n-ary group, joined by the primary connective
token. -/
def dumpChildren (mode : Mode) (lg : LogicType) : NodeList → String
  | .nil => ""
  | .cons c .nil => dumpChild mode c
  | .cons c (.cons d t) =>
    dumpChild mode c ++
      (match mode with
       | .dsl => " " ++ logicPrimary .dsl lg ++ " "
       | .cnl => logicPrimary .cnl lg) ++
      dumpChildren mode lg (.cons d t)

/-- One child: conditions and NOT groups render bare, other groups are
parenthesized. -/
def dumpChild (mode : Mode) : RuleNode → String
  | .cond f op v => dumpNode mode (.cond f op v)
  | .group .not cs => dumpNode mode (.group .not cs)
  | .group lg cs => "(" ++ dumpNode mode (.group lg cs) ++ ")"

end

/-- The dynamic argument of `dump_rule`: a well-typed rule node, or a
foreign object of any other runtime type (the Python signature is
dynamically typed). -/
inductive DumpArg where
  | node (n : RuleNode)
  | foreign (repr : String)

/-- Modelled from the spec: `dump_rule(node, mode) -> text`; anything
that is not a `Condition` or a `RuleGroup` fails with an explicit
"unknown node type" error (§4.5). -/
def dumpRule : DumpArg → Mode → Except String String
  | .node n, mode => .ok (dumpNode mode n)
  | .foreign r, _ => .error ("Unknown node type: " ++ r)

/-! ## The scanner (spec §4.7) -/

/-- Greedy prefix lexing: tokens up to the first unlexable character,
plus the unconsumed characters from that point on. -/
def lexPartF (mode : Mode) : Nat → List Char → List Tok × List Char
  | 0, l => ([], l)
  | f + 1, l =>
    match lexStep mode l with
    | none => ([], l)
    | some (t, rest) =>
      let pr := lexPartF mode f rest
      (match t with | none => pr.1 | some tok => tok :: pr.1, pr.2)

/-- Greedy prefix lexing, fuel-driven. -/
def lexPart (mode : Mode) (l : List Char) : List Tok × List Char :=
  lexPartF mode (l.length + 1) l

/-- Attempt one rule match at the front of a token list. -/
def tryToks (mode : Mode) (now : Civil) (toks : List Tok) :
    Option (RuleNode × List Tok) :=
  match parseOr ⟨mode, now⟩ (8 * (toks.length + 1)) toks with
  | .ok (n, rest) => some (n, rest)
  | .error _ => none

/-- Fuel-driven token-level scan loop. -/
def scanToksF (mode : Mode) (now : Civil) : Nat → List Tok → List RuleNode
  | 0, _ => []
  | _ + 1, [] => []
  | f + 1, t :: ts =>
    match tryToks mode now (t :: ts) with
    | some (n, rest) =>
      if rest.length < ts.length + 1 then n :: scanToksF mode now f rest
      else scanToksF mode now f ts
    | none => scanToksF mode now f ts

/-- Scan a token list: emit a node whenever a match starts here, then
continue after it; otherwise skip one token. -/
def scanToks (mode : Mode) (now : Civil) (toks : List Tok) : List RuleNode :=
  scanToksF mode now (toks.length + 1) toks

theorem lexPartF_length (mode : Mode) : ∀ (f : Nat) (l : List Char),
    (lexPartF mode f l).2.length ≤ l.length := by
  intro f
  induction f with
  | zero => intro l; simp [lexPartF]
  | succ f ih =>
    intro l
    simp only [lexPartF]
    cases hs : lexStep mode l with
    | none => simp
    | some tr =>
      obtain ⟨t, rest⟩ := tr
      have hlt := lexStep_length hs
      have hrec := ih rest
      cases t <;> simp only [] <;> omega

theorem lexPart_length (mode : Mode) (l : List Char) :
    (lexPart mode l).2.length ≤ l.length :=
  lexPartF_length mode _ l

/-- Fuel-driven character-level scan loop. -/
def scanAuxF (mode : Mode) (now : Civil) : Nat → List Char → List RuleNode
  | 0, _ => []
  | f + 1, l =>
    if l.isEmpty then []
    else if (lexPart mode l).2.isEmpty then scanToks mode now (lexPart mode l).1
    else
      scanToks mode now (lexPart mode l).1 ++
        scanAuxF mode now f (lexPart mode l).2.tail

/-- Modelled from the spec: `scan_rules(text, mode)` repeatedly attempts
the grammar at increasing offsets, emitting every embedded rule and
skipping non-matching spans (§4.7). -/
def scanAux (mode : Mode) (now : Civil) (l : List Char) : List RuleNode :=
  scanAuxF mode now (l.length + 1) l

/-- The public scanner. -/
def scanRules (text : String) (mode : Mode) (now : Civil) : List RuleNode :=
  scanAux mode now text.data

/-! ## Schema entities: `Action` and `ReviewRule`
(`src/tiebameow/schemas/rules.py`, tests `test_schemas_rules.py`) -/

/-- The `Action` entity of `schemas/rules.py`: an action type and a
parameter mapping. -/
structure Action where
  type : ActionType
  params : List (String × Value)
deriving DecidableEq

/-- The `Action` pydantic constructor: `params` is optional and defaults
to a freshly built empty dict (`Field(default_factory=dict)` in
`schemas/rules.py`). -/
def mkAction (t : ActionType) (params : Option (List (String × Value))) : Action :=
  ⟨t, params.getD []⟩

/-- Modelled from the spec: the fixed applicability set of each field
tag over the concrete target types (spec §3; the concrete matrix fixed
by `test_validate_trigger_compatibility`: `title` is thread-only,
`reply_num` is thread/post, `text` is common). -/
def fieldAppliesTo (f : FieldType) (tt : TargetType) : Bool :=
  match f, tt with
  | _, .all => false
  | .title, t => t = .thread
  | .isGood, t => t = .thread
  | .viewNum, t => t = .thread
  | .replyNum, t => t = .thread ∨ t = .post
  | .text, _ => true
  | .level, _ => true
  | .userId, _ => true
  | .createTime, _ => true

/-- A condition field string is valid for a rule's target type; for
`all` the field must be applicable to every concrete target type, and a
string outside the `FieldType` vocabulary is valid for none. -/
def fieldValidFor (f : String) (tt : TargetType) : Bool :=
  match fieldTypeOf f with
  | none => false
  | some ft =>
    match tt with
    | .all =>
      fieldAppliesTo ft .thread && fieldAppliesTo ft .post &&
        fieldAppliesTo ft .comment
    | t => fieldAppliesTo ft t

/-- The compatibility error message, naming the offending field and the
target type (spec §6). -/
def compatMsg (f : String) (tt : TargetType) : String :=
  "Field '" ++ f ++ "' is not valid for target_type '" ++ tt.value ++ "'"

mutual

/-- Modelled from the spec: the `ReviewRule` constructor "recursively
walks the tree and fails, naming the offending field and target type,
the first time it finds a field outside that target type's allowed set —
short-circuiting, not accumulating all errors" (spec §4.4). -/
def checkTrigger : RuleNode → TargetType → Option String
  | .cond f _ _, tt => if fieldValidFor f tt then none else some (compatMsg f tt)
  | .group _ cs, tt => checkTriggerList cs tt

/-- Depth-first, left-to-right walk of a group's children. -/
def checkTriggerList : NodeList → TargetType → Option String
  | .nil, _ => none
  | .cons n t, tt =>
    match checkTrigger n tt with
    | some m => some m
    | none => checkTriggerList t tt

end

/-- The `ReviewRule` entity (enum-typed, validated variant). -/
structure ReviewRule where
  rid : Int
  fid : Int
  target_type : TargetType
  name : String
  enabled : Bool
  priority : Int
  trigger : RuleNode
  actions : List Action

/-- Modelled from the spec: constructing a `ReviewRule` performs the
target-type compatibility check at construction time, surfacing a
validation error naming the incompatible field and target type
(spec §4.4, §6). -/
def mkReviewRule (rid fid : Int) (tt : TargetType) (name : String)
    (enabled : Bool) (priority : Int) (trigger : RuleNode)
    (actions : List Action) : Except String ReviewRule :=
  match checkTrigger trigger tt with
  | some m => .error m
  | none => .ok ⟨rid, fid, tt, name, enabled, priority, trigger, actions⟩

mutual

/-- Specification view for the walk: all condition fields of a tree in
depth-first, left-to-right order. -/
def dfsFields : RuleNode → List String
  | .cond f _ _ => [f]
  | .group _ cs => dfsFieldsList cs

/-- Depth-first fields of a children list. -/
def dfsFieldsList : NodeList → List String
  | .nil => []
  | .cons n t => dfsFields n ++ dfsFieldsList t

end

/-! ## Well-formedness of parser output -/

mutual

/-- Values producible by the literal grammar: strings are not
date-shaped and never hold both quote characters, fraction digits are
a nonempty digit run, instants are valid civil datetimes. -/
def wfValue : Value → Bool
  | .vstr s => (absFull s.data).isNone && !(s.data.contains '\'' && s.data.contains '"')
  | .vint _ => true
  | .vfloat _ fr => !fr.data.isEmpty && fr.data.all isDigitChar
  | .vbool _ => true
  | .vtime c => decide (ValidCivil c)
  | .vlist l => wfVList l

/-- All list elements well-formed. -/
def wfVList : VList → Bool
  | .nil => true
  | .cons v t => wfValue v && wfVList t

end

mutual

/-- Trees producible by the grammar: condition fields are in the closed
`FieldType` vocabulary, values are well-formed, and every group
satisfies the logic-arity invariant (NOT unary, all others n-ary with
at least two children). -/
def wfNode : RuleNode → Bool
  | .cond f _ v => (fieldTypeOf f).isSome && wfValue v
  | .group lg cs =>
    (if lg = .not then cs.length = 1 else 2 ≤ cs.length : Bool) && wfNodeList cs

/-- All children well-formed. -/
def wfNodeList : NodeList → Bool
  | .nil => true
  | .cons n t => wfNode n && wfNodeList t

end

/-- Token well-formedness established by the lexer: a quoted string's
content never holds both quote characters, and fraction digits are a
nonempty digit run. -/
def tokWf : Tok → Bool
  | .str s => !(s.data.contains '\'' && s.data.contains '"')
  | .num _ (some fr) => !fr.data.isEmpty && fr.data.all isDigitChar
  | _ => true

theorem takeWhile_sat (p : Char → Bool) (l : List Char) :
    (l.takeWhile p).all p := by
  induction l with
  | nil => simp
  | cons c cs ih =>
    by_cases h : p c <;> simp [List.takeWhile_cons, h, ih]

theorem contains_takeWhile_ne (q : Char) (cs : List Char) :
    (cs.takeWhile (fun x => x ≠ q)).contains q = false := by
  have hall := takeWhile_sat (fun x => x ≠ q) cs
  rw [List.contains_eq_any_beq]
  rw [Bool.eq_false_iff]
  intro hc
  simp only [List.any_eq_true] at hc
  obtain ⟨x, hx, hbeq⟩ := hc
  rw [List.all_eq_true] at hall
  have := hall x hx
  simp only [beq_iff_eq] at hbeq
  simp only [ne_eq, decide_not, Bool.not_eq_true', decide_eq_false_iff_not] at this
  first
  | exact this hbeq
  | exact this hbeq.symm

theorem strTok_wf {c : Char} (hq : c = '\'' ∨ c = '"') (cs : List Char) :
    tokWf (.str (String.mk (cs.takeWhile (· ≠ c)))) = true := by
  simp only [tokWf]
  have hc := contains_takeWhile_ne c cs
  rcases hq with rfl | rfl
  · simp only [ne_eq] at hc ⊢
    rw [hc]
    simp
  · simp only [ne_eq] at hc ⊢
    rw [hc]
    simp

theorem numTail_wf {l : List Char} {fr : String}
    (h : (numTail l).1 = some fr) :
    (!fr.data.isEmpty && fr.data.all isDigitChar) = true := by
  revert h
  unfold numTail
  split
  · rename_i d2 rest3
    split_ifs with hd2
    · intro h
      simp only [Option.some.injEq] at h
      subst h
      rw [show (String.mk ((d2 :: rest3).takeWhile isDigitChar)).data =
          (d2 :: rest3).takeWhile isDigitChar from rfl]
      rw [Bool.and_eq_true]
      constructor
      · simp [List.takeWhile_cons, hd2]
      · exact takeWhile_sat _ _
    · intro h; simp at h
  · intro h; simp at h

theorem lexStep_tokWf {mode : Mode} {l rest : List Char} {t : Tok}
    (h : lexStep mode l = some (some t, rest)) : tokWf t = true := by
  match l with
  | [] => simp [lexStep] at h
  | c :: cs =>
    simp only [lexStep] at h
    split_ifs at h with h1 h2 h3 h4 h5
    · simp at h
    · revert h
      cases hd : cs.dropWhile (· ≠ c) with
      | nil => intro h; exact absurd h (by simp)
      | cons x rest2 =>
        intro h
        simp only [Option.some.injEq, Prod.mk.injEq] at h
        obtain ⟨ht, -⟩ := h
        subst ht
        exact strTok_wf h2 cs
    · simp only [Option.some.injEq, Prod.mk.injEq] at h
      obtain ⟨ht, -⟩ := h
      subst ht
      cases hnt : (numTail ((c :: cs).dropWhile isDigitChar)).1 with
      | none => simp [tokWf, hnt]
      | some fr =>
        simp only [tokWf]
        exact numTail_wf hnt
    · simp only [Option.some.injEq, Prod.mk.injEq] at h
      obtain ⟨ht, -⟩ := h
      subst ht
      simp [tokWf]
    · simp only [Option.some.injEq, Prod.mk.injEq] at h
      obtain ⟨ht, -⟩ := h
      subst ht
      simp [tokWf]
    · revert h
      cases hp : normPunct c with
      | some p =>
        intro h
        simp only [Option.some.injEq, Prod.mk.injEq] at h
        obtain ⟨ht, -⟩ := h
        subst ht
        simp [tokWf]
      | none =>
        cases mode with
        | dsl => intro h; exact absurd h (by simp)
        | cnl =>
          cases hf : firstMatch cnlVocab (c :: cs) with
          | none => intro h; exact absurd h (by simp)
          | some vr =>
            obtain ⟨v, r⟩ := vr
            intro h
            simp only [Option.some.injEq, Prod.mk.injEq] at h
            obtain ⟨ht, -⟩ := h
            subst ht
            simp [tokWf]

theorem mkCivil_valid {y : Int} {mo d h mi s : Nat} {c : Civil}
    (hc : mkCivil y mo d h mi s = some c) : ValidCivil c := by
  unfold mkCivil at hc
  simp only [] at hc
  split_ifs at hc with hv
  simp only [Option.some.injEq] at hc
  subst hc
  exact hv

theorem absCore_valid {sg : Int} {l : List Char} {c : Civil}
    (h : absCore sg l = some c) : ValidCivil c := by
  unfold absCore at h
  repeat' split at h
  all_goals first
  | (exact mkCivil_valid h)
  | simp_all

theorem absFull_valid {l : List Char} {c : Civil}
    (h : absFull l = some c) : ValidCivil c := by
  unfold absFull at h
  split at h
  · exact absCore_valid h
  · exact absCore_valid h

theorem mkDateV_valid {y : Int} {mo d h mi s : Nat} {l : List Tok}
    {v : Value} {r : List Tok} (hv : mkDateV y mo d h mi s l = .ok (v, r)) :
    wfValue v = true ∧ r = l := by
  unfold mkDateV at hv
  cases hc : mkCivil y mo d h mi s with
  | none => rw [hc] at hv; simp at hv
  | some c =>
    rw [hc] at hv
    simp only [Except.ok.injEq, Prod.mk.injEq] at hv
    obtain ⟨rfl, rfl⟩ := hv
    exact ⟨by simp [wfValue, mkCivil_valid hc], rfl⟩

theorem fieldTypeOf_value : ∀ ft : FieldType, fieldTypeOf ft.value = some ft := by
  intro ft
  cases ft <;> rfl

/-- Every token the lexer emits is well-formed. -/
theorem lexAuxF_tokWf {mode : Mode} : ∀ (f : Nat) (l : List Char) (ts : List Tok),
    lexAuxF mode f l = .ok ts → ∀ t ∈ ts, tokWf t = true := by
  intro f
  induction f with
  | zero =>
    intro l ts h t ht
    simp only [lexAuxF] at h
    split_ifs at h
    simp only [Except.ok.injEq] at h
    subst h
    simp at ht
  | succ f ih =>
    intro l ts h t ht
    simp only [lexAuxF] at h
    revert h
    cases hs : lexStep mode l with
    | none =>
      intro h
      split_ifs at h
      simp only [Except.ok.injEq] at h
      subst h
      simp at ht
    | some tr =>
      obtain ⟨t0, rest⟩ := tr
      intro h
      simp only [] at h
      cases hrec : lexAuxF mode f rest with
      | error e => rw [hrec] at h; simp at h
      | ok ts2 =>
        rw [hrec] at h
        try simp only [] at h
        simp only [Except.ok.injEq] at h
        subst h
        cases t0 with
        | none =>
          simp only at ht
          exact ih rest ts2 hrec t ht
        | some tok =>
          simp only [List.mem_cons] at ht
          rcases ht with rfl | ht
          · exact lexStep_tokWf hs
          · exact ih rest ts2 hrec t ht

theorem lexAux_tokWf {mode : Mode} {l : List Char} {ts : List Tok}
    (h : lexAux mode l = .ok ts) : ∀ t ∈ ts, tokWf t = true :=
  lexAuxF_tokWf _ _ _ h

/-- All tokens of a list are well-formed. -/
def TWf (l : List Tok) : Prop := ∀ t ∈ l, tokWf t = true

theorem TWf_tail {t : Tok} {l : List Tok} (h : TWf (t :: l)) : TWf l :=
  fun x hx => h x (List.mem_cons_of_mem _ hx)

theorem TWf_head {t : Tok} {l : List Tok} (h : TWf (t :: l)) : tokWf t = true :=
  h t (List.mem_cons_self _ _)

/-- All nodes of a list are well-formed. -/
def AllWfN (ns : List RuleNode) : Prop := ∀ n ∈ ns, wfNode n = true

theorem toList_ofList (ns : List RuleNode) :
    (NodeList.ofList ns).toList = ns := by
  induction ns with
  | nil => rfl
  | cons n t ih => simp [NodeList.ofList, NodeList.toList, ih]

theorem length_ofList (ns : List RuleNode) :
    (NodeList.ofList ns).length = ns.length := by
  simp [NodeList.length, toList_ofList]

theorem wfNodeList_ofList {ns : List RuleNode} (h : AllWfN ns) :
    wfNodeList (NodeList.ofList ns) = true := by
  induction ns with
  | nil => rfl
  | cons n t ih =>
    simp only [NodeList.ofList, wfNodeList, Bool.and_eq_true]
    exact ⟨h n (List.mem_cons_self _ _), ih (fun x hx => h x (List.mem_cons_of_mem _ hx))⟩

theorem absIsoTail_sound {y mo d : Nat} {l : List Tok} {v : Value} {r : List Tok}
    (h : absIsoTail y mo d l = .ok (v, r)) (hl : TWf l) :
    wfValue v = true ∧ TWf r := by
  unfold absIsoTail at h
  split at h
  · rename_i h2 mi2 s2 l2
    obtain ⟨hw, rfl⟩ := mkDateV_valid h
    refine ⟨hw, ?_⟩
    exact TWf_tail (TWf_tail (TWf_tail (TWf_tail (TWf_tail hl))))
  · obtain ⟨hw, rfl⟩ := mkDateV_valid h
    exact ⟨hw, hl⟩

theorem absCnlTail_sound {y : Nat} {l : List Tok} {v : Value} {r : List Tok}
    (h : absCnlTail y l = .ok (v, r)) (hl : TWf l) :
    wfValue v = true ∧ TWf r := by
  unfold absCnlTail at h
  split at h
  · rename_i mo d l4
    split at h
    · obtain ⟨hw, rfl⟩ := mkDateV_valid h
      refine ⟨hw, ?_⟩
      exact TWf_tail (TWf_tail (TWf_tail (TWf_tail (TWf_tail (TWf_tail
        (TWf_tail (TWf_tail (TWf_tail (TWf_tail hl)))))))))
    · obtain ⟨hw, rfl⟩ := mkDateV_valid h
      exact ⟨hw, TWf_tail (TWf_tail (TWf_tail (TWf_tail hl)))⟩
  · simp at h

/-- Soundness of the grammar: on well-formed tokens (and a valid
injected clock) every parser production is well-formed — fields are in
the closed vocabulary, values are well-typed, and the logic-arity
invariant holds — and the leftover tokens stay well-formed. -/
theorem parse_sound (ctx : Ctx) (hnow : ValidCivil ctx.now) : ∀ f : Nat,
    (∀ l v r, TWf l → parseValue ctx f l = .ok (v, r) →
      wfValue v = true ∧ TWf r) ∧
    (∀ l vs r, TWf l → listRest ctx f l = .ok (vs, r) →
      wfVList vs = true ∧ TWf r) ∧
    (∀ l n r, TWf l → parseCond ctx f l = .ok (n, r) →
      wfNode n = true ∧ TWf r) ∧
    (∀ l n r, TWf l → parseAtom ctx f l = .ok (n, r) →
      wfNode n = true ∧ TWf r) ∧
    (∀ l n r, TWf l → parseNot ctx f l = .ok (n, r) →
      wfNode n = true ∧ TWf r) ∧
    (∀ l ns r, TWf l → andRest ctx f l = .ok (ns, r) →
      AllWfN ns ∧ TWf r) ∧
    (∀ l n r, TWf l → parseAnd ctx f l = .ok (n, r) →
      wfNode n = true ∧ TWf r) ∧
    (∀ l L ns r, TWf l → orRest ctx f L l = .ok (ns, r) →
      AllWfN ns ∧ TWf r) ∧
    (∀ l n r, TWf l → parseOr ctx f l = .ok (n, r) →
      wfNode n = true ∧ TWf r) := by
  intro f
  induction f with
  | zero =>
    refine ⟨?_, ?_, ?_, ?_, ?_, ?_, ?_, ?_, ?_⟩ <;> intro l
    · intro v r _ h; simp [parseValue_zero] at h
    · intro vs r _ h; simp [listRest_zero] at h
    · intro n r _ h; simp [parseCond_zero] at h
    · intro n r _ h; simp [parseAtom_zero] at h
    · intro n r _ h; simp [parseNot_zero] at h
    · intro ns r _ h; simp [andRest_zero] at h
    · intro n r _ h; simp [parseAnd_zero] at h
    · intro L ns r _ h; simp [orRest_zero] at h
    · intro n r _ h; simp [parseOr_zero] at h
  | succ f ih =>
    obtain ⟨ihV, ihL, ihC, ihAt, ihN, ihAr, ihA, ihOr, ihO⟩ := ih
    have HV : ∀ l v r, TWf l → parseValue ctx (f + 1) l = .ok (v, r) →
        wfValue v = true ∧ TWf r := by
      intro l v r hl h
      rw [parseValue_succ] at h
      split at h
      · rename_i s l2
        cases habs : absFull s.data with
        | some c =>
          rw [habs] at h
          simp only [Except.ok.injEq, Prod.mk.injEq] at h
          obtain ⟨rfl, rfl⟩ := h
          refine ⟨?_, TWf_tail hl⟩
          simp only [wfValue, decide_eq_true_eq]
          exact absFull_valid habs
        | none =>
          rw [habs] at h
          simp only [Except.ok.injEq, Prod.mk.injEq] at h
          obtain ⟨rfl, rfl⟩ := h
          refine ⟨?_, TWf_tail hl⟩
          have hq := TWf_head hl
          simp only [tokWf] at hq
          simp only [wfValue, habs, Option.isNone_none, Bool.true_and]
          exact hq
      · rename_i n l2
        split at h
        · rename_i u l3
          split at h
          · rename_i k hk
            split at h
            · rename_i g l4
              split_ifs at h with hago <;>
              · simp only [Except.ok.injEq, Prod.mk.injEq] at h
                obtain ⟨rfl, rfl⟩ := h
                refine ⟨?_, ?_⟩
                · simp only [wfValue, decide_eq_true_eq]
                  exact validCivil_civilSub hnow _
                · first
                  | exact TWf_tail (TWf_tail (TWf_tail hl))
                  | exact TWf_tail (TWf_tail hl)
            · simp only [Except.ok.injEq, Prod.mk.injEq] at h
              obtain ⟨rfl, rfl⟩ := h
              refine ⟨?_, TWf_tail (TWf_tail hl)⟩
              simp only [wfValue, decide_eq_true_eq]
              exact validCivil_civilSub hnow _
          · split_ifs at h with hy
            · exact absCnlTail_sound h (TWf_tail (TWf_tail hl))
            · simp only [Except.ok.injEq, Prod.mk.injEq] at h
              obtain ⟨rfl, rfl⟩ := h
              exact ⟨rfl, TWf_tail hl⟩
        · rename_i mo d l3
          exact absIsoTail_sound h
            (TWf_tail (TWf_tail (TWf_tail (TWf_tail (TWf_tail hl)))))
        · simp only [Except.ok.injEq, Prod.mk.injEq] at h
          obtain ⟨rfl, rfl⟩ := h
          exact ⟨rfl, TWf_tail hl⟩
      · rename_i n fs l2
        simp only [Except.ok.injEq, Prod.mk.injEq] at h
        obtain ⟨rfl, rfl⟩ := h
        have hq := TWf_head hl
        simp only [tokWf] at hq
        exact ⟨by simp only [wfValue]; exact hq, TWf_tail hl⟩
      · rename_i w l2
        split_ifs at h with hn
        · simp only [Except.ok.injEq, Prod.mk.injEq] at h
          obtain ⟨rfl, rfl⟩ := h
          refine ⟨?_, TWf_tail hl⟩
          simp only [wfValue, decide_eq_true_eq]
          exact hnow
        · cases hb : boolOf ctx.mode w with
          | some b =>
            rw [hb] at h
            simp only [Except.ok.injEq, Prod.mk.injEq] at h
            obtain ⟨rfl, rfl⟩ := h
            exact ⟨rfl, TWf_tail hl⟩
          | none => rw [hb] at h; simp at h
      · rename_i l2
        split at h
        · rename_i l3
          simp only [Except.ok.injEq, Prod.mk.injEq] at h
          obtain ⟨rfl, rfl⟩ := h
          exact ⟨rfl, TWf_tail (TWf_tail hl)⟩
        · cases hv1 : parseValue ctx f l2 with
          | error e => rw [hv1] at h; simp at h
          | ok vr1 =>
            obtain ⟨v1, l3⟩ := vr1
            rw [hv1] at h
            try simp only [] at h
            obtain ⟨hw1, hl3⟩ := ihV _ _ _ (TWf_tail hl) hv1
            cases hr : listRest ctx f l3 with
            | error e => rw [hr] at h; simp at h
            | ok vsr =>
              obtain ⟨vs, l4⟩ := vsr
              rw [hr] at h
              try simp only [] at h
              obtain ⟨hws, hl4⟩ := ihL _ _ _ hl3 hr
              split at h
              · rename_i l5
                simp only [Except.ok.injEq, Prod.mk.injEq] at h
                obtain ⟨rfl, rfl⟩ := h
                refine ⟨?_, TWf_tail hl4⟩
                simp only [wfValue, wfVList, Bool.and_eq_true]
                exact ⟨hw1, hws⟩
              · simp at h
      · simp at h
    have HL : ∀ l vs r, TWf l → listRest ctx (f + 1) l = .ok (vs, r) →
        wfVList vs = true ∧ TWf r := by
      intro l vs r hl h
      rw [listRest_succ] at h
      split at h
      · rename_i l2
        cases hv1 : parseValue ctx f l2 with
        | error e => rw [hv1] at h; simp at h
        | ok vr1 =>
          obtain ⟨v1, l3⟩ := vr1
          rw [hv1] at h
          try simp only [] at h
          obtain ⟨hw1, hl3⟩ := ihV _ _ _ (TWf_tail hl) hv1
          cases hr : listRest ctx f l3 with
          | error e => rw [hr] at h; simp at h
          | ok vsr =>
            obtain ⟨vs2, l4⟩ := vsr
            rw [hr] at h
            try simp only [] at h
            obtain ⟨hws, hl4⟩ := ihL _ _ _ hl3 hr
            simp only [Except.ok.injEq, Prod.mk.injEq] at h
            obtain ⟨rfl, rfl⟩ := h
            refine ⟨?_, hl4⟩
            simp only [wfVList, Bool.and_eq_true]
            exact ⟨hw1, hws⟩
      · simp only [Except.ok.injEq, Prod.mk.injEq] at h
        obtain ⟨rfl, rfl⟩ := h
        exact ⟨rfl, hl⟩
    have HC : ∀ l n r, TWf l → parseCond ctx (f + 1) l = .ok (n, r) →
        wfNode n = true ∧ TWf r := by
      intro l n r hl h
      rw [parseCond_succ] at h
      split at h
      · rename_i w l2
        cases hf : fieldOf ctx.mode w with
        | none => rw [hf] at h; simp at h
        | some ft =>
          rw [hf] at h
          try simp only [] at h
          split at h
          · rename_i ow l3
            cases ho : opOf ctx.mode ow with
            | none => rw [ho] at h; simp at h
            | some op =>
              rw [ho] at h
              try simp only [] at h
              cases hv : parseValue ctx f l3 with
              | error e => rw [hv] at h; simp at h
              | ok vr1 =>
                obtain ⟨v1, l4⟩ := vr1
                rw [hv] at h
                try simp only [] at h
                obtain ⟨hw1, hl4⟩ := ihV _ _ _
                  (TWf_tail (TWf_tail hl)) hv
                simp only [Except.ok.injEq, Prod.mk.injEq] at h
                obtain ⟨rfl, rfl⟩ := h
                refine ⟨?_, hl4⟩
                simp only [wfNode, Bool.and_eq_true]
                exact ⟨by rw [fieldTypeOf_value]; rfl, hw1⟩
          · simp at h
      · simp at h
    have HAt : ∀ l n r, TWf l → parseAtom ctx (f + 1) l = .ok (n, r) →
        wfNode n = true ∧ TWf r := by
      intro l n r hl h
      rw [parseAtom_succ] at h
      split at h
      · rename_i l2
        cases ho : parseOr ctx f l2 with
        | error e => rw [ho] at h; simp at h
        | ok ar =>
          obtain ⟨a, l3⟩ := ar
          rw [ho] at h
          try simp only [] at h
          obtain ⟨hwa, hl3⟩ := ihO _ _ _ (TWf_tail hl) ho
          split at h
          · rename_i l4
            simp only [Except.ok.injEq, Prod.mk.injEq] at h
            obtain ⟨rfl, rfl⟩ := h
            exact ⟨hwa, TWf_tail hl3⟩
          · simp at h
      · exact ihC _ _ _ hl h
    have HN : ∀ l n r, TWf l → parseNot ctx (f + 1) l = .ok (n, r) →
        wfNode n = true ∧ TWf r := by
      intro l n r hl h
      rw [parseNot_succ] at h
      split at h
      · rename_i w l2
        split_ifs at h with hnot
        · cases ha : parseAtom ctx f l2 with
          | error e => rw [ha] at h; simp at h
          | ok ar =>
            obtain ⟨a, l3⟩ := ar
            rw [ha] at h
            try simp only [] at h
            obtain ⟨hwa, hl3⟩ := ihAt _ _ _ (TWf_tail hl) ha
            simp only [Except.ok.injEq, Prod.mk.injEq] at h
            obtain ⟨rfl, rfl⟩ := h
            refine ⟨?_, hl3⟩
            simp only [wfNode, Bool.and_eq_true]
            constructor
            · simp [NodeList.length, NodeList.toList]
            · simp [wfNodeList, hwa]
        · exact ihAt _ _ _ hl h
      · exact ihAt _ _ _ hl h
    have HAr : ∀ l ns r, TWf l → andRest ctx (f + 1) l = .ok (ns, r) →
        AllWfN ns ∧ TWf r := by
      intro l ns r hl h
      rw [andRest_succ] at h
      split at h
      · rename_i w l2
        split_ifs at h with hand
        · cases hb : parseNot ctx f l2 with
          | error e => rw [hb] at h; simp at h
          | ok br =>
            obtain ⟨b, l3⟩ := br
            rw [hb] at h
            try simp only [] at h
            obtain ⟨hwb, hl3⟩ := ihN _ _ _ (TWf_tail hl) hb
            cases hbs : andRest ctx f l3 with
            | error e => rw [hbs] at h; simp at h
            | ok bsr =>
              obtain ⟨bs, l4⟩ := bsr
              rw [hbs] at h
              try simp only [] at h
              obtain ⟨hwbs, hl4⟩ := ihAr _ _ _ hl3 hbs
              simp only [Except.ok.injEq, Prod.mk.injEq] at h
              obtain ⟨rfl, rfl⟩ := h
              refine ⟨?_, hl4⟩
              intro x hx
              rcases List.mem_cons.mp hx with rfl | hx
              · exact hwb
              · exact hwbs x hx
        · simp only [Except.ok.injEq, Prod.mk.injEq] at h
          obtain ⟨rfl, rfl⟩ := h
          exact ⟨by intro x hx; simp at hx, hl⟩
      · simp only [Except.ok.injEq, Prod.mk.injEq] at h
        obtain ⟨rfl, rfl⟩ := h
        exact ⟨by intro x hx; simp at hx, hl⟩
    have HA : ∀ l n r, TWf l → parseAnd ctx (f + 1) l = .ok (n, r) →
        wfNode n = true ∧ TWf r := by
      intro l n r hl h
      rw [parseAnd_succ] at h
      cases ha : parseNot ctx f l with
      | error e => rw [ha] at h; simp at h
      | ok ar =>
        obtain ⟨a, l1⟩ := ar
        rw [ha] at h
        try simp only [] at h
        obtain ⟨hwa, hl1⟩ := ihN _ _ _ hl ha
        cases hbs : andRest ctx f l1 with
        | error e => rw [hbs] at h; simp at h
        | ok bsr =>
          obtain ⟨bs, l2⟩ := bsr
          rw [hbs] at h
          try simp only [] at h
          obtain ⟨hwbs, hl2⟩ := ihAr _ _ _ hl1 hbs
          cases bs with
          | nil =>
            simp only [Except.ok.injEq, Prod.mk.injEq] at h
            obtain ⟨rfl, rfl⟩ := h
            exact ⟨hwa, hl1⟩
          | cons b bs2 =>
            simp only [Except.ok.injEq, Prod.mk.injEq] at h
            obtain ⟨rfl, rfl⟩ := h
            refine ⟨?_, hl2⟩
            have hall : AllWfN (a :: b :: bs2) := by
              intro x hx
              rcases List.mem_cons.mp hx with rfl | hx
              · exact hwa
              · exact hwbs x hx
            simp only [wfNode, Bool.and_eq_true]
            refine ⟨?_, wfNodeList_ofList hall⟩
            simp [length_ofList]
    have HOr : ∀ l L ns r, TWf l → orRest ctx (f + 1) L l = .ok (ns, r) →
        AllWfN ns ∧ TWf r := by
      intro l L ns r hl h
      rw [orRest_succ] at h
      split at h
      · rename_i w l2
        split_ifs at h with hor
        · cases hb : parseAnd ctx f l2 with
          | error e => rw [hb] at h; simp at h
          | ok br =>
            obtain ⟨b, l3⟩ := br
            rw [hb] at h
            try simp only [] at h
            obtain ⟨hwb, hl3⟩ := ihA _ _ _ (TWf_tail hl) hb
            cases hbs : orRest ctx f L l3 with
            | error e => rw [hbs] at h; simp at h
            | ok bsr =>
              obtain ⟨bs, l4⟩ := bsr
              rw [hbs] at h
              try simp only [] at h
              obtain ⟨hwbs, hl4⟩ := ihOr _ _ _ _ hl3 hbs
              simp only [Except.ok.injEq, Prod.mk.injEq] at h
              obtain ⟨rfl, rfl⟩ := h
              refine ⟨?_, hl4⟩
              intro x hx
              rcases List.mem_cons.mp hx with rfl | hx
              · exact hwb
              · exact hwbs x hx
        · simp only [Except.ok.injEq, Prod.mk.injEq] at h
          obtain ⟨rfl, rfl⟩ := h
          exact ⟨by intro x hx; simp at hx, hl⟩
      · simp only [Except.ok.injEq, Prod.mk.injEq] at h
        obtain ⟨rfl, rfl⟩ := h
        exact ⟨by intro x hx; simp at hx, hl⟩
    have HO : ∀ l n r, TWf l → parseOr ctx (f + 1) l = .ok (n, r) →
        wfNode n = true ∧ TWf r := by
      intro l n r hl h
      rw [parseOr_succ] at h
      cases ha : parseAnd ctx f l with
      | error e => rw [ha] at h; simp at h
      | ok ar =>
        obtain ⟨a, l1⟩ := ar
        rw [ha] at h
        try simp only [] at h
        obtain ⟨hwa, hl1⟩ := ihA _ _ _ hl ha
        split at h
        · rename_i w l2
          cases hlo : logicOf ctx.mode w with
          | none =>
            rw [hlo] at h
            try simp only [] at h
            simp only [Except.ok.injEq, Prod.mk.injEq] at h
            obtain ⟨rfl, rfl⟩ := h
            exact ⟨hwa, hl1⟩
          | some L =>
            rw [hlo] at h
            try simp only [] at h
            split_ifs at h with han
            · simp only [Except.ok.injEq, Prod.mk.injEq] at h
              obtain ⟨rfl, rfl⟩ := h
              exact ⟨hwa, hl1⟩
            · cases hb : parseAnd ctx f l2 with
              | error e => rw [hb] at h; simp at h
              | ok br =>
                obtain ⟨b, l3⟩ := br
                rw [hb] at h
                try simp only [] at h
                obtain ⟨hwb, hl3⟩ := ihA _ _ _ (TWf_tail hl1) hb
                cases hbs : orRest ctx f L l3 with
                | error e => rw [hbs] at h; simp at h
                | ok bsr =>
                  obtain ⟨bs, l4⟩ := bsr
                  rw [hbs] at h
                  try simp only [] at h
                  obtain ⟨hwbs, hl4⟩ := ihOr _ _ _ _ hl3 hbs
                  simp only [Except.ok.injEq, Prod.mk.injEq] at h
                  obtain ⟨rfl, rfl⟩ := h
                  refine ⟨?_, hl4⟩
                  have hall : AllWfN (a :: b :: bs) := by
                    intro x hx
                    rcases List.mem_cons.mp hx with rfl | hx
                    · exact hwa
                    rcases List.mem_cons.mp hx with rfl | hx
                    · exact hwb
                    · exact hwbs x hx
                  simp only [wfNode, Bool.and_eq_true]
                  refine ⟨?_, wfNodeList_ofList hall⟩
                  have hnn : L ≠ .not := by
                    intro hc
                    exact han (Or.inr hc)
                  simp [length_ofList, hnn]
        · simp only [Except.ok.injEq, Prod.mk.injEq] at h
          obtain ⟨rfl, rfl⟩ := h
          exact ⟨hwa, hl1⟩
    exact ⟨HV, HL, HC, HAt, HN, HAr, HA, HOr, HO⟩

theorem fieldTypeOf_eq {f : String} {ft : FieldType}
    (h : fieldTypeOf f = some ft) : ft.value = f := by
  unfold fieldTypeOf at h
  split_ifs at h with h1 h2 h3 h4 h5 h6 h7 h8 <;>
    simp only [Option.some.injEq] at h <;>
    subst h <;> simp [FieldType.value, *]

/-- Top-level parser soundness: a successfully parsed rule text yields a
well-formed tree. -/
theorem parseRule_wf {t : String} {mode : Mode} {now : Civil} {n : RuleNode}
    (hnow : ValidCivil now) (h : parseRule t mode now = .ok n) :
    wfNode n = true := by
  unfold parseRule at h
  cases hlex : lexAux mode t.data with
  | error e => rw [hlex] at h; simp at h
  | ok toks =>
    rw [hlex] at h
    try simp only [] at h
    have htw : TWf toks := lexAux_tokWf hlex
    cases hp : parseOr ⟨mode, now⟩ (8 * (toks.length + 1)) toks with
    | error e => rw [hp] at h; cases e <;> simp at h
    | ok nr =>
      obtain ⟨n2, rest⟩ := nr
      rw [hp] at h
      try simp only [] at h
      have hs := (parse_sound ⟨mode, now⟩ hnow (8 * (toks.length + 1))).2.2.2.2.2.2.2.2
      obtain ⟨hwf, -⟩ := hs _ _ _ htw hp
      cases rest with
      | nil =>
        simp only [Except.ok.injEq] at h
        subst h
        exact hwf
      | cons x xs => simp at h

/-! ## Arity invariant (spec §3: NOT unary, others n-ary ≥ 2) -/

mutual

/-- The logic-arity invariant over a tree. -/
def ArityOk : RuleNode → Prop
  | .cond _ _ _ => True
  | .group lg cs =>
    (if lg = .not then cs.length = 1 else 2 ≤ cs.length) ∧ ArityOkList cs

/-- The invariant over all children. -/
def ArityOkList : NodeList → Prop
  | .nil => True
  | .cons n t => ArityOk n ∧ ArityOkList t

end

mutual

theorem wfNode_arity : ∀ n : RuleNode, wfNode n = true → ArityOk n
  | .cond _ _ _, _ => trivial
  | .group lg cs, h => by
    simp only [wfNode, Bool.and_eq_true] at h
    obtain ⟨h1, h2⟩ := h
    refine ⟨?_, wfNodeList_arity cs h2⟩
    split_ifs at h1 ⊢ with hng
    · simpa using h1
    · simpa using h1

theorem wfNodeList_arity : ∀ cs : NodeList, wfNodeList cs = true → ArityOkList cs
  | .nil, _ => trivial
  | .cons n t, h => by
    simp only [wfNodeList, Bool.and_eq_true] at h
    exact ⟨wfNode_arity n h.1, wfNodeList_arity t h.2⟩

end

/-! ## Closed-vocabulary invariant on condition fields -/

mutual

/-- Every condition's field carries the runtime value of a `FieldType`
member. -/
def FieldsClosed : RuleNode → Prop
  | .cond f _ _ => ∃ ft : FieldType, f = ft.value
  | .group _ cs => FieldsClosedList cs

/-- The invariant over all children. -/
def FieldsClosedList : NodeList → Prop
  | .nil => True
  | .cons n t => FieldsClosed n ∧ FieldsClosedList t

end

mutual

theorem wfNode_fields : ∀ n : RuleNode, wfNode n = true → FieldsClosed n
  | .cond f op v, h => by
    simp only [wfNode, Bool.and_eq_true, Option.isSome_iff_exists] at h
    obtain ⟨⟨ft, hft⟩, -⟩ := h
    exact ⟨ft, (fieldTypeOf_eq hft).symm⟩
  | .group lg cs, h => by
    simp only [wfNode, Bool.and_eq_true] at h
    exact wfNodeList_fields cs h.2

theorem wfNodeList_fields : ∀ cs : NodeList, wfNodeList cs = true → FieldsClosedList cs
  | .nil, _ => trivial
  | .cons n t, h => by
    simp only [wfNodeList, Bool.and_eq_true] at h
    exact ⟨wfNode_fields n h.1, wfNodeList_fields t h.2⟩

end

/-! ## The trigger-compatibility walk as a DFS specification (C2) -/

mutual

theorem checkTrigger_dfs : ∀ (n : RuleNode) (tt : TargetType),
    checkTrigger n tt =
      ((dfsFields n).find? (fun f => !fieldValidFor f tt)).map (fun f => compatMsg f tt)
  | .cond f op v, tt => by
    simp only [checkTrigger, dfsFields, List.find?]
    by_cases hv : fieldValidFor f tt
    · simp [hv]
    · rw [Bool.not_eq_true] at hv
      simp [hv]
  | .group lg cs, tt => by
    simp only [checkTrigger, dfsFields]
    exact checkTriggerList_dfs cs tt

theorem checkTriggerList_dfs : ∀ (cs : NodeList) (tt : TargetType),
    checkTriggerList cs tt =
      ((dfsFieldsList cs).find? (fun f => !fieldValidFor f tt)).map (fun f => compatMsg f tt)
  | .nil, tt => by simp [checkTriggerList, dfsFieldsList]
  | .cons n t, tt => by
    simp only [checkTriggerList, dfsFieldsList, List.find?_append]
    rw [checkTrigger_dfs n tt, checkTriggerList_dfs t tt]
    cases hf : (dfsFields n).find? (fun f => !fieldValidFor f tt) with
    | some m => simp
    | none => simp

end

/-- The token-level scan loop emits nothing when no suffix of the input
matches. -/
theorem scanToksF_noMatch (mode : Mode) (now : Civil) : ∀ (f : Nat) (toks : List Tok),
    (∀ i, i ≤ toks.length → tryToks mode now (toks.drop i) = none) →
    scanToksF mode now f toks = [] := by
  intro f
  induction f with
  | zero => intro toks _; rfl
  | succ f ih =>
    intro toks h
    cases toks with
    | nil => rfl
    | cons t ts =>
      have h0 := h 0 (by omega)
      rw [List.drop_zero] at h0
      rw [scanToksF.eq_def]
      simp only [h0]
      exact ih ts (fun i hi => by
        have := h (i + 1) (by simp; omega)
        rwa [List.drop_succ_cons] at this)

/-- A concrete valid clock instant used by witnesses (the repository's
datetime tests pin `now = 2023-10-01 12:00:00`). -/
def testNow : Civil := ⟨2023, 10, 1, 12, 0, 0⟩

/-! ## Claim theorems -/

/-- C2: constructing a `ReviewRule` performs a recursive depth-first walk
of its trigger tree and fails, with a message naming the offending field
and the target type, at the first field (in depth-first order) outside
the target type's allowed set; construction succeeds exactly when every
reachable field is valid for the rule's `target_type`. -/
theorem claim_C2_reviewRule_trigger_check (rid fid : Int) (tt : TargetType)
    (name : String) (enabled : Bool) (priority : Int) (trigger : RuleNode)
    (actions : List Action) :
    mkReviewRule rid fid tt name enabled priority trigger actions =
      match (dfsFields trigger).find? (fun f => !fieldValidFor f tt) with
      | some f =>
        .error ("Field '" ++ f ++ "' is not valid for target_type '" ++ tt.value ++ "'")
      | none => .ok ⟨rid, fid, tt, name, enabled, priority, trigger, actions⟩ := by
  unfold mkReviewRule
  rw [checkTrigger_dfs]
  cases hf : (dfsFields trigger).find? (fun f => !fieldValidFor f tt) with
  | some f => simp [compatMsg]
  | none => simp

/-- C3: `validate` never raises: it returns `(true, absent)` exactly on
inputs `parse_rule` accepts, and `(false, m)` with a present diagnostic
message `m` on every input `parse_rule` rejects. -/
theorem claim_C3_validate_contract (t : String) (mode : Mode) (now : Civil) :
    (∀ n, parseRule t mode now = .ok n → validate t mode now = (true, none)) ∧
    (∀ e, parseRule t mode now = .error e → validate t mode now = (false, some e)) := by
  constructor <;> intro x hx <;> simp [validate, hx]

/-- Witness for C3 at concrete inputs: a syntactically valid rule
validates to `(true, none)`; an incomplete condition validates to
`(false, some diagnostic)`. -/
theorem claim_C3_witness :
    validate "title contains 'hello'" .dsl testNow = (true, none) ∧
      validate "title contains" .dsl testNow =
        (false, some "Parsing failed at position 2") :=
  ⟨(claim_C3_validate_contract "title contains 'hello'" .dsl testNow).1 _ (by rfl),
   (claim_C3_validate_contract "title contains" .dsl testNow).2 _ (by rfl)⟩

/-- C4: with the injected current time fixed at a valid instant `T`,
`"create_time > 1d"` (DSL) and its CNL spellings `创建时间大于1天` /
`创建时间大于1天前` all parse to the condition `create_time > T − 1 day`
(`civilSub T 86400`, which is exactly one calendar day earlier with the
time of day kept: `prevDay T`); the units `h`, `m`, `s` subtract 3600,
60 and 1 seconds analogously; and the case-insensitive `NOW` keyword
parses to exactly `T`. -/
theorem claim_C4_relative_time (T : Civil) (h : ValidCivil T) :
    parseRule "create_time > 1d" .dsl T =
        .ok (.cond "create_time" .gt (.vtime (civilSub T 86400))) ∧
      parseRule "创建时间大于1天" .cnl T =
        .ok (.cond "create_time" .gt (.vtime (civilSub T 86400))) ∧
      parseRule "创建时间大于1天前" .cnl T =
        .ok (.cond "create_time" .gt (.vtime (civilSub T 86400))) ∧
      civilSub T 86400 = prevDay T ∧
      parseRule "create_time > 1h" .dsl T =
        .ok (.cond "create_time" .gt (.vtime (civilSub T 3600))) ∧
      parseRule "create_time > 1m" .dsl T =
        .ok (.cond "create_time" .gt (.vtime (civilSub T 60))) ∧
      parseRule "create_time > 1s" .dsl T =
        .ok (.cond "create_time" .gt (.vtime (civilSub T 1))) ∧
      parseRule "create_time > NOW" .dsl T =
        .ok (.cond "create_time" .gt (.vtime T)) ∧
      parseRule "create_time > now" .dsl T =
        .ok (.cond "create_time" .gt (.vtime T)) :=
  ⟨rfl, rfl, rfl, civilSub_day h, rfl, rfl, rfl, rfl, rfl⟩

/-- Witness for C4 at the tests' pinned clock: one day before
`2023-10-01 12:00:00` is `2023-09-30 12:00:00`. -/
theorem claim_C4_witness :
    ValidCivil testNow ∧
      parseRule "create_time > 1d" .dsl testNow =
        .ok (.cond "create_time" .gt (.vtime ⟨2023, 9, 30, 12, 0, 0⟩)) :=
  ⟨by decide, by rw [(claim_C4_relative_time testNow (by decide)).1]; rfl⟩

/-- C6: a field word outside the active mode's vocabulary fails the
whole parse as `unknownField` naming the word, an operator word outside
the vocabulary fails as `unknownOperator` naming the word, these
surface from `parse_rule` as "Unknown field: …" / "Unknown operator: …"
messages with no partial result, and every tree `parse_rule` does
return draws all its condition fields from the closed `FieldType`
vocabulary. -/
theorem claim_C6_unknown_tokens :
    (∀ (ctx : Ctx) (f : Nat) (w : String) (l2 : List Tok),
      fieldOf ctx.mode w = none →
      parseCond ctx (f + 1) (.word w :: l2) = .error (.unknownField w)) ∧
    (∀ (ctx : Ctx) (f : Nat) (w ow : String) (ft : FieldType) (l3 : List Tok),
      fieldOf ctx.mode w = some ft → opOf ctx.mode ow = none →
      parseCond ctx (f + 1) (.word w :: .word ow :: l3) =
        .error (.unknownOperator ow)) ∧
    (∀ (text : String) (mode : Mode) (now : Civil) (toks : List Tok) (w : String),
      lexAux mode text.data = .ok toks →
      parseOr ⟨mode, now⟩ (8 * (toks.length + 1)) toks = .error (.unknownField w) →
      parseRule text mode now =
        .error ("Parsing failed: Unknown field: '" ++ w ++ "'")) ∧
    (∀ (text : String) (mode : Mode) (now : Civil) (toks : List Tok) (w : String),
      lexAux mode text.data = .ok toks →
      parseOr ⟨mode, now⟩ (8 * (toks.length + 1)) toks = .error (.unknownOperator w) →
      parseRule text mode now =
        .error ("Parsing failed: Unknown operator: '" ++ w ++ "'")) ∧
    (∀ (text : String) (mode : Mode) (now : Civil) (n : RuleNode),
      ValidCivil now → parseRule text mode now = .ok n → FieldsClosed n) := by
  refine ⟨?_, ?_, ?_, ?_, ?_⟩
  · intro ctx f w l2 h
    rw [parseCond_succ]
    simp only [h]
  · intro ctx f w ow ft l3 hf ho
    rw [parseCond_succ]
    simp only [hf, ho]
  · intro text mode now toks w hlex hp
    rw [parseRule.eq_def, hlex]
    simp only [hp]
  · intro text mode now toks w hlex hp
    rw [parseRule.eq_def, hlex]
    simp only [hp]
  · intro text mode now n hnow hp
    exact wfNode_fields n (parseRule_wf hnow hp)

/-- Witness for C6 at concrete inputs mirroring
`test_to_rule_node_errors`. -/
theorem claim_C6_witness :
    parseRule "unknown_field == 1" .dsl testNow =
        .error "Parsing failed: Unknown field: 'unknown_field'" ∧
      parseRule "title >> 'x'" .dsl testNow =
        .error "Parsing failed: Unknown operator: '>>'" :=
  ⟨claim_C6_unknown_tokens.2.2.1 "unknown_field == 1" .dsl testNow
      [.word "unknown_field", .word "==", .num 1 none] "unknown_field"
      (by rfl) (by rfl),
   claim_C6_unknown_tokens.2.2.2.1 "title >> 'x'" .dsl testNow
      [.word "title", .word ">>", .str "x"] ">>" (by rfl) (by rfl)⟩

/-- C8: on the spec's mixed text the scanner yields exactly the two
embedded conditions, left to right, directly as `Condition` nodes
(the parenthesized one collapses to its single child); the token-level
scan loop yields `[]` (without failing) whenever no suffix of the input
matches; and a concrete no-rule text scans to `[]`. -/
theorem claim_C8_scan (T : Civil) :
    scanRules "noise title contains 'x' noise (author.level > 5)" .dsl T =
        [.cond "title" .contains (.vstr "x"), .cond "level" .gt (.vint 5)] ∧
      (∀ (mode : Mode) (now : Civil) (toks : List Tok),
        (∀ i, i ≤ toks.length → tryToks mode now (toks.drop i) = none) →
        scanToks mode now toks = []) ∧
      scanRules "hello world nothing here" .dsl T = [] :=
  ⟨by rfl,
   fun mode now toks h => scanToksF_noMatch mode now _ toks h,
   by rfl⟩

/-- Witness for C8: the no-match loop lemma applied to a concrete
unmatchable token list. -/
theorem claim_C8_witness :
    scanToks .dsl testNow [.word "hello", .word "world"] = [] :=
  (claim_C8_scan testNow).2.1 .dsl testNow [.word "hello", .word "world"]
    (by decide)

/-- C7: `dump_rule` succeeds on every `Condition`/`RuleGroup` tree —
rendering an unrecognized field tag as its raw string — and fails with
an explicit "Unknown node type" error exactly on arguments that are
neither. -/
theorem claim_C7_dump_totality :
    (∀ (n : RuleNode) (mode : Mode), ∃ s, dumpRule (.node n) mode = .ok s) ∧
    (∀ (f : String) (op : OperatorType) (v : Value), fieldTypeOf f = none →
      dumpRule (.node (.cond f op v)) .dsl =
        .ok (f ++ " " ++ opPrimary .dsl op ++ " " ++ dumpValue .dsl v)) ∧
    (∀ (r : String) (mode : Mode),
      dumpRule (.foreign r) mode = .error ("Unknown node type: " ++ r)) := by
  refine ⟨fun n mode => ⟨dumpNode mode n, rfl⟩, ?_, fun r mode => rfl⟩
  intro f op v hf
  simp [dumpRule, dumpNode, fieldText, hf]

/-- Witness for C7 at a concrete foreign field tag, mirroring
`test_dump_unknown_field_graceful`. -/
theorem claim_C7_witness :
    dumpRule (.node (.cond "custom_field" .eq (.vint 1))) .dsl =
      .ok "custom_field == 1" := by
  have := claim_C7_dump_totality.2.1 "custom_field" .eq (.vint 1) (by rfl)
  simpa using this

/-- C9: every tree returned by `parse_rule` satisfies the logic-arity
invariant: a NOT group has exactly one child and every other group has
at least two. -/
theorem claim_C9_parse_arity (t : String) (mode : Mode) (now : Civil)
    (n : RuleNode) (hnow : ValidCivil now) (h : parseRule t mode now = .ok n) :
    ArityOk n :=
  wfNode_arity n (parseRule_wf hnow h)

set_option maxHeartbeats 1000000 in
/-- Witness for C9 at a concrete parse covering OR, AND and NOT groups. -/
theorem claim_C9_witness :
    ValidCivil testNow ∧
      ArityOk (RuleNode.group .or (.cons
        (.group .and (.cons (.cond "text" .eq (.vint 1))
          (.cons (.cond "text" .eq (.vint 2)) .nil)))
        (.cons (.group .not (.cons (.cond "text" .eq (.vint 3)) .nil))
          .nil))) :=
  ⟨by decide,
   claim_C9_parse_arity "(text == 1 AND text == 2) OR NOT text == 3"
     .dsl testNow _ (by decide) (by rfl)⟩

/-- C10: constructing an `Action` without a `params` argument yields
exactly the empty parameter mapping (`default_factory=dict` in
`schemas/rules.py`), and an explicit mapping is stored unchanged. -/
theorem claim_C10_action_default_params (t : ActionType) :
    (mkAction t none).params = [] ∧
      ∀ p : List (String × Value), (mkAction t (some p)).params = p :=
  ⟨rfl, fun _ => rfl⟩

end TiebaMeow

namespace TiebaMeow

theorem digitChar_toNat {n : Nat} (h : n < 10) : (digitChar n).toNat = 48 + n := by
  interval_cases n <;> decide

theorem digitChar_isDigit {n : Nat} (h : n < 10) : isDigitChar (digitChar n) = true := by
  interval_cases n <;> decide

theorem natOfDigits_append_one (l : List Char) (c : Char) :
    natOfDigits (l ++ [c]) = natOfDigits l * 10 + (c.toNat - 48) := by
  simp [natOfDigits, List.foldl_append]

theorem natDigitsF_spec : ∀ (f n : Nat), 0 < f → n < 10 ^ f →
    (natDigitsF f n).all isDigitChar = true ∧
      natOfDigits (natDigitsF f n) = n ∧ natDigitsF f n ≠ [] := by
  intro f
  induction f with
  | zero => intro n h; omega
  | succ f ih =>
    intro n _ h
    rw [natDigitsF.eq_def]
    simp only []
    split_ifs with h10
    · refine ⟨by simp [digitChar_isDigit h10], ?_, by simp⟩
      simp [natOfDigits, digitChar_toNat h10]
    · have hf : 0 < f := by
        cases f with
        | zero => simp at h; omega
        | succ g => omega
      have hdiv : n / 10 < 10 ^ f := by
        have : 10 ^ (f + 1) = 10 ^ f * 10 := by ring
        omega
      obtain ⟨ha, hv, hne⟩ := ih (n / 10) hf hdiv
      have hm : n % 10 < 10 := Nat.mod_lt _ (by omega)
      refine ⟨?_, ?_, by simp⟩
      · simp only [List.all_append, ha, Bool.true_and]
        simp [digitChar_isDigit hm]
      · rw [natOfDigits_append_one, hv, digitChar_toNat hm]
        omega

theorem natDigits_spec (n : Nat) :
    (natDigits n).all isDigitChar = true ∧
      natOfDigits (natDigits n) = n ∧ natDigits n ≠ [] := by
  have h : n < 10 ^ (n + 1) := by
    calc n < 10 ^ n := Nat.lt_pow_self (by omega) n
    _ ≤ 10 ^ (n + 1) := Nat.pow_le_pow_right (by omega) (by omega)
  exact natDigitsF_spec (n + 1) n (by omega) h

theorem natOfDigits_replicate_zero (j : Nat) (l : List Char) :
    natOfDigits (List.replicate j '0' ++ l) = natOfDigits l := by
  induction j with
  | zero => simp
  | succ j ih =>
    rw [List.replicate_succ]
    simpa using ih

theorem padNat_spec (k n : Nat) :
    (padNat k n).all isDigitChar = true ∧
      natOfDigits (padNat k n) = n ∧ padNat k n ≠ [] := by
  obtain ⟨ha, hv, hne⟩ := natDigits_spec n
  unfold padNat
  refine ⟨?_, ?_, by simp [hne]⟩
  · rw [List.all_append, ha, Bool.and_true, List.all_eq_true]
    intro c hc
    rw [List.eq_of_mem_replicate hc]
    decide
  · rw [natOfDigits_replicate_zero]
    exact hv

end TiebaMeow

namespace TiebaMeow

/-- No character may follow that satisfies `p` (boundary condition for
maximal-munch chunks). -/
def Bd (p : Char → Bool) (rest : List Char) : Prop :=
  ∀ c r, rest = c :: r → p c = false

theorem Bd_nil (p : Char → Bool) : Bd p [] := fun _ _ h => by simp at h

theorem Bd_cons {p : Char → Bool} {c : Char} (h : p c = false) (r : List Char) :
    Bd p (c :: r) := fun d s hd => by
  injection hd with h1 _
  exact h1 ▸ h

theorem takeWhile_append_all {p : Char → Bool} : ∀ (l rest : List Char),
    l.all p = true → Bd p rest → (l ++ rest).takeWhile p = l := by
  intro l
  induction l with
  | nil =>
    intro rest _ hbd
    cases rest with
    | nil => rfl
    | cons c r =>
      simp only [List.nil_append, List.takeWhile_cons, hbd c r rfl]
      simp
  | cons c cs ih =>
    intro rest hall hbd
    rw [List.all_cons, Bool.and_eq_true] at hall
    simp only [List.cons_append, List.takeWhile_cons, hall.1]
    rw [ih rest hall.2 hbd]
    simp

theorem dropWhile_append_all {p : Char → Bool} : ∀ (l rest : List Char),
    l.all p = true → Bd p rest → (l ++ rest).dropWhile p = rest := by
  intro l
  induction l with
  | nil =>
    intro rest _ hbd
    cases rest with
    | nil => rfl
    | cons c r =>
      simp only [List.nil_append, List.dropWhile_cons, hbd c r rfl]
      simp
  | cons c cs ih =>
    intro rest hall hbd
    rw [List.all_cons, Bool.and_eq_true] at hall
    simp only [List.cons_append, List.dropWhile_cons, hall.1]
    simpa using ih rest hall.2 hbd

theorem readNat_of {l rest : List Char} (hall : l.all isDigitChar = true)
    (hne : l ≠ []) (hbd : Bd isDigitChar rest) :
    readNat (l ++ rest) = some (natOfDigits l, rest) := by
  unfold readNat
  rw [takeWhile_append_all l rest hall hbd, dropWhile_append_all l rest hall hbd]
  cases l with
  | nil => exact absurd rfl hne
  | cons c cs => rfl

theorem readNat_pad (k n : Nat) {rest : List Char} (hbd : Bd isDigitChar rest) :
    readNat (padNat k n ++ rest) = some (n, rest) := by
  obtain ⟨ha, hv, hne⟩ := padNat_spec k n
  rw [readNat_of ha hne hbd, hv]

theorem readNat_pad_nil (k n : Nat) : readNat (padNat k n) = some (n, []) := by
  have := @readNat_pad k n [] (Bd_nil _)
  simpa using this

theorem absCore_fmt {c : Civil} (h : ValidCivil c) (sign : Int)
    (hsy : sign * c.year.natAbs = c.year) :
    absCore sign (padNat 4 c.year.natAbs ++ ('-' :: (padNat 2 c.month ++
      ('-' :: (padNat 2 c.day ++ (' ' :: (padNat 2 c.hour ++
      (':' :: (padNat 2 c.minute ++ (':' :: padNat 2 c.second)))))))))) =
      some c := by
  have bdDash : ∀ r : List Char, Bd isDigitChar ('-' :: r) :=
    fun r => Bd_cons (by decide) r
  have bdSp : ∀ r : List Char, Bd isDigitChar (' ' :: r) :=
    fun r => Bd_cons (by decide) r
  have bdCol : ∀ r : List Char, Bd isDigitChar (':' :: r) :=
    fun r => Bd_cons (by decide) r
  rw [absCore.eq_def]
  rw [readNat_pad 4 c.year.natAbs (bdDash _)]
  simp only []
  simp only [expectChar, if_pos]
  rw [readNat_pad 2 c.month (bdDash _)]
  simp only []
  simp only [expectChar, if_pos]
  rw [readNat_pad 2 c.day (bdSp _)]
  simp only []
  rw [readNat_pad 2 c.hour (bdCol _)]
  simp only []
  simp only [expectChar, if_pos]
  rw [readNat_pad 2 c.minute (bdCol _)]
  simp only []
  simp only [expectChar, if_pos]
  rw [readNat_pad_nil 2 c.second]
  simp only [if_pos]
  unfold mkCivil
  rw [hsy]
  simp only []
  rw [if_pos h]

theorem absFull_fmtAbs {c : Civil} (h : ValidCivil c) :
    absFull (fmtAbs c) = some c := by
  by_cases hy : c.year < 0
  · have hfmt : fmtAbs c = '-' :: (padNat 4 c.year.natAbs ++ ('-' :: (padNat 2 c.month ++
        ('-' :: (padNat 2 c.day ++ (' ' :: (padNat 2 c.hour ++
        (':' :: (padNat 2 c.minute ++ (':' :: padNat 2 c.second)))))))))) := by
      simp [fmtAbs, hy, List.append_assoc]
    rw [hfmt]
    rw [absFull.eq_def]
    simp only []
    exact absCore_fmt h (-1) (by omega)
  · obtain ⟨d, ds, hdd⟩ : ∃ d ds, padNat 4 c.year.natAbs = d :: ds := by
      obtain ⟨-, -, hne⟩ := padNat_spec 4 c.year.natAbs
      cases hp : padNat 4 c.year.natAbs with
      | nil => exact absurd hp hne
      | cons d ds => exact ⟨d, ds, rfl⟩
    have hd : isDigitChar d = true := by
      obtain ⟨ha, -, -⟩ := padNat_spec 4 c.year.natAbs
      rw [hdd, List.all_cons, Bool.and_eq_true] at ha
      exact ha.1
    have hdne : d ≠ '-' := by
      intro hcon
      rw [hcon] at hd
      exact absurd hd (by decide)
    have hfmt : fmtAbs c = padNat 4 c.year.natAbs ++ ('-' :: (padNat 2 c.month ++
        ('-' :: (padNat 2 c.day ++ (' ' :: (padNat 2 c.hour ++
        (':' :: (padNat 2 c.minute ++ (':' :: padNat 2 c.second))))))))) := by
      simp [fmtAbs, hy, List.append_assoc]
    rw [hfmt, hdd, List.cons_append, absFull.eq_def]
    split
    · rename_i heq
      injection heq with h1 _
      exact absurd h1 hdne
    · rw [← List.cons_append, ← hdd]
      exact absCore_fmt h 1 (by omega)

end TiebaMeow

namespace TiebaMeow

/-! ## Lexer composition: lexing a concatenation chunk by chunk -/

theorem lexAux_step {mode : Mode} {ot : Option Tok} {l l2 : List Char}
    (h : lexStep mode l = some (ot, l2)) :
    lexAux mode l =
      (lexAux mode l2).map (fun ts => match ot with | none => ts | some t => t :: ts) := by
  have hlt := lexStep_length h
  unfold lexAux
  rw [lexAuxF.eq_def]
  simp only [h]
  rw [lexAuxF_fuel mode l2.length l.length (l2.length + 1) l2 (le_refl _) hlt (by omega)]
  cases lexAuxF mode (l2.length + 1) l2 with
  | error e => rfl
  | ok ts => cases ot <;> rfl

/-- `l` lexes to exactly the tokens `ts` in front of any continuation
whose first character satisfies `p` (or in front of the empty rest). -/
def LexesP (mode : Mode) (l : List Char) (ts : List Tok) (p : Char → Prop) : Prop :=
  ∀ rest : List Char, (rest = [] ∨ ∃ c r, rest = c :: r ∧ p c) →
    lexAux mode (l ++ rest) = (lexAux mode rest).map (fun us => ts ++ us)

theorem LexesP.mono {mode : Mode} {l : List Char} {ts : List Tok}
    {p q : Char → Prop} (h : LexesP mode l ts p) (hq : ∀ c, q c → p c) :
    LexesP mode l ts q := fun rest hr =>
  h rest (hr.imp id (fun ⟨c, r, he, hc⟩ => ⟨c, r, he, hq c hc⟩))

theorem LexesP.refl_nil (mode : Mode) (p : Char → Prop) :
    LexesP mode [] [] p := fun rest _ => by
  rw [List.nil_append]
  cases lexAux mode rest <;> simp [Except.map]

theorem LexesP.comp {mode : Mode} {a b : List Char} {ta tb : List Tok}
    {p q : Char → Prop} {c : Char} {r : List Char}
    (ha : LexesP mode a ta p) (hb : LexesP mode b tb q)
    (hbc : b = c :: r) (hpc : p c) :
    LexesP mode (a ++ b) (ta ++ tb) q := by
  intro rest hr
  rw [List.append_assoc]
  rw [ha (b ++ rest) (Or.inr ⟨c, r ++ rest, by rw [hbc]; rfl, hpc⟩)]
  rw [hb rest hr]
  cases lexAux mode rest <;> simp [Except.map]

theorem LexesP.ofStep {mode : Mode} {a : List Char} {tok : Tok} {p : Char → Prop}
    (h : ∀ rest, (rest = [] ∨ ∃ c r, rest = c :: r ∧ p c) →
      lexStep mode (a ++ rest) = some (some tok, rest)) :
    LexesP mode a [tok] p := by
  intro rest hr
  rw [lexAux_step (h rest hr)]
  cases lexAux mode rest <;> rfl

theorem LexesP.ofStepNone {mode : Mode} {a : List Char} {p : Char → Prop}
    (h : ∀ rest, (rest = [] ∨ ∃ c r, rest = c :: r ∧ p c) →
      lexStep mode (a ++ rest) = some (none, rest)) :
    LexesP mode a [] p := by
  intro rest hr
  rw [lexAux_step (h rest hr)]
  cases lexAux mode rest <;> rfl

/-- A space lexes to no token in front of anything. -/
theorem lexes_ws (mode : Mode) (p : Char → Prop) : LexesP mode [' '] [] p :=
  LexesP.ofStepNone (fun _ _ => rfl)

/-! Character-class exclusivity helpers for the branch order of
`lexStep`. -/

theorem isDigit_not_ws {c : Char} (h : isDigitChar c = true) : isWsChar c = false := by
  refine decide_eq_false ?_
  rintro (rfl | rfl | rfl | rfl) <;> exact absurd h (by decide)

theorem isDigit_not_quote {c : Char} (h : isDigitChar c = true) :
    ¬(c = '\'' ∨ c = '"') := by
  rintro (rfl | rfl) <;> exact absurd h (by decide)

theorem isIdentStart_not_ws {c : Char} (h : isIdentStart c = true) :
    isWsChar c = false := by
  refine decide_eq_false ?_
  rintro (rfl | rfl | rfl | rfl) <;> exact absurd h (by decide)

theorem isIdentStart_not_quote {c : Char} (h : isIdentStart c = true) :
    ¬(c = '\'' ∨ c = '"') := by
  rintro (rfl | rfl) <;> exact absurd h (by decide)

theorem isIdentStart_not_digit {c : Char} (h : isIdentStart c = true) :
    isDigitChar c = false := by
  refine decide_eq_false ?_
  intro hd
  have h' : ('a' ≤ c ∧ c ≤ 'z') ∨ ('A' ≤ c ∧ c ≤ 'Z') ∨ c = '_' := of_decide_eq_true h
  have hd' : '0' ≤ c ∧ c ≤ '9' := hd
  obtain ⟨h1, h2⟩ := hd'
  rcases h' with ⟨h3, h4⟩ | ⟨h3, h4⟩ | rfl
  · exact absurd (le_trans h3 h2) (by decide)
  · exact absurd (le_trans h3 h2) (by decide)
  · exact absurd hd (by decide)

/-- A maximal identifier run lexes to one word token. -/
theorem lexStep_ident {mode : Mode} {c0 : Char} {cs rest : List Char}
    (hst : isIdentStart c0 = true)
    (hall : (c0 :: cs).all isIdentChar = true) (hbd : Bd isIdentChar rest) :
    lexStep mode ((c0 :: cs) ++ rest) =
      some (some (.word (String.mk ((c0 :: cs)))), rest) := by
  rw [List.cons_append, lexStep.eq_def]
  simp only []
  rw [if_neg (by simp [isIdentStart_not_ws hst]),
    if_neg (isIdentStart_not_quote hst),
    if_neg (by simp [isIdentStart_not_digit hst]),
    if_pos (by simp [hst])]
  rw [← List.cons_append,
    takeWhile_append_all _ rest hall hbd, dropWhile_append_all _ rest hall hbd]

theorem isSymChar_cases {c : Char} (h : isSymChar c = true) :
    c = '=' ∨ c = '<' ∨ c = '>' ∨ c = '!' ∨ c = '?' := of_decide_eq_true h

/-- A maximal operator-symbol run lexes to one word token. -/
theorem lexStep_sym {mode : Mode} {c0 : Char} {cs rest : List Char}
    (hs0 : isSymChar c0 = true)
    (hall : (c0 :: cs).all isSymChar = true) (hbd : Bd isSymChar rest) :
    lexStep mode ((c0 :: cs) ++ rest) =
      some (some (.word (String.mk ((c0 :: cs)))), rest) := by
  rw [List.cons_append, lexStep.eq_def]
  simp only []
  rcases isSymChar_cases hs0 with rfl | rfl | rfl | rfl | rfl <;>
  · rw [if_neg (by decide), if_neg (by decide), if_neg (by decide),
      if_neg (by decide), if_pos (by decide)]
    rw [← List.cons_append,
      takeWhile_append_all _ rest hall hbd, dropWhile_append_all _ rest hall hbd]

theorem numTail_not_dot {rest : List Char}
    (h : ∀ hd r, rest = hd :: r → hd ≠ '.') : numTail rest = (none, rest) := by
  cases rest with
  | nil => rfl
  | cons c r =>
    have hc := h c r rfl
    rw [numTail.eq_def]
    split
    · rename_i d2 rest3 heq
      injection heq with h1 _
      exact absurd h1 hc
    · rfl

/-- A maximal digit run with no fraction lexes to one integer token. -/
theorem lexStep_num {mode : Mode} {ds rest : List Char}
    (hne : ds ≠ []) (hall : ds.all isDigitChar = true)
    (hbd : Bd isDigitChar rest) (hnt : numTail rest = (none, rest)) :
    lexStep mode (ds ++ rest) = some (some (.num (natOfDigits ds) none), rest) := by
  cases ds with
  | nil => exact absurd rfl hne
  | cons c0 cs =>
    rw [List.all_cons, Bool.and_eq_true] at hall
    have hd0 := hall.1
    rw [List.cons_append, lexStep.eq_def]
    simp only []
    rw [if_neg (by simp [isDigit_not_ws hd0]), if_neg (isDigit_not_quote hd0),
      if_pos (by simp [hd0])]
    rw [← List.cons_append,
      takeWhile_append_all _ rest (by simp [List.all_cons, hall.1, hall.2]) hbd,
      dropWhile_append_all _ rest (by simp [List.all_cons, hall.1, hall.2]) hbd,
      hnt]

/-- A digit run, a dot and a nonempty fraction digit run lex to one
decimal token. -/
theorem lexStep_float {mode : Mode} {ds fs rest : List Char}
    (hne : ds ≠ []) (hall : ds.all isDigitChar = true)
    (hfne : fs ≠ []) (hfall : fs.all isDigitChar = true)
    (hbd : Bd isDigitChar rest) :
    lexStep mode (ds ++ '.' :: (fs ++ rest)) =
      some (some (.num (natOfDigits ds) (some (String.mk fs))), rest) := by
  cases ds with
  | nil => exact absurd rfl hne
  | cons c0 cs =>
    rw [List.all_cons, Bool.and_eq_true] at hall
    have hd0 := hall.1
    rw [List.cons_append, lexStep.eq_def]
    simp only []
    rw [if_neg (by simp [isDigit_not_ws hd0]), if_neg (isDigit_not_quote hd0),
      if_pos (by simp [hd0])]
    rw [← List.cons_append,
      takeWhile_append_all _ ('.' :: (fs ++ rest))
        (by simp [List.all_cons, hall.1, hall.2]) (Bd_cons (by decide) _),
      dropWhile_append_all _ ('.' :: (fs ++ rest))
        (by simp [List.all_cons, hall.1, hall.2]) (Bd_cons (by decide) _)]
    cases fs with
    | nil => exact absurd rfl hfne
    | cons f0 fs' =>
      rw [List.all_cons, Bool.and_eq_true] at hfall
      rw [numTail.eq_def]
      simp only [List.cons_append]
      rw [if_pos (by simp [hfall.1])]
      rw [← List.cons_append,
        takeWhile_append_all _ rest (by simp [List.all_cons, hfall.1, hfall.2]) hbd,
        dropWhile_append_all _ rest (by simp [List.all_cons, hfall.1, hfall.2]) hbd]

end TiebaMeow

namespace TiebaMeow

/-- A quoted run lexes to one string token. -/
theorem lexStep_quote {mode : Mode} {q : Char} {s rest : List Char}
    (hq : q = '\'' ∨ q = '"') (hnc : s.all (fun c => c ≠ q) = true) :
    lexStep mode ((q :: (s ++ [q])) ++ rest) =
      some (some (.str (String.mk s)), rest) := by
  have hbd : Bd (fun c => c ≠ q) (q :: rest) := Bd_cons (by simp) rest
  have hassoc : (s ++ [q]) ++ rest = s ++ (q :: rest) := by simp
  rcases hq with rfl | rfl <;>
  · rw [List.cons_append, lexStep.eq_def]
    simp only []
    rw [if_neg (by decide), if_pos (by simp), hassoc,
      takeWhile_append_all _ _ hnc hbd, dropWhile_append_all _ _ hnc hbd]

theorem firstMatch_cons_none {v : String} {vs : List String} {l : List Char}
    (h : dropPre v.data l = none) :
    firstMatch (v :: vs) l = firstMatch vs l := by
  simp [firstMatch, h]

theorem firstMatch_cons_some {v : String} {vs : List String} {l r : List Char}
    (h : dropPre v.data l = some r) :
    firstMatch (v :: vs) l = some (v, r) := by
  simp [firstMatch, h]

theorem firstMatch_gtWord {rest : List Char}
    (h : ∀ hd r, rest = hd :: r → hd ≠ '等') :
    firstMatch cnlVocab ('大' :: '于' :: rest) = some ("大于", rest) := by
  cases rest with
  | nil => rfl
  | cons c r =>
    have hc : ('等' : Char) ≠ c := fun he => h c r rfl he.symm
    rw [cnlVocab]
    rw [firstMatch_cons_none (by simp [dropPre, hc])]
    repeat rw [firstMatch_cons_none (by rfl)]
    rw [firstMatch_cons_some (by rfl)]

theorem firstMatch_ltWord {rest : List Char}
    (h : ∀ hd r, rest = hd :: r → hd ≠ '等') :
    firstMatch cnlVocab ('小' :: '于' :: rest) = some ("小于", rest) := by
  cases rest with
  | nil => rfl
  | cons c r =>
    have hc : ('等' : Char) ≠ c := fun he => h c r rfl he.symm
    rw [cnlVocab]
    rw [firstMatch_cons_none (by rfl)]
    rw [firstMatch_cons_none (by simp [dropPre, hc])]
    repeat rw [firstMatch_cons_none (by rfl)]
    rw [firstMatch_cons_some (by rfl)]

/-- A CNL vocabulary word lexes to one word token. -/
theorem lexStep_cnl {w : String} {c0 : Char} {cs rest : List Char}
    (hw : w.data = c0 :: cs)
    (hns : isWsChar c0 = false) (hnq : ¬(c0 = '\'' ∨ c0 = '"'))
    (hnd : isDigitChar c0 = false) (hni : isIdentStart c0 = false)
    (hnsym : isSymChar c0 = false) (hnp : normPunct c0 = none)
    (hfm : firstMatch cnlVocab (c0 :: (cs ++ rest)) = some (w, rest)) :
    lexStep .cnl ((c0 :: cs) ++ rest) = some (some (.word w), rest) := by
  rw [List.cons_append, lexStep.eq_def]
  simp only []
  rw [if_neg (by simp [hns]), if_neg hnq, if_neg (by simp [hnd]),
    if_neg (by simp [hni]), if_neg (by simp [hnsym]), hnp]
  simp only []
  rw [hfm]


theorem lexesCnl_fTitle (p : Char → Prop) :
    LexesP .cnl "标题".data [.word "标题"] p :=
  LexesP.ofStep (fun rest _ => lexStep_cnl rfl (by decide) (by decide) (by decide)
    (by decide) (by decide) (by decide) rfl)


theorem lexesCnl_fText (p : Char → Prop) :
    LexesP .cnl "内容".data [.word "内容"] p :=
  LexesP.ofStep (fun rest _ => lexStep_cnl rfl (by decide) (by decide) (by decide)
    (by decide) (by decide) (by decide) rfl)


theorem lexesCnl_fLevel (p : Char → Prop) :
    LexesP .cnl "等级".data [.word "等级"] p :=
  LexesP.ofStep (fun rest _ => lexStep_cnl rfl (by decide) (by decide) (by decide)
    (by decide) (by decide) (by decide) rfl)


theorem lexesCnl_fIsGood (p : Char → Prop) :
    LexesP .cnl "加精".data [.word "加精"] p :=
  LexesP.ofStep (fun rest _ => lexStep_cnl rfl (by decide) (by decide) (by decide)
    (by decide) (by decide) (by decide) rfl)


theorem lexesCnl_fReplyNum (p : Char → Prop) :
    LexesP .cnl "回复数".data [.word "回复数"] p :=
  LexesP.ofStep (fun rest _ => lexStep_cnl rfl (by decide) (by decide) (by decide)
    (by decide) (by decide) (by decide) rfl)


theorem lexesCnl_fViewNum (p : Char → Prop) :
    LexesP .cnl "浏览数".data [.word "浏览数"] p :=
  LexesP.ofStep (fun rest _ => lexStep_cnl rfl (by decide) (by decide) (by decide)
    (by decide) (by decide) (by decide) rfl)


theorem lexesCnl_fCreateTime (p : Char → Prop) :
    LexesP .cnl "创建时间".data [.word "创建时间"] p :=
  LexesP.ofStep (fun rest _ => lexStep_cnl rfl (by decide) (by decide) (by decide)
    (by decide) (by decide) (by decide) rfl)


theorem lexesCnl_oContains (p : Char → Prop) :
    LexesP .cnl "包含".data [.word "包含"] p :=
  LexesP.ofStep (fun rest _ => lexStep_cnl rfl (by decide) (by decide) (by decide)
    (by decide) (by decide) (by decide) rfl)


theorem lexesCnl_oRegex (p : Char → Prop) :
    LexesP .cnl "匹配".data [.word "匹配"] p :=
  LexesP.ofStep (fun rest _ => lexStep_cnl rfl (by decide) (by decide) (by decide)
    (by decide) (by decide) (by decide) rfl)


theorem lexesCnl_oEq (p : Char → Prop) :
    LexesP .cnl "等于".data [.word "等于"] p :=
  LexesP.ofStep (fun rest _ => lexStep_cnl rfl (by decide) (by decide) (by decide)
    (by decide) (by decide) (by decide) rfl)


theorem lexesCnl_oGt {p : Char → Prop} (hp : ∀ c, p c → c ≠ '等') :
    LexesP .cnl "大于".data [.word "大于"] p :=
  LexesP.ofStep (fun rest hr => lexStep_cnl rfl (by decide) (by decide) (by decide)
    (by decide) (by decide) (by decide)
    (firstMatch_gtWord (fun hd r he => by
      rcases hr with rfl | ⟨c, r2, hre, hc⟩
      · simp at he
      · rw [hre] at he
        injection he with h1 _
        exact h1 ▸ hp c hc)))


theorem lexesCnl_oLt {p : Char → Prop} (hp : ∀ c, p c → c ≠ '等') :
    LexesP .cnl "小于".data [.word "小于"] p :=
  LexesP.ofStep (fun rest hr => lexStep_cnl rfl (by decide) (by decide) (by decide)
    (by decide) (by decide) (by decide)
    (firstMatch_ltWord (fun hd r he => by
      rcases hr with rfl | ⟨c, r2, hre, hc⟩
      · simp at he
      · rw [hre] at he
        injection he with h1 _
        exact h1 ▸ hp c hc)))


theorem lexesCnl_oGte (p : Char → Prop) :
    LexesP .cnl "大于等于".data [.word "大于等于"] p :=
  LexesP.ofStep (fun rest _ => lexStep_cnl rfl (by decide) (by decide) (by decide)
    (by decide) (by decide) (by decide) rfl)


theorem lexesCnl_oLte (p : Char → Prop) :
    LexesP .cnl "小于等于".data [.word "小于等于"] p :=
  LexesP.ofStep (fun rest _ => lexStep_cnl rfl (by decide) (by decide) (by decide)
    (by decide) (by decide) (by decide) rfl)


theorem lexesCnl_oIn (p : Char → Prop) :
    LexesP .cnl "属于".data [.word "属于"] p :=
  LexesP.ofStep (fun rest _ => lexStep_cnl rfl (by decide) (by decide) (by decide)
    (by decide) (by decide) (by decide) rfl)


theorem lexesCnl_lAnd (p : Char → Prop) :
    LexesP .cnl "且".data [.word "且"] p :=
  LexesP.ofStep (fun rest _ => lexStep_cnl rfl (by decide) (by decide) (by decide)
    (by decide) (by decide) (by decide) rfl)


theorem lexesCnl_lOr (p : Char → Prop) :
    LexesP .cnl "或者".data [.word "或者"] p :=
  LexesP.ofStep (fun rest _ => lexStep_cnl rfl (by decide) (by decide) (by decide)
    (by decide) (by decide) (by decide) rfl)


theorem lexesCnl_lNot (p : Char → Prop) :
    LexesP .cnl "非".data [.word "非"] p :=
  LexesP.ofStep (fun rest _ => lexStep_cnl rfl (by decide) (by decide) (by decide)
    (by decide) (by decide) (by decide) rfl)


theorem lexesCnl_lXor (p : Char → Prop) :
    LexesP .cnl "异或".data [.word "异或"] p :=
  LexesP.ofStep (fun rest _ => lexStep_cnl rfl (by decide) (by decide) (by decide)
    (by decide) (by decide) (by decide) rfl)


theorem lexesCnl_lXnor (p : Char → Prop) :
    LexesP .cnl "同或".data [.word "同或"] p :=
  LexesP.ofStep (fun rest _ => lexStep_cnl rfl (by decide) (by decide) (by decide)
    (by decide) (by decide) (by decide) rfl)


theorem lexesCnl_lNand (p : Char → Prop) :
    LexesP .cnl "与非".data [.word "与非"] p :=
  LexesP.ofStep (fun rest _ => lexStep_cnl rfl (by decide) (by decide) (by decide)
    (by decide) (by decide) (by decide) rfl)


theorem lexesCnl_lNor (p : Char → Prop) :
    LexesP .cnl "或非".data [.word "或非"] p :=
  LexesP.ofStep (fun rest _ => lexStep_cnl rfl (by decide) (by decide) (by decide)
    (by decide) (by decide) (by decide) rfl)


theorem lexesCnl_bTrue (p : Char → Prop) :
    LexesP .cnl "真".data [.word "真"] p :=
  LexesP.ofStep (fun rest _ => lexStep_cnl rfl (by decide) (by decide) (by decide)
    (by decide) (by decide) (by decide) rfl)


theorem lexesCnl_bFalse (p : Char → Prop) :
    LexesP .cnl "假".data [.word "假"] p :=
  LexesP.ofStep (fun rest _ => lexStep_cnl rfl (by decide) (by decide) (by decide)
    (by decide) (by decide) (by decide) rfl)


/-- An identifier word lexes to one word token. -/
theorem lexes_word_ident {mode : Mode} {w : String} {c0 : Char} {cs : List Char}
    (hw : w.data = c0 :: cs) (hst : isIdentStart c0 = true)
    (hall : (c0 :: cs).all isIdentChar = true) {p : Char → Prop}
    (hp : ∀ c, p c → isIdentChar c = false) :
    LexesP mode w.data [.word w] p := by
  rw [hw]
  refine LexesP.ofStep (fun rest hr => ?_)
  have hbd : Bd isIdentChar rest := by
    rcases hr with rfl | ⟨c, r, rfl, hc⟩
    · exact Bd_nil _
    · exact Bd_cons (hp c hc) r
  rw [lexStep_ident hst hall hbd]
  rw [show String.mk (c0 :: cs) = w from by rw [← hw]]

/-- An operator-symbol word lexes to one word token. -/
theorem lexes_word_sym {mode : Mode} {w : String} {c0 : Char} {cs : List Char}
    (hw : w.data = c0 :: cs) (hs0 : isSymChar c0 = true)
    (hall : (c0 :: cs).all isSymChar = true) {p : Char → Prop}
    (hp : ∀ c, p c → isSymChar c = false) :
    LexesP mode w.data [.word w] p := by
  rw [hw]
  refine LexesP.ofStep (fun rest hr => ?_)
  have hbd : Bd isSymChar rest := by
    rcases hr with rfl | ⟨c, r, rfl, hc⟩
    · exact Bd_nil _
    · exact Bd_cons (hp c hc) r
  rw [lexStep_sym hs0 hall hbd]
  rw [show String.mk (c0 :: cs) = w from by rw [← hw]]

/-- A rendered integer lexes to one integer token. -/
theorem lexes_num {mode : Mode} (n : Nat) {p : Char → Prop}
    (hp : ∀ c, p c → isDigitChar c = false ∧ c ≠ '.') :
    LexesP mode (natDigits n) [.num n none] p := by
  obtain ⟨hall, hv, hne⟩ := natDigits_spec n
  refine LexesP.ofStep (fun rest hr => ?_)
  have hbd : Bd isDigitChar rest := by
    rcases hr with rfl | ⟨c, r, rfl, hc⟩
    · exact Bd_nil _
    · exact Bd_cons (hp c hc).1 r
  have hnt : numTail rest = (none, rest) := by
    refine numTail_not_dot (fun hd r he => ?_)
    rcases hr with rfl | ⟨c, r2, hre, hc⟩
    · simp at he
    · rw [hre] at he
      injection he with h1 _
      exact h1 ▸ (hp c hc).2
  rw [lexStep_num hne hall hbd hnt, hv]

/-- A rendered decimal lexes to one decimal token. -/
theorem lexes_float {mode : Mode} (ip : Nat) (fr : String)
    (hfne : fr.data ≠ []) (hfall : fr.data.all isDigitChar = true) {p : Char → Prop}
    (hp : ∀ c, p c → isDigitChar c = false) :
    LexesP mode (natDigits ip ++ '.' :: fr.data) [.num ip (some fr)] p := by
  obtain ⟨hall, hv, hne⟩ := natDigits_spec ip
  refine LexesP.ofStep (fun rest hr => ?_)
  have hbd : Bd isDigitChar rest := by
    rcases hr with rfl | ⟨c, r, rfl, hc⟩
    · exact Bd_nil _
    · exact Bd_cons (hp c hc) r
  have hassoc : (natDigits ip ++ '.' :: fr.data) ++ rest =
      natDigits ip ++ '.' :: (fr.data ++ rest) := by simp
  rw [hassoc, lexStep_float hne hall hfne hfall hbd, hv]

theorem not_contains_all_ne {q : Char} : ∀ {l : List Char}, l.contains q = false →
    l.all (fun c => c ≠ q) = true := by
  intro l
  induction l with
  | nil => intro _; rfl
  | cons d ds ih =>
    intro h
    rw [List.contains_cons, Bool.or_eq_false_iff] at h
    rw [List.all_cons, Bool.and_eq_true]
    exact ⟨decide_eq_true (Ne.symm (beq_eq_false_iff_ne.mp h.1)), ih h.2⟩

/-- A quoted string literal lexes to one string token. -/
theorem lexes_quoteStr {mode : Mode} {s : String}
    (hnb : (s.data.contains '\'' && s.data.contains '"') = false) (p : Char → Prop) :
    LexesP mode (quoteStr s).data [.str s] p := by
  unfold quoteStr
  split_ifs with hc
  · have hq : s.data.contains '"' = false := by
      cases hh : s.data.contains '"'
      · rfl
      · rw [hc, hh] at hnb
        simp at hnb
    have hall := not_contains_all_ne hq
    have hdata : ("\"" ++ s ++ "\"").data = ('"' :: (s.data ++ ['"'])) := by
      simp [String.data_append]
    rw [hdata]
    refine LexesP.ofStep (fun rest _ => ?_)
    rw [lexStep_quote (Or.inr rfl) hall]
  · have hq : s.data.contains '\'' = false := by
      cases hh : s.data.contains '\''
      · rfl
      · exact absurd hh hc
    have hall := not_contains_all_ne hq
    have hdata : ("'" ++ s ++ "'").data = ('\'' :: (s.data ++ ['\''])) := by
      simp [String.data_append]
    rw [hdata]
    refine LexesP.ofStep (fun rest _ => ?_)
    rw [lexStep_quote (Or.inl rfl) hall]

/-- Punctuation characters lex to single punct tokens in front of
anything. -/
theorem lexes_lparen (mode : Mode) (p : Char → Prop) :
    LexesP mode ['('] [.punct '('] p := LexesP.ofStep (fun _ _ => rfl)

theorem lexes_rparen (mode : Mode) (p : Char → Prop) :
    LexesP mode [')'] [.punct ')'] p := LexesP.ofStep (fun _ _ => rfl)

theorem lexes_lbrack (mode : Mode) (p : Char → Prop) :
    LexesP mode ['['] [.punct '['] p := LexesP.ofStep (fun _ _ => rfl)

theorem lexes_rbrack (mode : Mode) (p : Char → Prop) :
    LexesP mode [']'] [.punct ']'] p := LexesP.ofStep (fun _ _ => rfl)

theorem lexes_comma (mode : Mode) (p : Char → Prop) :
    LexesP mode [','] [.punct ','] p := LexesP.ofStep (fun _ _ => rfl)

end TiebaMeow

namespace TiebaMeow

/-! ## Token renderings of dumped trees -/

mutual

/-- The tokens a dumped value lexes to. -/
def toksV (mode : Mode) : Value → List Tok
  | .vstr s => [.str s]
  | .vint n => [.num n none]
  | .vfloat ip fr => [.num ip (some fr)]
  | .vbool b => [.word (boolPrimary mode b)]
  | .vtime c => [.str (String.mk (fmtAbs c))]
  | .vlist l => .punct '[' :: (toksVL mode l ++ [.punct ']'])

/-- The tokens a dumped value list lexes to. -/
def toksVL (mode : Mode) : VList → List Tok
  | .nil => []
  | .cons v .nil => toksV mode v
  | .cons v (.cons w t) => toksV mode v ++ (.punct ',' :: toksVL mode (.cons w t))

end

mutual

/-- The tokens a dumped node lexes to. -/
def toksN (mode : Mode) : RuleNode → List Tok
  | .cond f op v =>
    .word (fieldText mode f) :: (.word (opPrimary mode op) :: toksV mode v)
  | .group .not (.cons c .nil) =>
    .word (logicPrimary mode .not) :: (.punct '(' :: (toksN mode c ++ [.punct ')']))
  | .group lg cs => toksChain mode lg cs

/-- The tokens of a dumped child chain. -/
def toksChain (mode : Mode) (lg : LogicType) : NodeList → List Tok
  | .nil => []
  | .cons c .nil => toksCh mode c
  | .cons c (.cons d t) =>
    toksCh mode c ++ (.word (logicPrimary mode lg) :: toksChain mode lg (.cons d t))

/-- The tokens of one dumped child. -/
def toksCh (mode : Mode) : RuleNode → List Tok
  | .cond f op v => toksN mode (.cond f op v)
  | .group .not cs => toksN mode (.group .not cs)
  | .group lg cs => .punct '(' :: (toksN mode (.group lg cs) ++ [.punct ')'])

end

/-! ## Boundary predicates for chunk composition -/

/-- Characters that may follow a completed token chunk anywhere in a
dump: closing punctuation, separators, the space, and the first
characters of the CNL connectives. -/
def AfterTok (c : Char) : Prop :=
  c = ')' ∨ c = ',' ∨ c = ']' ∨ c = ' ' ∨
    c = '且' ∨ c = '或' ∨ c = '异' ∨ c = '同' ∨ c = '与'

/-- First characters of dumped values. -/
def ValHead (c : Char) : Prop :=
  isDigitChar c = true ∨ c = '\'' ∨ c = '"' ∨ c = '[' ∨
    c = '真' ∨ c = '假' ∨ c = 't' ∨ c = 'f'

/-- First characters of CNL operator primaries. -/
def OpHead (c : Char) : Prop :=
  c = '包' ∨ c = '匹' ∨ c = '等' ∨ c = '大' ∨ c = '小' ∨ c = '属'

instance : DecidablePred AfterTok := fun c => by unfold AfterTok; infer_instance

instance : DecidablePred ValHead := fun c => by unfold ValHead; infer_instance

instance : DecidablePred OpHead := fun c => by unfold OpHead; infer_instance

theorem afterTok_not_ident {c : Char} (h : AfterTok c) : isIdentChar c = false := by
  rcases h with rfl | rfl | rfl | rfl | rfl | rfl | rfl | rfl | rfl <;> decide

theorem afterTok_not_digit {c : Char} (h : AfterTok c) :
    isDigitChar c = false ∧ c ≠ '.' := by
  rcases h with rfl | rfl | rfl | rfl | rfl | rfl | rfl | rfl | rfl <;> exact ⟨by decide, by decide⟩

theorem afterTok_not_sym {c : Char} (h : AfterTok c) : isSymChar c = false := by
  rcases h with rfl | rfl | rfl | rfl | rfl | rfl | rfl | rfl | rfl <;> decide

theorem afterTok_ne_deng {c : Char} (h : AfterTok c) : c ≠ '等' := by
  rcases h with rfl | rfl | rfl | rfl | rfl | rfl | rfl | rfl | rfl <;> decide

theorem digit_ne {c d : Char} (h : isDigitChar c = true)
    (hd : isDigitChar d = false) : c ≠ d := fun he => by
  rw [he] at h
  rw [h] at hd
  exact absurd hd (by decide)

theorem valHead_ne_deng {c : Char} (h : ValHead c) : c ≠ '等' := by
  rcases h with hd | rfl | rfl | rfl | rfl | rfl | rfl | rfl
  · exact digit_ne hd (by decide)
  all_goals decide

theorem opHead_not_ident {c : Char} (h : OpHead c) : isIdentChar c = false := by
  rcases h with rfl | rfl | rfl | rfl | rfl | rfl <;> decide

/-! ## Per-table chunk lemmas -/

/-- DSL field primaries lex to one word (a space must follow). -/
theorem fieldLexesDsl (ft : FieldType) :
    LexesP .dsl (primaryField .dsl ft).data [.word (primaryField .dsl ft)]
      (fun c => c = ' ') := by
  cases ft <;>
    exact lexes_word_ident rfl (by decide) (by decide)
      (fun c hc => by rw [hc]; decide)

/-- DSL operator primaries lex to one word (a space must follow). -/
theorem opLexesDsl (op : OperatorType) :
    LexesP .dsl (opPrimary .dsl op).data [.word (opPrimary .dsl op)]
      (fun c => c = ' ') := by
  cases op
  case contains | regex | isIn =>
    exact lexes_word_ident rfl (by decide) (by decide)
      (fun c hc => by rw [hc]; decide)
  all_goals
    exact lexes_word_sym rfl (by decide) (by decide)
      (fun c hc => by rw [hc]; decide)

/-- CNL field primaries lex to one word (an operator head may follow). -/
theorem fieldLexesCnl (ft : FieldType) :
    LexesP .cnl (primaryField .cnl ft).data [.word (primaryField .cnl ft)]
      OpHead := by
  cases ft
  case title => exact lexesCnl_fTitle _
  case text => exact lexesCnl_fText _
  case level => exact lexesCnl_fLevel _
  case isGood => exact lexesCnl_fIsGood _
  case replyNum => exact lexesCnl_fReplyNum _
  case viewNum => exact lexesCnl_fViewNum _
  case createTime => exact lexesCnl_fCreateTime _
  case userId =>
    exact lexes_word_ident rfl (by decide) (by decide)
      (fun c hc => opHead_not_ident hc)

/-- CNL operator primaries lex to one word (a value head may follow). -/
theorem opLexesCnl (op : OperatorType) :
    LexesP .cnl (opPrimary .cnl op).data [.word (opPrimary .cnl op)]
      ValHead := by
  cases op
  case contains => exact lexesCnl_oContains _
  case regex => exact lexesCnl_oRegex _
  case eq => exact lexesCnl_oEq _
  case gte => exact lexesCnl_oGte _
  case lte => exact lexesCnl_oLte _
  case isIn => exact lexesCnl_oIn _
  case gt => exact lexesCnl_oGt (fun c hc => valHead_ne_deng hc)
  case lt => exact lexesCnl_oLt (fun c hc => valHead_ne_deng hc)

/-- Boolean primaries lex to one word. -/
theorem boolLexes (mode : Mode) (b : Bool) :
    LexesP mode (boolPrimary mode b).data [.word (boolPrimary mode b)]
      AfterTok := by
  cases mode
  case dsl =>
    cases b <;>
      exact lexes_word_ident rfl (by decide) (by decide)
        (fun c hc => afterTok_not_ident hc)
  case cnl =>
    cases b
    case true => exact lexesCnl_bTrue _
    case false => exact lexesCnl_bFalse _

theorem digit_ne_quote {c : Char} (h : isDigitChar c = true) : c ≠ '\'' :=
  digit_ne h (by decide)

/-- The serialization of an instant contains no single quote. -/
theorem fmtAbs_no_quote (c : Civil) :
    (fmtAbs c).all (fun ch => ch ≠ '\'') = true := by
  have hpad : ∀ k n : Nat, (padNat k n).all (fun ch => ch ≠ '\'') = true := by
    intro k n
    obtain ⟨ha, -, -⟩ := padNat_spec k n
    rw [List.all_eq_true] at ha ⊢
    intro x hx
    exact decide_eq_true (digit_ne_quote (ha x hx))
  unfold fmtAbs
  rw [List.all_append, List.all_append, List.all_append, List.all_append,
    List.all_append, List.all_append, List.all_append, List.all_append,
    List.all_append, List.all_append, List.all_append]
  simp only [hpad]
  split_ifs <;> decide

/-- A dumped instant lexes to one string token. -/
theorem timeLexes (mode : Mode) (c : Civil) (p : Char → Prop) :
    LexesP mode ("'" ++ String.mk (fmtAbs c) ++ "'").data
      [.str (String.mk (fmtAbs c))] p := by
  have hdata : ("'" ++ String.mk (fmtAbs c) ++ "'").data =
      ('\'' :: (fmtAbs c ++ ['\''])) := by
    simp [String.data_append]
  rw [hdata]
  refine LexesP.ofStep (fun rest _ => ?_)
  rw [lexStep_quote (Or.inl rfl) (fmtAbs_no_quote c)]

end TiebaMeow

namespace TiebaMeow

/-- Every dumped well-formed value starts with a value-head character. -/
theorem dumpV_head (mode : Mode) (v : Value) (hwf : wfValue v = true) :
    ∃ c r, (dumpValue mode v).data = c :: r ∧ ValHead c := by
  cases v
  case vstr s =>
    simp only [dumpValue]
    unfold quoteStr
    split_ifs
    · exact ⟨'"', s.data ++ ['"'], by simp [String.data_append], by decide⟩
    · exact ⟨'\'', s.data ++ ['\''], by simp [String.data_append], by decide⟩
  case vint n =>
    obtain ⟨ha, -, hne⟩ := natDigits_spec n
    cases hd : natDigits n with
    | nil => exact absurd hd hne
    | cons c cs =>
      rw [hd, List.all_cons, Bool.and_eq_true] at ha
      exact ⟨c, cs, by simp only [dumpValue, natStr]; exact hd, Or.inl ha.1⟩
  case vfloat ip fr =>
    obtain ⟨ha, -, hne⟩ := natDigits_spec ip
    cases hd : natDigits ip with
    | nil => exact absurd hd hne
    | cons c cs =>
      rw [hd, List.all_cons, Bool.and_eq_true] at ha
      refine ⟨c, cs ++ ('.' :: fr.data), ?_, Or.inl ha.1⟩
      have : (natStr ip ++ "." ++ fr).data = natDigits ip ++ '.' :: fr.data := by
        simp [String.data_append, natStr]
      simp only [dumpValue]
      rw [this, hd]
      simp
  case vbool b => cases mode <;> cases b <;> exact ⟨_, _, rfl, by decide⟩
  case vtime c =>
    refine ⟨'\'', fmtAbs c ++ ['\''], ?_, by decide⟩
    simp only [dumpValue]
    simp [String.data_append]
  case vlist l =>
    refine ⟨'[', (dumpVList mode l).data ++ [']'], ?_, by decide⟩
    simp only [dumpValue]
    simp [String.data_append]

mutual

/-- A dumped well-formed value lexes to its token rendering. -/
theorem dumpV_lexes (mode : Mode) : ∀ v : Value, wfValue v = true →
    LexesP mode (dumpValue mode v).data (toksV mode v) AfterTok
  | .vstr s, h => by
    simp only [dumpValue, toksV]
    have hnb : (s.data.contains '\'' && s.data.contains '"') = false := by
      simp only [wfValue, Bool.and_eq_true, Bool.not_eq_true'] at h
      exact h.2
    exact lexes_quoteStr hnb AfterTok
  | .vint n, _ => by
    simp only [dumpValue, toksV]
    rw [show (natStr n).data = natDigits n from rfl]
    exact lexes_num n (fun c hc => afterTok_not_digit hc)
  | .vfloat ip fr, h => by
    simp only [dumpValue, toksV]
    have hd : (natStr ip ++ "." ++ fr).data = natDigits ip ++ '.' :: fr.data := by
      simp [String.data_append, natStr]
    rw [hd]
    simp only [wfValue, Bool.and_eq_true, Bool.not_eq_true'] at h
    refine lexes_float ip fr (fun he => ?_) h.2 (fun c hc => (afterTok_not_digit hc).1)
    rw [he] at h
    exact absurd h.1 (by decide)
  | .vbool b, _ => by
    simp only [dumpValue, toksV]
    exact boolLexes mode b
  | .vtime c, _ => by
    simp only [dumpValue, toksV]
    exact timeLexes mode c AfterTok
  | .vlist l, h => by
    simp only [dumpValue, toksV]
    have hd : ("[" ++ dumpVList mode l ++ "]").data =
        ['['] ++ ((dumpVList mode l).data ++ [']']) := by
      simp [String.data_append]
    rw [hd]
    have hin : LexesP mode ((dumpVList mode l).data ++ [']'])
        (toksVL mode l ++ [.punct ']']) AfterTok :=
      LexesP.comp (dumpVL_lexes mode l (by simpa [wfValue] using h))
        (lexes_rbrack mode AfterTok) rfl (by decide)
    obtain ⟨x, xs, hx⟩ : ∃ x xs, (dumpVList mode l).data ++ [']'] = x :: xs := by
      cases hdl : (dumpVList mode l).data with
      | nil => exact ⟨']', [], by simp⟩
      | cons a as => exact ⟨a, as ++ [']'], by simp⟩
    exact LexesP.comp (lexes_lbrack mode (fun _ => True)) hin hx trivial

/-- A dumped well-formed value list lexes to its token rendering. -/
theorem dumpVL_lexes (mode : Mode) : ∀ l : VList, wfVList l = true →
    LexesP mode (dumpVList mode l).data (toksVL mode l) AfterTok
  | .nil, _ => by
    simp only [dumpVList, toksVL]
    exact LexesP.refl_nil mode AfterTok
  | .cons v .nil, h => by
    simp only [dumpVList, toksVL]
    simp only [wfVList, Bool.and_eq_true] at h
    exact dumpV_lexes mode v h.1
  | .cons v (.cons w t), h => by
    simp only [dumpVList, toksVL]
    simp only [wfVList, Bool.and_eq_true] at h
    obtain ⟨h1, h2, h3⟩ := h
    have hd : (dumpValue mode v ++ ", " ++ dumpVList mode (.cons w t)).data =
        (dumpValue mode v).data ++
          ([','] ++ ([' '] ++ (dumpVList mode (.cons w t)).data)) := by
      simp [String.data_append]
    rw [hd]
    have hrec := dumpVL_lexes mode (.cons w t) (by simp [wfVList, h2, h3])
    obtain ⟨c2, r2, hc2⟩ : ∃ c2 r2,
        (dumpVList mode (.cons w t)).data = c2 :: r2 := by
      obtain ⟨c2, r2, hcr, -⟩ := dumpV_head mode w h2
      cases t with
      | nil => exact ⟨c2, r2, by simp only [dumpVList]; exact hcr⟩
      | cons u s =>
        refine ⟨c2, r2 ++ (", " ++ dumpVList mode (.cons u s)).data, ?_⟩
        simp only [dumpVList]
        rw [show (dumpValue mode w ++ ", " ++ dumpVList mode (.cons u s)).data =
          (dumpValue mode w).data ++ (", " ++ dumpVList mode (.cons u s)).data from by
            simp [String.data_append], hcr]
        simp
    have hws : LexesP mode ([' '] ++ (dumpVList mode (.cons w t)).data)
        ([] ++ toksVL mode (.cons w t)) AfterTok :=
      LexesP.comp (lexes_ws mode (fun _ => True)) hrec hc2 trivial
    have hcm : LexesP mode ([','] ++ ([' '] ++ (dumpVList mode (.cons w t)).data))
        ([.punct ','] ++ ([] ++ toksVL mode (.cons w t))) AfterTok :=
      LexesP.comp (lexes_comma mode (fun _ => True)) hws rfl trivial
    exact LexesP.comp (dumpV_lexes mode v h1) hcm rfl (by decide)

end

end TiebaMeow

namespace TiebaMeow

theorem exists_head_append_singleton (l : List Char) (c : Char) :
    ∃ x xs, l ++ [c] = x :: xs := by
  cases l with
  | nil => exact ⟨c, [], rfl⟩
  | cons a as => exact ⟨a, as ++ [c], by simp⟩

theorem exists_head_of_ne {l : List Char} (h : l ≠ []) (x : List Char) :
    ∃ c r, l ++ x = c :: r := by
  cases l with
  | nil => exact absurd rfl h
  | cons a as => exact ⟨a, as ++ x, by simp⟩

theorem opPrimaryDsl_ne (op : OperatorType) : (opPrimary .dsl op).data ≠ [] := by
  cases op <;> decide

theorem opPrimaryCnl_ne (op : OperatorType) : (opPrimary .cnl op).data ≠ [] := by
  cases op <;> decide

theorem logicPrimaryDsl_ne (lg : LogicType) : (logicPrimary .dsl lg).data ≠ [] := by
  cases lg <;> decide

/-- CNL operator primaries start with an operator-head character. -/
theorem opCnl_head (op : OperatorType) :
    ∃ c r, (opPrimary .cnl op).data = c :: r ∧ OpHead c := by
  cases op <;> exact ⟨_, _, rfl, by decide⟩

/-- CNL connective primaries other than NOT start with a chunk-boundary
character. -/
theorem logicCnl_head (lg : LogicType) (hlg : lg ≠ .not) :
    ∃ c r, (logicPrimary .cnl lg).data = c :: r ∧ AfterTok c := by
  cases lg
  case not => exact absurd rfl hlg
  all_goals exact ⟨_, _, rfl, by decide⟩

/-- DSL connective primaries lex to one word (a space must follow). -/
theorem logicLexesDsl (lg : LogicType) :
    LexesP .dsl (logicPrimary .dsl lg).data [.word (logicPrimary .dsl lg)]
      (fun c => c = ' ') := by
  cases lg <;>
    exact lexes_word_ident rfl (by decide) (by decide)
      (fun c hc => by rw [hc]; decide)

/-- CNL connective primaries other than NOT lex to one word. -/
theorem logicLexesCnl (lg : LogicType) (hlg : lg ≠ .not) (p : Char → Prop) :
    LexesP .cnl (logicPrimary .cnl lg).data [.word (logicPrimary .cnl lg)] p := by
  cases lg
  case not => exact absurd rfl hlg
  case and => exact lexesCnl_lAnd _
  case or => exact lexesCnl_lOr _
  case xor => exact lexesCnl_lXor _
  case xnor => exact lexesCnl_lXnor _
  case nand => exact lexesCnl_lNand _
  case nor => exact lexesCnl_lNor _

/-- The NOT primary lexes to one word (an opening parenthesis must
follow). -/
theorem notWordLexes (mode : Mode) :
    LexesP mode (logicPrimary mode .not).data [.word (logicPrimary mode .not)]
      (fun c => c = '(') := by
  cases mode
  case dsl =>
    exact lexes_word_ident rfl (by decide) (by decide)
      (fun c hc => by rw [hc]; decide)
  case cnl => exact lexesCnl_lNot _

/-- A dumped condition's text is never empty. -/
theorem dumpCond_ne (mode : Mode) (f : String) (op : OperatorType) (v : Value) :
    (dumpNode mode (.cond f op v)).data ≠ [] := by
  cases mode
  case dsl =>
    simp only [dumpNode]
    simp [String.data_append]
  case cnl =>
    simp only [dumpNode]
    simp only [String.data_append, ne_eq, List.append_eq_nil]
    intro h
    exact absurd h.1.2 (by simpa using opPrimaryCnl_ne op)

theorem dumpNode_group_eq (mode : Mode) (lg : LogicType) (cs : NodeList)
    (hlg : lg ≠ .not) :
    dumpNode mode (.group lg cs) = dumpChildren mode lg cs := by
  cases lg <;> first | exact absurd rfl hlg | (simp only [dumpNode])

theorem toksN_group_eq (mode : Mode) (lg : LogicType) (cs : NodeList)
    (hlg : lg ≠ .not) :
    toksN mode (.group lg cs) = toksChain mode lg cs := by
  cases lg <;> first | exact absurd rfl hlg | (simp only [toksN])

theorem dumpChild_group_eq (mode : Mode) (lg : LogicType) (cs : NodeList)
    (hlg : lg ≠ .not) :
    dumpChild mode (.group lg cs) =
      "(" ++ dumpNode mode (.group lg cs) ++ ")" := by
  cases lg <;> first | exact absurd rfl hlg | (simp only [dumpChild])

theorem toksCh_group_eq (mode : Mode) (lg : LogicType) (cs : NodeList)
    (hlg : lg ≠ .not) :
    toksCh mode (.group lg cs) =
      .punct '(' :: (toksN mode (.group lg cs) ++ [.punct ')']) := by
  cases lg <;> first | exact absurd rfl hlg | (simp only [toksCh])

theorem dumpChain_ne (mode : Mode) (lg : LogicType) (c d : RuleNode)
    (t2 : NodeList) (hlg : lg ≠ .not) :
    (dumpChildren mode lg (.cons c (.cons d t2))).data ≠ [] := by
  cases mode <;> simp only [dumpChildren]
  · simp [String.data_append]
  · simp only [String.data_append, ne_eq, List.append_eq_nil]
    intro h
    have := h.1.2
    cases lg <;> first | exact absurd rfl hlg | simp [logicPrimary] at this

/-- A dumped well-formed node's text is never empty. -/
theorem dumpN_ne (mode : Mode) : ∀ n : RuleNode, wfNode n = true →
    (dumpNode mode n).data ≠ []
  | .cond f op v, _ => dumpCond_ne mode f op v
  | .group lg cs, h => by
    by_cases hlg : lg = .not
    · subst hlg
      simp only [wfNode, if_pos rfl, Bool.and_eq_true] at h
      cases cs with
      | nil => simp [NodeList.length, NodeList.toList] at h
      | cons c t =>
        cases t with
        | nil =>
          simp only [dumpNode]
          simp [String.data_append]
        | cons d t2 => simp [NodeList.length, NodeList.toList] at h
    · simp only [wfNode, if_neg hlg, Bool.and_eq_true] at h
      obtain ⟨hlen, -⟩ := h
      rw [decide_eq_true_eq] at hlen
      cases cs with
      | nil => simp [NodeList.length, NodeList.toList] at hlen
      | cons c t =>
        cases t with
        | nil => simp [NodeList.length, NodeList.toList] at hlen
        | cons d t2 =>
          rw [dumpNode_group_eq mode lg _ hlg]
          exact dumpChain_ne mode lg c d t2 hlg

/-- A dumped well-formed child's text is never empty. -/
theorem dumpCh_ne (mode : Mode) (n : RuleNode) (h : wfNode n = true) :
    (dumpChild mode n).data ≠ [] := by
  cases n with
  | cond f op v =>
    simp only [dumpChild]
    exact dumpCond_ne mode f op v
  | group lg cs =>
    by_cases hlg : lg = .not
    · subst hlg
      simp only [dumpChild]
      exact dumpN_ne mode _ h
    · rw [dumpChild_group_eq mode lg cs hlg]
      simp [String.data_append]

end TiebaMeow

namespace TiebaMeow

/-- Head of a dumped nonempty child chain. -/
theorem dumpChain_head (mode : Mode) (lg : LogicType) (d : RuleNode)
    (t : NodeList) (hd2 : wfNode d = true) :
    ∃ cr rr, (dumpChildren mode lg (.cons d t)).data = cr :: rr := by
  have hne := dumpCh_ne mode d hd2
  cases t with
  | nil =>
    simp only [dumpChildren]
    cases hx : (dumpChild mode d).data with
    | nil => exact absurd hx hne
    | cons c2 r2 => exact ⟨c2, r2, rfl⟩
  | cons e t3 =>
    cases mode <;>
    · simp only [dumpChildren]
      simp only [String.data_append, List.append_assoc]
      exact exists_head_of_ne hne _

mutual

/-- A dumped well-formed node lexes to its token rendering. -/
theorem dumpN_lexes (mode : Mode) : ∀ n : RuleNode, wfNode n = true →
    LexesP mode (dumpNode mode n).data (toksN mode n) AfterTok
  | .cond f op v, h => by
    simp only [wfNode, Bool.and_eq_true] at h
    obtain ⟨hft, hv⟩ := h
    rw [Option.isSome_iff_exists] at hft
    obtain ⟨ft, hft⟩ := hft
    have hfield : fieldText mode f = primaryField mode ft := by
      unfold fieldText
      rw [hft]
    obtain ⟨cv, rv, hcv, hvh⟩ := dumpV_head mode v hv
    cases mode with
    | dsl =>
      simp only [dumpNode, toksN]
      rw [hfield]
      have hd : (primaryField .dsl ft ++ " " ++ opPrimary .dsl op ++ " " ++
          dumpValue .dsl v).data =
          (primaryField .dsl ft).data ++ ([' '] ++ ((opPrimary .dsl op).data ++
            ([' '] ++ (dumpValue .dsl v).data))) := by
        simp [String.data_append]
      rw [hd]
      have c3 : LexesP .dsl ([' '] ++ (dumpValue .dsl v).data)
          ([] ++ toksV .dsl v) AfterTok :=
        LexesP.comp (lexes_ws .dsl (fun _ => True)) (dumpV_lexes .dsl v hv)
          hcv trivial
      have c2 : LexesP .dsl
          ((opPrimary .dsl op).data ++ ([' '] ++ (dumpValue .dsl v).data))
          ([.word (opPrimary .dsl op)] ++ ([] ++ toksV .dsl v)) AfterTok :=
        LexesP.comp (opLexesDsl op) c3 rfl rfl
      obtain ⟨co, ro, hco⟩ := exists_head_of_ne (opPrimaryDsl_ne op)
        ([' '] ++ (dumpValue .dsl v).data)
      have c1 : LexesP .dsl
          ([' '] ++ ((opPrimary .dsl op).data ++ ([' '] ++ (dumpValue .dsl v).data)))
          ([] ++ ([.word (opPrimary .dsl op)] ++ ([] ++ toksV .dsl v))) AfterTok :=
        LexesP.comp (lexes_ws .dsl (fun _ => True)) c2 hco trivial
      exact LexesP.comp (fieldLexesDsl ft) c1 rfl rfl
    | cnl =>
      simp only [dumpNode, toksN]
      rw [hfield]
      have hd : (primaryField .cnl ft ++ opPrimary .cnl op ++ dumpValue .cnl v).data =
          (primaryField .cnl ft).data ++ ((opPrimary .cnl op).data ++
            (dumpValue .cnl v).data) := by
        simp [String.data_append]
      rw [hd]
      have c2 : LexesP .cnl ((opPrimary .cnl op).data ++ (dumpValue .cnl v).data)
          ([.word (opPrimary .cnl op)] ++ toksV .cnl v) AfterTok :=
        LexesP.comp (opLexesCnl op) (dumpV_lexes .cnl v hv) hcv hvh
      obtain ⟨co, ro, hco, hoh⟩ := opCnl_head op
      have hco2 : (opPrimary .cnl op).data ++ (dumpValue .cnl v).data =
          co :: (ro ++ (dumpValue .cnl v).data) := by
        rw [hco]
        simp
      exact LexesP.comp (fieldLexesCnl ft) c2 hco2 hoh
  | .group lg cs, h => by
    by_cases hlg : lg = .not
    · subst hlg
      simp only [wfNode, if_pos rfl, Bool.and_eq_true] at h
      obtain ⟨hlen, hwfl⟩ := h
      cases cs with
      | nil => simp [NodeList.length, NodeList.toList] at hlen
      | cons c t =>
        cases t with
        | cons d t2 => simp [NodeList.length, NodeList.toList] at hlen
        | nil =>
          simp only [wfNodeList, Bool.and_eq_true] at hwfl
          obtain ⟨hc, -⟩ := hwfl
          simp only [dumpNode, toksN]
          have hd : (logicPrimary mode .not ++ "(" ++ dumpNode mode c ++ ")").data =
              (logicPrimary mode .not).data ++
                (['('] ++ ((dumpNode mode c).data ++ [')'])) := by
            simp [String.data_append]
          rw [hd]
          have hin : LexesP mode ((dumpNode mode c).data ++ [')'])
              (toksN mode c ++ [.punct ')']) AfterTok :=
            LexesP.comp (dumpN_lexes mode c hc) (lexes_rparen mode AfterTok)
              rfl (by decide)
          obtain ⟨x, xs, hx⟩ :=
            exists_head_append_singleton (dumpNode mode c).data ')'
          have hpar : LexesP mode (['('] ++ ((dumpNode mode c).data ++ [')']))
              ([.punct '('] ++ (toksN mode c ++ [.punct ')'])) AfterTok :=
            LexesP.comp (lexes_lparen mode (fun _ => True)) hin hx trivial
          exact LexesP.comp (notWordLexes mode) hpar rfl rfl
    · rw [dumpNode_group_eq mode lg cs hlg, toksN_group_eq mode lg cs hlg]
      simp only [wfNode, if_neg hlg, Bool.and_eq_true] at h
      exact dumpChain_lexes mode lg hlg cs h.2
termination_by n h => 3 * sizeOf n
decreasing_by
  all_goals simp_wf
  all_goals subst_vars
  all_goals simp_wf
  all_goals omega

/-- A dumped well-formed child chain lexes to its token rendering. -/
theorem dumpChain_lexes (mode : Mode) (lg : LogicType) (hlg : lg ≠ .not) :
    ∀ cs : NodeList, wfNodeList cs = true →
    LexesP mode (dumpChildren mode lg cs).data (toksChain mode lg cs) AfterTok
  | .nil, _ => by
    simp only [dumpChildren, toksChain]
    exact LexesP.refl_nil mode AfterTok
  | .cons c .nil, h => by
    simp only [dumpChildren, toksChain]
    simp only [wfNodeList, Bool.and_eq_true] at h
    exact dumpCh_lexes mode c h.1
  | .cons c (.cons d t), h => by
    simp only [wfNodeList, Bool.and_eq_true] at h
    obtain ⟨hc, hd2, ht⟩ := h
    have hrest : wfNodeList (NodeList.cons d t) = true := by
      simp [wfNodeList, hd2, ht]
    have hrec := dumpChain_lexes mode lg hlg (.cons d t) hrest
    obtain ⟨cr, rr, hcr⟩ := dumpChain_head mode lg d t hd2
    cases mode with
    | dsl =>
      simp only [dumpChildren, toksChain]
      have hd : (dumpChild .dsl c ++ (" " ++ logicPrimary .dsl lg ++ " ") ++
          dumpChildren .dsl lg (.cons d t)).data =
          (dumpChild .dsl c).data ++ ([' '] ++ ((logicPrimary .dsl lg).data ++
            ([' '] ++ (dumpChildren .dsl lg (.cons d t)).data))) := by
        simp [String.data_append]
      rw [hd]
      have w3 : LexesP .dsl ([' '] ++ (dumpChildren .dsl lg (.cons d t)).data)
          ([] ++ toksChain .dsl lg (.cons d t)) AfterTok :=
        LexesP.comp (lexes_ws .dsl (fun _ => True)) hrec hcr trivial
      have w2 : LexesP .dsl ((logicPrimary .dsl lg).data ++
          ([' '] ++ (dumpChildren .dsl lg (.cons d t)).data))
          ([.word (logicPrimary .dsl lg)] ++ ([] ++ toksChain .dsl lg (.cons d t)))
          AfterTok :=
        LexesP.comp (logicLexesDsl lg) w3 rfl rfl
      obtain ⟨cl, rl, hcl⟩ := exists_head_of_ne (logicPrimaryDsl_ne lg)
        ([' '] ++ (dumpChildren .dsl lg (.cons d t)).data)
      have w1 : LexesP .dsl ([' '] ++ ((logicPrimary .dsl lg).data ++
          ([' '] ++ (dumpChildren .dsl lg (.cons d t)).data)))
          ([] ++ ([.word (logicPrimary .dsl lg)] ++
            ([] ++ toksChain .dsl lg (.cons d t)))) AfterTok :=
        LexesP.comp (lexes_ws .dsl (fun _ => True)) w2 hcl trivial
      exact LexesP.comp (dumpCh_lexes .dsl c hc) w1 rfl (by decide)
    | cnl =>
      simp only [dumpChildren, toksChain]
      have hd : (dumpChild .cnl c ++ logicPrimary .cnl lg ++
          dumpChildren .cnl lg (.cons d t)).data =
          (dumpChild .cnl c).data ++ ((logicPrimary .cnl lg).data ++
            (dumpChildren .cnl lg (.cons d t)).data) := by
        simp [String.data_append]
      rw [hd]
      have w2 : LexesP .cnl ((logicPrimary .cnl lg).data ++
          (dumpChildren .cnl lg (.cons d t)).data)
          ([.word (logicPrimary .cnl lg)] ++ toksChain .cnl lg (.cons d t))
          AfterTok :=
        LexesP.comp (logicLexesCnl lg hlg (fun _ => True)) hrec hcr trivial
      obtain ⟨cl, rl, hcl, hlh⟩ := logicCnl_head lg hlg
      have hcl2 : (logicPrimary .cnl lg).data ++
          (dumpChildren .cnl lg (.cons d t)).data =
          cl :: (rl ++ (dumpChildren .cnl lg (.cons d t)).data) := by
        rw [hcl]
        simp
      exact LexesP.comp (dumpCh_lexes .cnl c hc) w2 hcl2 hlh
termination_by cs h => 3 * sizeOf cs + 2
decreasing_by
  all_goals simp_wf
  all_goals subst_vars
  all_goals simp_wf
  all_goals omega

/-- A dumped well-formed child lexes to its token rendering. -/
theorem dumpCh_lexes (mode : Mode) : ∀ n : RuleNode, wfNode n = true →
    LexesP mode (dumpChild mode n).data (toksCh mode n) AfterTok
  | .cond f op v, h => by
    simp only [dumpChild, toksCh]
    exact dumpN_lexes mode (.cond f op v) h
  | .group lg cs, h => by
    by_cases hlg : lg = .not
    · subst hlg
      simp only [dumpChild, toksCh]
      exact dumpN_lexes mode (.group .not cs) h
    · rw [dumpChild_group_eq mode lg cs hlg, toksCh_group_eq mode lg cs hlg]
      have hd : ("(" ++ dumpNode mode (.group lg cs) ++ ")").data =
          ['('] ++ ((dumpNode mode (.group lg cs)).data ++ [')']) := by
        simp [String.data_append]
      rw [hd]
      have hin : LexesP mode ((dumpNode mode (.group lg cs)).data ++ [')'])
          (toksN mode (.group lg cs) ++ [.punct ')']) AfterTok :=
        LexesP.comp (dumpN_lexes mode (.group lg cs) h)
          (lexes_rparen mode AfterTok) rfl (by decide)
      obtain ⟨x, xs, hx⟩ :=
        exists_head_append_singleton (dumpNode mode (.group lg cs)).data ')'
      exact LexesP.comp (lexes_lparen mode (fun _ => True)) hin hx trivial
termination_by n h => 3 * sizeOf n + 1
decreasing_by
  all_goals simp_wf
  all_goals subst_vars
  all_goals simp_wf
  all_goals omega

end

end TiebaMeow

namespace TiebaMeow

/-- Capstone of the lexer correspondence: a dumped well-formed node
lexes to exactly its token rendering. -/
theorem lexAux_dumpNode {mode : Mode} {n : RuleNode} (h : wfNode n = true) :
    lexAux mode (dumpNode mode n).data = .ok (toksN mode n) := by
  have hl := dumpN_lexes mode n h [] (Or.inl rfl)
  rw [List.append_nil] at hl
  rw [hl]
  simp [lexAux, lexAuxF, lexStep, Except.map]

/-! ## Token-level completeness of the grammar -/

/-- Tokens that may follow a value: nothing, closing/separator
punctuation, or a word that is not a duration unit (so the value is not
extended into a relative-time literal). -/
def RestV (rest : List Tok) : Prop :=
  rest = [] ∨
    (∃ c r, rest = .punct c :: r ∧ (c = ')' ∨ c = ',' ∨ c = ']')) ∨
    (∃ w r, rest = .word w :: r ∧ unitSecs w = none ∧ w ≠ "年")

/-- Tokens that may follow a complete rule: nothing or a closing
parenthesis. -/
def RestO (rest : List Tok) : Prop :=
  rest = [] ∨ ∃ r, rest = .punct ')' :: r

/-- Tokens that may follow an `and`-tier expression: additionally an
OR-tier connective word. -/
def RestSafe (mode : Mode) (rest : List Tok) : Prop :=
  RestO rest ∨
    ∃ w r L, rest = .word w :: r ∧ logicOf mode w = some L ∧
      L ≠ .and ∧ L ≠ .not

theorem restO_safe {mode : Mode} {rest : List Tok} (h : RestO rest) :
    RestSafe mode rest := Or.inl h

theorem lookup_key_mem {α β : Type} [BEq α] [LawfulBEq α] {w : α} {v : β} :
    ∀ {tbl : List (α × β)}, tbl.lookup w = some v → w ∈ tbl.map Prod.fst := by
  intro tbl
  induction tbl with
  | nil => intro h; simp [List.lookup] at h
  | cons kv t ih =>
    intro h
    obtain ⟨k, val⟩ := kv
    rw [List.lookup] at h
    cases hbk : (w == k) with
    | true =>
      rw [hbk] at h
      simp only [List.map_cons, List.mem_cons]
      exact Or.inl (eq_of_beq hbk)
    | false =>
      rw [hbk] at h
      simp only [List.map_cons, List.mem_cons]
      exact Or.inr (ih h)

/-- Connective words are never duration units. -/
theorem logicOf_unit {mode : Mode} {w : String} {L : LogicType}
    (h : logicOf mode w = some L) : unitSecs w = none ∧ w ≠ "年" := by
  have hm := lookup_key_mem h
  cases mode <;>
  · simp only [logicTable, List.map, List.mem_cons, List.not_mem_nil, or_false] at hm
    rcases hm with rfl | rfl | rfl | rfl | rfl | rfl | rfl | rfl | rfl <;>
      exact ⟨by decide, by decide⟩

theorem restSafe_restV {mode : Mode} {rest : List Tok}
    (h : RestSafe mode rest) : RestV rest := by
  rcases h with (rfl | ⟨r, rfl⟩) | ⟨w, r, L, rfl, hL, -, -⟩
  · exact Or.inl rfl
  · exact Or.inr (Or.inl ⟨')', r, rfl, Or.inl rfl⟩)
  · exact Or.inr (Or.inr ⟨w, r, rfl, logicOf_unit hL⟩)

/-- Looking up a field primary recovers the member. -/
theorem fieldOf_primary (mode : Mode) (ft : FieldType) :
    fieldOf mode (primaryField mode ft) = some ft := by
  cases mode <;> cases ft <;> decide

/-- Looking up an operator primary recovers the member. -/
theorem opOf_primary (mode : Mode) (op : OperatorType) :
    opOf mode (opPrimary mode op) = some op := by
  cases mode <;> cases op <;> decide

/-- Looking up a connective primary recovers the member. -/
theorem logicOf_primary (mode : Mode) (lg : LogicType) :
    logicOf mode (logicPrimary mode lg) = some lg := by
  cases mode <;> cases lg <;> decide

/-- Field primaries are not connective words. -/
theorem logicOf_field (mode : Mode) (ft : FieldType) :
    logicOf mode (primaryField mode ft) = none := by
  cases mode <;> cases ft <;> decide

/-- Boolean primaries resolve to their boolean, and are not the now
keyword. -/
theorem boolOf_primary (mode : Mode) (b : Bool) :
    boolOf mode (boolPrimary mode b) = some b ∧
      nowWord mode (boolPrimary mode b) = false := by
  cases mode <;> cases b <;> exact ⟨by decide, by decide⟩

theorem ofList_toList : ∀ cs : NodeList, NodeList.ofList cs.toList = cs
  | .nil => rfl
  | .cons c t => by
    simp only [NodeList.toList, NodeList.ofList]
    rw [ofList_toList t]

/-- The token tail of a value list after its first element. -/
def toksTail (mode : Mode) : VList → List Tok
  | .nil => []
  | .cons v t => .punct ',' :: (toksV mode v ++ toksTail mode t)

theorem toksVL_eq (mode : Mode) : ∀ l : VList,
    toksVL mode l = match l with
      | .nil => []
      | .cons v t => toksV mode v ++ toksTail mode t
  | .nil => rfl
  | .cons v .nil => by simp [toksVL, toksTail]
  | .cons v (.cons w t) => by
    simp only [toksVL, toksTail]
    rw [toksVL_eq mode (.cons w t)]

/-- Every value's token rendering starts with a token that is neither a
closing bracket nor any punctuation but `[`. -/
theorem toksV_head (mode : Mode) (v : Value) :
    ∃ tok r, toksV mode v = tok :: r ∧ ∀ c, tok = .punct c → c = '[' := by
  cases v with
  | vstr s => exact ⟨_, _, rfl, by intro c h; cases h⟩
  | vint n => exact ⟨_, _, rfl, by intro c h; cases h⟩
  | vfloat ip fr => exact ⟨_, _, rfl, by intro c h; cases h⟩
  | vbool b => exact ⟨_, _, rfl, by intro c h; cases h⟩
  | vtime c => exact ⟨_, _, rfl, by intro c h; cases h⟩
  | vlist l => exact ⟨.punct '[', _, rfl, by intro c h; cases h; rfl⟩

end TiebaMeow

namespace TiebaMeow

mutual

/-- The literal grammar parses back a dumped value's tokens. -/
theorem parseV_complete (mode : Mode) (now : Civil) :
    ∀ v : Value, wfValue v = true → ∀ (f : Nat) (rest : List Tok),
    8 * (toksV mode v).length < f → RestV rest →
    parseValue ⟨mode, now⟩ f (toksV mode v ++ rest) = .ok (v, rest)
  | .vstr s, h, f, rest, hf, _ => by
    cases f with
    | zero => omega
    | succ f =>
      rw [parseValue_succ]
      simp only [toksV, List.cons_append, List.nil_append]
      have habs : absFull s.data = none := by
        simp only [wfValue, Bool.and_eq_true] at h
        rw [← Option.isNone_iff_eq_none]
        exact h.1
      simp only [habs]
  | .vint n, _, f, rest, hf, hr => by
    cases f with
    | zero => omega
    | succ f =>
      rw [parseValue_succ]
      simp only [toksV, List.cons_append, List.nil_append]
      rcases hr with rfl | ⟨c, r, rfl, hc⟩ | ⟨w, r, rfl, hu, hy⟩
      · rfl
      · rcases hc with rfl | rfl | rfl <;> rfl
      · simp only [hu, if_neg hy]
  | .vfloat ip fr, _, f, rest, hf, _ => by
    cases f with
    | zero => omega
    | succ f =>
      rw [parseValue_succ]
      simp only [toksV, List.cons_append, List.nil_append]
  | .vbool b, _, f, rest, hf, _ => by
    cases f with
    | zero => omega
    | succ f =>
      rw [parseValue_succ]
      simp only [toksV, List.cons_append, List.nil_append]
      obtain ⟨hb, hn⟩ := boolOf_primary mode b
      simp only [hn, Bool.false_eq_true, if_false, hb]
  | .vtime c, h, f, rest, hf, _ => by
    cases f with
    | zero => omega
    | succ f =>
      rw [parseValue_succ]
      simp only [toksV, List.cons_append, List.nil_append]
      have hv : ValidCivil c := by
        simp only [wfValue] at h
        exact of_decide_eq_true h
      have habs : absFull (String.mk (fmtAbs c)).data = some c := absFull_fmtAbs hv
      simp only [habs]
  | .vlist l, h, f, rest, hf, hr => by
    cases f with
    | zero => omega
    | succ f =>
      rw [parseValue_succ]
      simp only [toksV, List.cons_append, List.append_assoc, List.nil_append]
      cases l with
      | nil =>
        simp only [toksVL, List.nil_append]
      | cons v1 t =>
        rw [toksVL_eq mode (.cons v1 t)]
        simp only [wfValue, wfVList, Bool.and_eq_true] at h
        obtain ⟨h1, h2⟩ := h
        obtain ⟨tok, tr, htk, hnp⟩ := toksV_head mode v1
        have e1 : (toksV mode (Value.vlist (VList.cons v1 t))).length =
            (toksV mode v1).length + (toksTail mode t).length + 2 := by
          simp only [toksV, toksVL_eq mode (.cons v1 t)]
          simp only [List.length_cons, List.length_append, List.length_nil]
        have hrv : RestV (toksTail mode t ++ (.punct ']' :: rest)) := by
          cases t with
          | nil => exact Or.inr (Or.inl ⟨']', rest, rfl, by decide⟩)
          | cons w t2 =>
            exact Or.inr (Or.inl ⟨',', _, rfl, by decide⟩)
        have hval := parseV_complete mode now v1 h1 f
          (toksTail mode t ++ (.punct ']' :: rest)) (by omega) hrv
        have hlst := parseL_complete mode now t h2 f rest (by omega)
        simp only []
        rw [htk]
        simp only [List.cons_append, List.append_assoc]
        rw [htk] at hval
        simp only [List.cons_append, List.append_assoc] at hval
        cases tok with
        | punct c =>
          have hc : c = '[' := hnp c rfl
          subst hc
          simp only [hval, hlst]
          split
          · rename_i heq
            simp at heq
          · rfl
        | word w => simp only [hval, hlst]
        | num a b => simp only [hval, hlst]
        | str s => simp only [hval, hlst]

/-- The list-tail grammar parses back a dumped list tail's tokens. -/
theorem parseL_complete (mode : Mode) (now : Civil) :
    ∀ t : VList, wfVList t = true → ∀ (f : Nat) (rest : List Tok),
    8 * (toksTail mode t).length < f →
    listRest ⟨mode, now⟩ f (toksTail mode t ++ (.punct ']' :: rest)) =
      .ok (t, .punct ']' :: rest)
  | .nil, _, f, rest, hf => by
    cases f with
    | zero => omega
    | succ f =>
      rw [listRest_succ]
      rfl
  | .cons v t', h, f, rest, hf => by
    cases f with
    | zero => omega
    | succ f =>
      rw [listRest_succ]
      simp only [toksTail, List.cons_append, List.append_assoc]
      simp only [wfVList, Bool.and_eq_true] at h
      obtain ⟨h1, h2⟩ := h
      have hrv : RestV (toksTail mode t' ++ (.punct ']' :: rest)) := by
        cases t' with
        | nil => exact Or.inr (Or.inl ⟨']', rest, rfl, by decide⟩)
        | cons w t2 => exact Or.inr (Or.inl ⟨',', _, rfl, by decide⟩)
      have hval := parseV_complete mode now v h1 f
        (toksTail mode t' ++ (.punct ']' :: rest)) (by simp [toksTail] at hf; omega) hrv
      have hlst := parseL_complete mode now t' h2 f rest
        (by simp [toksTail] at hf; omega)
      simp only [List.append_assoc] at hval
      simp only [hval, hlst]

end

end TiebaMeow

namespace TiebaMeow

/-- Tokens that may follow a leaf or NOT-tier expression: nothing, a
closing parenthesis, or any connective word. -/
def RestW (mode : Mode) (rest : List Tok) : Prop :=
  RestO rest ∨ ∃ w r L, rest = .word w :: r ∧ logicOf mode w = some L

theorem restSafe_restW {mode : Mode} {rest : List Tok}
    (h : RestSafe mode rest) : RestW mode rest := by
  rcases h with h | ⟨w, r, L, rfl, hL, -, -⟩
  · exact Or.inl h
  · exact Or.inr ⟨w, r, L, rfl, hL⟩

theorem restW_restV {mode : Mode} {rest : List Tok}
    (h : RestW mode rest) : RestV rest := by
  rcases h with (rfl | ⟨r, rfl⟩) | ⟨w, r, L, rfl, hL⟩
  · exact Or.inl rfl
  · exact Or.inr (Or.inl ⟨')', r, rfl, Or.inl rfl⟩)
  · exact Or.inr (Or.inr ⟨w, r, rfl, logicOf_unit hL⟩)

/-- The AND-chain loop stops in front of a safe continuation. -/
theorem andRest_stop (mode : Mode) (now : Civil) (f : Nat) (rest : List Tok)
    (hr : RestSafe mode rest) (hf : 0 < f) :
    andRest ⟨mode, now⟩ f rest = .ok ([], rest) := by
  cases f with
  | zero => omega
  | succ f =>
    rw [andRest_succ]
    rcases hr with (rfl | ⟨r, rfl⟩) | ⟨w, r, L, rfl, hL, hLa, -⟩
    · rfl
    · rfl
    · simp only [hL]
      rw [if_neg (by simp [hLa])]

/-- A dumped condition's tokens parse back to the condition. -/
theorem parseCond_complete (mode : Mode) (now : Civil) (f0 : String)
    (ft : FieldType) (op : OperatorType) (v : Value)
    (hft : fieldTypeOf f0 = some ft) (hv : wfValue v = true) :
    ∀ (f : Nat) (rest : List Tok),
    8 * (toksN mode (.cond f0 op v)).length < f → RestW mode rest →
    parseCond ⟨mode, now⟩ f (toksN mode (.cond f0 op v) ++ rest) =
      .ok (.cond f0 op v, rest) := by
  intro f rest hf hr
  cases f with
  | zero => omega
  | succ f =>
    rw [parseCond_succ]
    simp only [toksN, List.cons_append]
    have hfield : fieldText mode f0 = primaryField mode ft := by
      unfold fieldText
      rw [hft]
    rw [hfield]
    simp only [fieldOf_primary, opOf_primary]
    have hlen : (toksN mode (.cond f0 op v)).length =
        (toksV mode v).length + 2 := by
      simp [toksN]
    have hval := parseV_complete mode now v hv f rest (by omega) (restW_restV hr)
    simp only [hval]
    rw [fieldTypeOf_eq hft]

/-- Tokens of the connective-separated continuation of a chain. -/
def chainToks (mode : Mode) (lg : LogicType) : NodeList → List Tok
  | .nil => []
  | .cons c t =>
    .word (logicPrimary mode lg) :: (toksCh mode c ++ chainToks mode lg t)

theorem chainToks_toksChain (mode : Mode) (lg : LogicType) :
    ∀ (c : RuleNode) (t : NodeList),
    toksChain mode lg (.cons c t) = toksCh mode c ++ chainToks mode lg t
  | c, .nil => by simp [toksChain, chainToks]
  | c, .cons d t2 => by
    simp only [toksChain, chainToks]
    rw [chainToks_toksChain mode lg d t2]

theorem toList_cons_cons (c d : RuleNode) (t : NodeList) :
    (NodeList.cons c (NodeList.cons d t)).toList = c :: d :: t.toList := rfl

end TiebaMeow

namespace TiebaMeow

mutual

/-- The grammar parses back a dumped well-formed node's tokens: at the
rule level (with nothing or a closing parenthesis following), at the
NOT tier and at the AND tier (child rendering). -/
theorem parseN_complete (mode : Mode) (now : Civil) :
    ∀ n : RuleNode, wfNode n = true →
    (∀ (f : Nat) (rest : List Tok),
      8 * (toksN mode n).length + 5 ≤ f → RestO rest →
      parseOr ⟨mode, now⟩ f (toksN mode n ++ rest) = .ok (n, rest)) ∧
    (∀ (f : Nat) (rest : List Tok),
      8 * (toksCh mode n).length + 3 ≤ f → RestW mode rest →
      parseNot ⟨mode, now⟩ f (toksCh mode n ++ rest) = .ok (n, rest)) ∧
    (∀ (f : Nat) (rest : List Tok),
      8 * (toksCh mode n).length + 4 ≤ f → RestSafe mode rest →
      parseAnd ⟨mode, now⟩ f (toksCh mode n ++ rest) = .ok (n, rest))
  | .cond f0 op v, h => by
    simp only [wfNode, Bool.and_eq_true] at h
    obtain ⟨hfs, hv⟩ := h
    rw [Option.isSome_iff_exists] at hfs
    obtain ⟨ft, hft⟩ := hfs
    have hfield : fieldText mode f0 = primaryField mode ft := by
      unfold fieldText
      rw [hft]
    have hlenN : (toksN mode (.cond f0 op v)).length =
        (toksV mode v).length + 2 := by simp [toksN]
    have hlenC : (toksCh mode (.cond f0 op v)).length =
        (toksN mode (.cond f0 op v)).length := by simp [toksCh]
    have hatom : ∀ (f : Nat) (rest : List Tok),
        8 * (toksN mode (.cond f0 op v)).length + 2 ≤ f → RestW mode rest →
        parseAtom ⟨mode, now⟩ f (toksN mode (.cond f0 op v) ++ rest) =
          .ok (.cond f0 op v, rest) := by
      intro f rest hf hr
      cases f with
      | zero => omega
      | succ f =>
        rw [parseAtom_succ]
        simp only [toksN, List.cons_append]
        have hpc := parseCond_complete mode now f0 ft op v hft hv f rest
          (by omega) hr
        simp only [toksN, List.cons_append] at hpc
        exact hpc
    have hnot : ∀ (f : Nat) (rest : List Tok),
        8 * (toksCh mode (.cond f0 op v)).length + 3 ≤ f → RestW mode rest →
        parseNot ⟨mode, now⟩ f (toksCh mode (.cond f0 op v) ++ rest) =
          .ok (.cond f0 op v, rest) := by
      intro f rest hf hr
      cases f with
      | zero => omega
      | succ f =>
        rw [parseNot_succ]
        simp only [toksCh, toksN, List.cons_append]
        rw [hfield]
        rw [if_neg (by simp [logicOf_field])]
        have hpa := hatom f rest (by omega) hr
        simp only [toksN, List.cons_append, hfield] at hpa
        exact hpa
    have hand : ∀ (f : Nat) (rest : List Tok),
        8 * (toksCh mode (.cond f0 op v)).length + 4 ≤ f → RestSafe mode rest →
        parseAnd ⟨mode, now⟩ f (toksCh mode (.cond f0 op v) ++ rest) =
          .ok (.cond f0 op v, rest) := by
      intro f rest hf hr
      cases f with
      | zero => omega
      | succ f =>
        rw [parseAnd_succ]
        simp only [hnot f rest (by omega) (restSafe_restW hr),
          andRest_stop mode now f rest hr (by omega)]
    refine ⟨?_, hnot, hand⟩
    intro f rest hf hr
    cases f with
    | zero => omega
    | succ f =>
      rw [parseOr_succ]
      have h1 := hand f rest (by omega) (restO_safe hr)
      rw [show toksCh mode (.cond f0 op v) = toksN mode (.cond f0 op v) from by
        simp [toksCh]] at h1
      simp only [h1]
      rcases hr with rfl | ⟨r, rfl⟩ <;> rfl
  | .group lg cs, h => by
    by_cases hlg : lg = .not
    · subst hlg
      simp only [wfNode, if_pos rfl, Bool.and_eq_true] at h
      obtain ⟨hlen, hwfl⟩ := h
      cases cs with
      | nil => simp [NodeList.length, NodeList.toList] at hlen
      | cons c t =>
        cases t with
        | cons d t2 => simp [NodeList.length, NodeList.toList] at hlen
        | nil =>
          simp only [wfNodeList, Bool.and_eq_true] at hwfl
          obtain ⟨hc, -⟩ := hwfl
          obtain ⟨hcO, -, -⟩ := parseN_complete mode now c hc
          have hlenN : (toksN mode (.group .not (.cons c .nil))).length =
              (toksN mode c).length + 3 := by
            simp [toksN, List.length_append]
          have hch : toksCh mode (.group .not (.cons c .nil)) =
              toksN mode (.group .not (.cons c .nil)) := by
            simp [toksCh]
          have hnot : ∀ (f : Nat) (rest : List Tok),
              8 * (toksCh mode (.group .not (.cons c .nil))).length + 3 ≤ f →
              RestW mode rest →
              parseNot ⟨mode, now⟩ f
                  (toksCh mode (.group .not (.cons c .nil)) ++ rest) =
                .ok (.group .not (.cons c .nil), rest) := by
            intro f rest hf hr
            rw [hch] at hf ⊢
            cases f with
            | zero => omega
            | succ f =>
              rw [parseNot_succ]
              simp only [toksN, List.cons_append]
              rw [if_pos (by rw [logicOf_primary])]
              cases f with
              | zero => omega
              | succ f =>
                rw [parseAtom_succ]
                simp only []
                have hassoc : (toksN mode c ++ [Tok.punct ')']) ++ rest =
                    toksN mode c ++ (.punct ')' :: rest) := by simp
                rw [hassoc]
                simp only [hcO f (.punct ')' :: rest) (by omega)
                  (Or.inr ⟨rest, rfl⟩)]
          have hand : ∀ (f : Nat) (rest : List Tok),
              8 * (toksCh mode (.group .not (.cons c .nil))).length + 4 ≤ f →
              RestSafe mode rest →
              parseAnd ⟨mode, now⟩ f
                  (toksCh mode (.group .not (.cons c .nil)) ++ rest) =
                .ok (.group .not (.cons c .nil), rest) := by
            intro f rest hf hr
            cases f with
            | zero => omega
            | succ f =>
              rw [parseAnd_succ]
              simp only [hnot f rest (by omega) (restSafe_restW hr),
                andRest_stop mode now f rest hr (by omega)]
          refine ⟨?_, hnot, hand⟩
          intro f rest hf hr
          cases f with
          | zero => omega
          | succ f =>
            rw [parseOr_succ]
            have h1 := hand f rest (by rw [hch]; omega) (restO_safe hr)
            rw [hch] at h1
            simp only [h1]
            rcases hr with rfl | ⟨r, rfl⟩ <;> rfl
    · have hne : lg ≠ LogicType.not := hlg
      simp only [wfNode, if_neg hlg, Bool.and_eq_true] at h
      obtain ⟨hlen, hwfl⟩ := h
      rw [decide_eq_true_eq] at hlen
      cases cs with
      | nil => simp [NodeList.length, NodeList.toList] at hlen
      | cons c1 t0 =>
        cases t0 with
        | nil => simp [NodeList.length, NodeList.toList] at hlen
        | cons d t =>
          simp only [wfNodeList, Bool.and_eq_true] at hwfl
          obtain ⟨hc1, hd2, ht⟩ := hwfl
          have hwdt : wfNodeList (NodeList.cons d t) = true := by
            simp [wfNodeList, hd2, ht]
          obtain ⟨-, hN1, hA1⟩ := parseN_complete mode now c1 hc1
          have htoksN : toksN mode (.group lg (.cons c1 (.cons d t))) =
              toksCh mode c1 ++ chainToks mode lg (.cons d t) := by
            rw [toksN_group_eq mode lg _ hne]
            exact chainToks_toksChain mode lg c1 (.cons d t)
          have hlen1 : (chainToks mode lg (.cons d t)).length =
              (toksCh mode d).length + (chainToks mode lg t).length + 1 := by
            simp [chainToks, List.length_append]
          by_cases hla : lg = .and
          · subst hla
            have htop : ∀ (f : Nat) (rest : List Tok),
                8 * (toksN mode (.group .and (.cons c1 (.cons d t)))).length + 4 ≤ f →
                RestSafe mode rest →
                parseAnd ⟨mode, now⟩ f
                    (toksN mode (.group .and (.cons c1 (.cons d t))) ++ rest) =
                  .ok (.group .and (.cons c1 (.cons d t)), rest) := by
              intro f rest hf hr
              rw [htoksN] at hf ⊢
              simp only [List.length_append] at hf
              cases f with
              | zero => omega
              | succ f =>
                rw [parseAnd_succ]
                rw [List.append_assoc]
                simp only [hN1 f (chainToks mode .and (.cons d t) ++ rest) (by omega)
                  (Or.inr ⟨logicPrimary mode .and,
                    (toksCh mode d ++ chainToks mode .and t) ++ rest, .and,
                    by simp [chainToks], logicOf_primary mode .and⟩)]
                simp only [andRest_complete mode now (.cons d t) hwdt f rest (by omega) hr]
                simp only [NodeList.toList, NodeList.ofList, ofList_toList]
            have htop2 : ∀ (f : Nat) (rest : List Tok),
                8 * (toksN mode (.group .and (.cons c1 (.cons d t)))).length + 5 ≤ f →
                RestO rest →
                parseOr ⟨mode, now⟩ f
                    (toksN mode (.group .and (.cons c1 (.cons d t))) ++ rest) =
                  .ok (.group .and (.cons c1 (.cons d t)), rest) := by
              intro f rest hf hr
              cases f with
              | zero => omega
              | succ f =>
                rw [parseOr_succ]
                simp only [htop f rest (by omega) (restO_safe hr)]
                rcases hr with rfl | ⟨r, rfl⟩ <;> rfl
            have hnot : ∀ (f : Nat) (rest : List Tok),
                8 * (toksCh mode (.group .and (.cons c1 (.cons d t)))).length + 3 ≤ f →
                RestW mode rest →
                parseNot ⟨mode, now⟩ f
                    (toksCh mode (.group .and (.cons c1 (.cons d t))) ++ rest) =
                  .ok (.group .and (.cons c1 (.cons d t)), rest) := by
              intro f rest hf hr
              rw [toksCh_group_eq mode .and _ (by decide)] at hf ⊢
              simp only [List.length_cons, List.length_append] at hf
              cases f with
              | zero => omega
              | succ f =>
                rw [parseNot_succ]
                simp only [List.cons_append]
                cases f with
                | zero => omega
                | succ f =>
                  rw [parseAtom_succ]
                  simp only []
                  have hassoc :
                      (toksN mode (.group .and (.cons c1 (.cons d t))) ++ [Tok.punct ')']) ++ rest =
                      toksN mode (.group .and (.cons c1 (.cons d t))) ++ (.punct ')' :: rest) := by
                    simp
                  rw [hassoc]
                  simp only [htop2 f (.punct ')' :: rest) (by omega)
                    (Or.inr ⟨rest, rfl⟩)]
            have hand : ∀ (f : Nat) (rest : List Tok),
                8 * (toksCh mode (.group .and (.cons c1 (.cons d t)))).length + 4 ≤ f →
                RestSafe mode rest →
                parseAnd ⟨mode, now⟩ f
                    (toksCh mode (.group .and (.cons c1 (.cons d t))) ++ rest) =
                  .ok (.group .and (.cons c1 (.cons d t)), rest) := by
              intro f rest hf hr
              cases f with
              | zero => omega
              | succ f =>
                rw [parseAnd_succ]
                simp only [hnot f rest (by omega) (restSafe_restW hr),
                  andRest_stop mode now f rest hr (by omega)]
            exact ⟨htop2, hnot, hand⟩
          · obtain ⟨-, hN2, hA2⟩ := parseN_complete mode now d hd2
            have htop : ∀ (f : Nat) (rest : List Tok),
                8 * (toksN mode (.group lg (.cons c1 (.cons d t)))).length + 5 ≤ f →
                RestO rest →
                parseOr ⟨mode, now⟩ f
                    (toksN mode (.group lg (.cons c1 (.cons d t))) ++ rest) =
                  .ok (.group lg (.cons c1 (.cons d t)), rest) := by
              intro f rest hf hr
              rw [htoksN] at hf ⊢
              simp only [List.length_append] at hf
              cases f with
              | zero => omega
              | succ f =>
                rw [parseOr_succ]
                rw [List.append_assoc]
                simp only [hA1 f (chainToks mode lg (.cons d t) ++ rest) (by omega)
                  (Or.inr ⟨logicPrimary mode lg,
                    (toksCh mode d ++ chainToks mode lg t) ++ rest, lg,
                    by simp [chainToks], logicOf_primary mode lg, hla, hne⟩)]
                simp only [chainToks, List.cons_append]
                simp only [logicOf_primary]
                rw [if_neg (fun hor => hor.elim hla hne)]
                simp only [List.append_assoc]
                have hside : RestSafe mode (chainToks mode lg t ++ rest) := by
                  cases t with
                  | nil =>
                    simp only [chainToks, List.nil_append]
                    exact restO_safe hr
                  | cons e t3 =>
                    exact Or.inr ⟨logicPrimary mode lg,
                      (toksCh mode e ++ chainToks mode lg t3) ++ rest, lg,
                      by simp [chainToks], logicOf_primary mode lg, hla, hne⟩
                simp only [hA2 f (chainToks mode lg t ++ rest) (by omega) hside]
                simp only [orRest_complete mode now lg hla hne t ht f rest (by omega) hr]
                simp only [NodeList.toList, NodeList.ofList, ofList_toList]
            have hnot : ∀ (f : Nat) (rest : List Tok),
                8 * (toksCh mode (.group lg (.cons c1 (.cons d t)))).length + 3 ≤ f →
                RestW mode rest →
                parseNot ⟨mode, now⟩ f
                    (toksCh mode (.group lg (.cons c1 (.cons d t))) ++ rest) =
                  .ok (.group lg (.cons c1 (.cons d t)), rest) := by
              intro f rest hf hr
              rw [toksCh_group_eq mode lg _ hne] at hf ⊢
              simp only [List.length_cons, List.length_append] at hf
              cases f with
              | zero => omega
              | succ f =>
                rw [parseNot_succ]
                simp only [List.cons_append]
                cases f with
                | zero => omega
                | succ f =>
                  rw [parseAtom_succ]
                  simp only []
                  have hassoc :
                      (toksN mode (.group lg (.cons c1 (.cons d t))) ++ [Tok.punct ')']) ++ rest =
                      toksN mode (.group lg (.cons c1 (.cons d t))) ++ (.punct ')' :: rest) := by
                    simp
                  rw [hassoc]
                  simp only [htop f (.punct ')' :: rest) (by omega) (Or.inr ⟨rest, rfl⟩)]
            have hand : ∀ (f : Nat) (rest : List Tok),
                8 * (toksCh mode (.group lg (.cons c1 (.cons d t)))).length + 4 ≤ f →
                RestSafe mode rest →
                parseAnd ⟨mode, now⟩ f
                    (toksCh mode (.group lg (.cons c1 (.cons d t))) ++ rest) =
                  .ok (.group lg (.cons c1 (.cons d t)), rest) := by
              intro f rest hf hr
              cases f with
              | zero => omega
              | succ f =>
                rw [parseAnd_succ]
                simp only [hnot f rest (by omega) (restSafe_restW hr),
                  andRest_stop mode now f rest hr (by omega)]
            exact ⟨htop, hnot, hand⟩

/-- The OR-chain loop parses back a chain continuation. -/
theorem orRest_complete (mode : Mode) (now : Civil) (L : LogicType)
    (hL1 : L ≠ .and) (hL2 : L ≠ .not) :
    ∀ cs : NodeList, wfNodeList cs = true → ∀ (f : Nat) (rest : List Tok),
    8 * (chainToks mode L cs).length + 1 ≤ f → RestO rest →
    orRest ⟨mode, now⟩ f L (chainToks mode L cs ++ rest) = .ok (cs.toList, rest)
  | .nil, _, f, rest, hf, hr => by
    cases f with
    | zero => omega
    | succ f =>
      rw [orRest_succ]
      simp only [chainToks, List.nil_append]
      rcases hr with rfl | ⟨r, rfl⟩ <;> rfl
  | .cons c t, hw, f, rest, hf, hr => by
    simp only [wfNodeList, Bool.and_eq_true] at hw
    obtain ⟨hwc, hwt⟩ := hw
    have hlen1 : (chainToks mode L (.cons c t)).length =
        (toksCh mode c).length + (chainToks mode L t).length + 1 := by
      simp [chainToks, List.length_append]
    cases f with
    | zero => omega
    | succ f =>
      rw [orRest_succ]
      simp only [chainToks, List.cons_append]
      simp only [logicOf_primary]
      rw [if_pos trivial]
      obtain ⟨-, -, hA⟩ := parseN_complete mode now c hwc
      rw [List.append_assoc]
      have hside : RestSafe mode (chainToks mode L t ++ rest) := by
        cases t with
        | nil =>
          simp only [chainToks, List.nil_append]
          exact restO_safe hr
        | cons e t3 =>
          exact Or.inr ⟨logicPrimary mode L,
            (toksCh mode e ++ chainToks mode L t3) ++ rest, L,
            by simp [chainToks], logicOf_primary mode L, hL1, hL2⟩
      simp only [hA f (chainToks mode L t ++ rest) (by omega) hside]
      simp only [orRest_complete mode now L hL1 hL2 t hwt f rest (by omega) hr]
      simp only [NodeList.toList]

/-- The AND-chain loop parses back a chain continuation. -/
theorem andRest_complete (mode : Mode) (now : Civil) :
    ∀ cs : NodeList, wfNodeList cs = true → ∀ (f : Nat) (rest : List Tok),
    8 * (chainToks mode .and cs).length + 1 ≤ f → RestSafe mode rest →
    andRest ⟨mode, now⟩ f (chainToks mode .and cs ++ rest) = .ok (cs.toList, rest)
  | .nil, _, f, rest, hf, hr => by
    simp only [chainToks, List.nil_append]
    exact andRest_stop mode now f rest hr (by omega)
  | .cons c t, hw, f, rest, hf, hr => by
    simp only [wfNodeList, Bool.and_eq_true] at hw
    obtain ⟨hwc, hwt⟩ := hw
    have hlen1 : (chainToks mode .and (.cons c t)).length =
        (toksCh mode c).length + (chainToks mode .and t).length + 1 := by
      simp [chainToks, List.length_append]
    cases f with
    | zero => omega
    | succ f =>
      rw [andRest_succ]
      simp only [chainToks, List.cons_append]
      simp only [logicOf_primary]
      rw [if_pos trivial]
      obtain ⟨-, hN, -⟩ := parseN_complete mode now c hwc
      rw [List.append_assoc]
      have hside : RestW mode (chainToks mode .and t ++ rest) := by
        cases t with
        | nil =>
          simp only [chainToks, List.nil_append]
          exact restSafe_restW hr
        | cons e t3 =>
          exact Or.inr ⟨logicPrimary mode .and,
            (toksCh mode e ++ chainToks mode .and t3) ++ rest, .and,
            by simp [chainToks], logicOf_primary mode .and⟩
      simp only [hN f (chainToks mode .and t ++ rest) (by omega) hside]
      simp only [andRest_complete mode now t hwt f rest (by omega) hr]
      simp only [NodeList.toList]

end

end TiebaMeow

namespace TiebaMeow

/-- Capstone of the round trip: the serialized text of a well-formed
tree parses back to exactly that tree, in the same mode, for any
injected time. -/
theorem parseRule_dumpNode {mode : Mode} {now : Civil} {n : RuleNode}
    (h : wfNode n = true) :
    parseRule (dumpNode mode n) mode now = .ok n := by
  have hlex := @lexAux_dumpNode mode n h
  obtain ⟨hor, -, -⟩ := parseN_complete mode now n h
  have hp := hor (8 * ((toksN mode n).length + 1)) [] (by omega) (Or.inl rfl)
  rw [List.append_nil] at hp
  simp only [parseRule, hlex, hp]

/-- C1: for every rule text `t` that `parseRule` accepts in mode `m`,
serializing the resulting tree with `dumpRule` succeeds, and re-parsing
the serialized text in the same mode yields a structurally equal
(indeed identical) tree. -/
theorem claim_C1_round_trip (t : String) (mode : Mode) (now : Civil)
    (hnow : ValidCivil now) (n : RuleNode)
    (h : parseRule t mode now = .ok n) :
    dumpRule (.node n) mode = .ok (dumpNode mode n) ∧
    parseRule (dumpNode mode n) mode now = .ok n :=
  ⟨rfl, parseRule_dumpNode (parseRule_wf hnow h)⟩

/-- Witness for C1: the round trip at a concrete DSL condition. -/
theorem claim_C1_witness :
    dumpRule (.node (.cond "title" .contains (.vstr "x"))) .dsl =
      .ok (dumpNode .dsl (.cond "title" .contains (.vstr "x"))) ∧
    parseRule (dumpNode .dsl (.cond "title" .contains (.vstr "x"))) .dsl testNow =
      .ok (.cond "title" .contains (.vstr "x")) :=
  claim_C1_round_trip "title contains 'x'" .dsl testNow (by decide)
    (.cond "title" .contains (.vstr "x")) (by rfl)

/-- Lexing `create_time == <digits><w>` for an identifier-word suffix
`w` glued right onto the digits: the digit run is consumed as one whole
number token and the suffix as the following word, for every numeral
and every such suffix. -/
theorem lexAux_num_suffix (n : Nat) (w : String) (c0 : Char) (cs : List Char)
    (hw : w.data = c0 :: cs) (hst : isIdentStart c0 = true)
    (hall : (c0 :: cs).all isIdentChar = true) :
    lexAux .dsl ("create_time == " ++ natStr n ++ w).data =
      .ok [.word "create_time", .word "==", .num n none, .word w] := by
  have hdig : isDigitChar c0 = false := isIdentStart_not_digit hst
  have hdot : c0 ≠ '.' := fun he => by
    rw [he] at hst
    exact absurd hst (by decide)
  obtain ⟨hna, -, hne⟩ := natDigits_spec n
  have hd : ("create_time == " ++ natStr n ++ w).data =
      "create_time".data ++
        ([' '] ++ ("==".data ++ ([' '] ++ (natDigits n ++ w.data)))) := by
    simp [String.data_append, natStr]
  have hA : LexesP .dsl "create_time".data [.word "create_time"]
      (fun c => c = ' ') :=
    lexes_word_ident rfl (by decide) (by decide) (fun c hc => by rw [hc]; decide)
  have hEq : LexesP .dsl "==".data [.word "=="] (fun c => c = ' ') :=
    lexes_word_sym rfl (by decide) (by decide) (fun c hc => by rw [hc]; decide)
  have hNum : LexesP .dsl (natDigits n) [.num n none] (fun c => c = c0) :=
    lexes_num n (fun c hc => by rw [hc]; exact ⟨hdig, hdot⟩)
  have hU : LexesP .dsl w.data [.word w] (fun _ => False) :=
    lexes_word_ident hw hst hall (fun c hc => hc.elim)
  have h5 : LexesP .dsl (natDigits n ++ w.data)
      ([.num n none] ++ [.word w]) (fun _ => False) :=
    LexesP.comp hNum hU hw rfl
  have hws2 : LexesP .dsl [' '] [] (fun c => isDigitChar c = true) :=
    lexes_ws .dsl _
  have h4 : LexesP .dsl ([' '] ++ (natDigits n ++ w.data))
      ([] ++ ([.num n none] ++ [.word w])) (fun _ => False) := by
    cases hd2 : natDigits n with
    | nil => exact absurd hd2 hne
    | cons d0 ds =>
      refine LexesP.comp hws2 (hd2 ▸ h5) (by rfl) ?_
      rw [hd2] at hna
      simp only [List.all_cons, Bool.and_eq_true] at hna
      exact hna.1
  have h3 : LexesP .dsl ("==".data ++ ([' '] ++ (natDigits n ++ w.data)))
      ([.word "=="] ++ ([] ++ ([.num n none] ++ [.word w])))
      (fun _ => False) :=
    LexesP.comp hEq h4 rfl rfl
  have hws1 : LexesP .dsl [' '] [] (fun c => c = '=') := lexes_ws .dsl _
  have h2 : LexesP .dsl
      ([' '] ++ ("==".data ++ ([' '] ++ (natDigits n ++ w.data))))
      ([] ++ ([.word "=="] ++ ([] ++ ([.num n none] ++ [.word w]))))
      (fun _ => False) :=
    LexesP.comp hws1 h3 rfl rfl
  have h1 : LexesP .dsl
      ("create_time".data ++
        ([' '] ++ ("==".data ++ ([' '] ++ (natDigits n ++ w.data)))))
      ([.word "create_time"] ++
        ([] ++ ([.word "=="] ++
          ([] ++ ([.num n none] ++ [.word w])))))
      (fun _ => False) :=
    LexesP.comp hA h2 rfl rfl
  rw [hd]
  have hfin := h1 [] (Or.inl rfl)
  rw [List.append_nil] at hfin
  rw [hfin]
  simp [lexAux, lexAuxF, lexStep, Except.map]

/-- The single-letter instance of the suffix-lexing lemma. -/
theorem lexAux_num_unit (n : Nat) (u : Char) (hst : isIdentStart u = true)
    (hic : isIdentChar u = true) :
    lexAux .dsl ("create_time == " ++ natStr n ++ String.mk [u]).data =
      .ok [.word "create_time", .word "==", .num n none, .word (String.mk [u])] :=
  lexAux_num_suffix n (String.mk [u]) u [] rfl hst (by simp [hic])

/-- Universal failure half of longest-match: for every numeral and
every identifier-word suffix that is not a recognized duration unit
(and not the CNL year marker), `create_time == <n><w>` fails the whole
parse with an error instead of silently truncating to the numeric
prefix. -/
theorem parseRule_num_badSuffix (now : Civil) (n : Nat) (w : String)
    (c0 : Char) (cs : List Char) (hw : w.data = c0 :: cs)
    (hst : isIdentStart c0 = true) (hall : (c0 :: cs).all isIdentChar = true)
    (hu : unitSecs w = none) (hyne : w ≠ "年") :
    ∃ e, parseRule ("create_time == " ++ natStr n ++ w) .dsl now = .error e := by
  have hlex := lexAux_num_suffix n w c0 cs hw hst hall
  have hv : parseValue ⟨.dsl, now⟩ 35 [.num n none, .word w] =
      .ok (.vint n, [.word w]) := by
    rw [show (35 : Nat) = 34 + 1 from rfl, parseValue_succ]
    simp only [hu]
    rw [if_neg hyne]
  have hcnd : parseCond ⟨.dsl, now⟩ 36
      [.word "create_time", .word "==", .num n none, .word w] =
      .ok (.cond "create_time" .eq (.vint n), [.word w]) := by
    rw [show (36 : Nat) = 35 + 1 from rfl, parseCond_succ]
    simp only [show fieldOf .dsl "create_time" = some FieldType.createTime
        from rfl,
      show opOf .dsl "==" = some OperatorType.eq from rfl, hv]
    rfl
  have hat : parseAtom ⟨.dsl, now⟩ 37
      [.word "create_time", .word "==", .num n none, .word w] =
      .ok (.cond "create_time" .eq (.vint n), [.word w]) := by
    rw [show (37 : Nat) = 36 + 1 from rfl, parseAtom_succ]
    simp only [hcnd]
  have hnt : parseNot ⟨.dsl, now⟩ 38
      [.word "create_time", .word "==", .num n none, .word w] =
      .ok (.cond "create_time" .eq (.vint n), [.word w]) := by
    rw [show (38 : Nat) = 37 + 1 from rfl, parseNot_succ]
    simp only [show logicOf .dsl "create_time" = (none : Option LogicType)
        from rfl, hat]
    rw [if_neg (by simp)]
  cases hlg : logicOf .dsl w with
  | none =>
    have handR : andRest ⟨.dsl, now⟩ 38 [.word w] = .ok ([], [.word w]) := by
      rw [show (38 : Nat) = 37 + 1 from rfl, andRest_succ]
      simp only [hlg]
      rw [if_neg (by simp)]
    have hand : parseAnd ⟨.dsl, now⟩ 39
        [.word "create_time", .word "==", .num n none, .word w] =
        .ok (.cond "create_time" .eq (.vint n), [.word w]) := by
      rw [show (39 : Nat) = 38 + 1 from rfl, parseAnd_succ]
      simp only [hnt, handR]
    have hor : parseOr ⟨.dsl, now⟩ 40
        [.word "create_time", .word "==", .num n none, .word w] =
        .ok (.cond "create_time" .eq (.vint n), [.word w]) := by
      rw [show (40 : Nat) = 39 + 1 from rfl, parseOr_succ]
      simp only [hand, hlg]
    refine ⟨"Parsing failed at position 3: unexpected trailing input", ?_⟩
    simp only [parseRule, hlex]
    rw [show 8 * (([Tok.word "create_time", Tok.word "==", Tok.num n none,
        Tok.word w].length) + 1) = 40 from rfl]
    simp only [hor]
    norm_num
    rfl
  | some L =>
    by_cases hLa : L = .and
    · subst hLa
      have handR : andRest ⟨.dsl, now⟩ 38 [.word w] = .error (.failAt 0) := by
        rw [show (38 : Nat) = 37 + 1 from rfl, andRest_succ]
        simp only [hlg]
        rw [if_pos trivial]
        rfl
      have hand : parseAnd ⟨.dsl, now⟩ 39
          [.word "create_time", .word "==", .num n none, .word w] =
          .error (.failAt 0) := by
        rw [show (39 : Nat) = 38 + 1 from rfl, parseAnd_succ]
        simp only [hnt, handR]
      have hor : parseOr ⟨.dsl, now⟩ 40
          [.word "create_time", .word "==", .num n none, .word w] =
          .error (.failAt 0) := by
        rw [show (40 : Nat) = 39 + 1 from rfl, parseOr_succ]
        simp only [hand]
      refine ⟨"Parsing failed at position 4", ?_⟩
      simp only [parseRule, hlex]
      rw [show 8 * (([Tok.word "create_time", Tok.word "==", Tok.num n none,
          Tok.word w].length) + 1) = 40 from rfl]
      simp only [hor]
      norm_num
      rfl
    · have handR : andRest ⟨.dsl, now⟩ 38 [.word w] = .ok ([], [.word w]) := by
        rw [show (38 : Nat) = 37 + 1 from rfl, andRest_succ]
        simp only [hlg]
        rw [if_neg (by simp [hLa])]
      have hand : parseAnd ⟨.dsl, now⟩ 39
          [.word "create_time", .word "==", .num n none, .word w] =
          .ok (.cond "create_time" .eq (.vint n), [.word w]) := by
        rw [show (39 : Nat) = 38 + 1 from rfl, parseAnd_succ]
        simp only [hnt, handR]
      by_cases hLn : L = .not
      · subst hLn
        have hor : parseOr ⟨.dsl, now⟩ 40
            [.word "create_time", .word "==", .num n none, .word w] =
            .ok (.cond "create_time" .eq (.vint n), [.word w]) := by
          rw [show (40 : Nat) = 39 + 1 from rfl, parseOr_succ]
          simp only [hand, hlg]
          rw [if_pos (Or.inr trivial)]
        refine ⟨"Parsing failed at position 3: unexpected trailing input", ?_⟩
        simp only [parseRule, hlex]
        rw [show 8 * (([Tok.word "create_time", Tok.word "==", Tok.num n none,
            Tok.word w].length) + 1) = 40 from rfl]
        simp only [hor]
        norm_num
        rfl
      · have hor : parseOr ⟨.dsl, now⟩ 40
            [.word "create_time", .word "==", .num n none, .word w] =
            .error (.failAt 0) := by
          rw [show (40 : Nat) = 39 + 1 from rfl, parseOr_succ]
          simp only [hand, hlg]
          rw [if_neg (by simp [hLa, hLn])]
          rfl
        refine ⟨"Parsing failed at position 4", ?_⟩
        simp only [parseRule, hlex]
        rw [show 8 * (([Tok.word "create_time", Tok.word "==", Tok.num n none,
            Tok.word w].length) + 1) = 40 from rfl]
        simp only [hor]
        norm_num
        rfl

/-- C5: literal matching is longest-match.  For every count `n` and
every recognized single-letter duration unit (`d`, `h`, `m`, `s`), the
text `create_time == <n><unit>` parses to a single `Condition` carrying
one datetime value (the whole numeral and its unit consumed as one
duration, never split into a bare number plus a stray trailing
character); while for every numeral `n` and every identifier-word
suffix `w` that is not a recognized duration unit (nor the CNL year
marker), `create_time == <n><w>` fails the whole parse with a parse
error instead of silently truncating to the numeric prefix — in
particular `create_time == 10x` fails with the positioned
trailing-input diagnostic. -/
theorem claim_C5_longest_match (now : Civil) :
    (∀ n : Nat,
      parseRule ("create_time == " ++ natStr n ++ "d") .dsl now =
          .ok (.cond "create_time" .eq (.vtime (civilSub now (n * 86400)))) ∧
      parseRule ("create_time == " ++ natStr n ++ "h") .dsl now =
          .ok (.cond "create_time" .eq (.vtime (civilSub now (n * 3600)))) ∧
      parseRule ("create_time == " ++ natStr n ++ "m") .dsl now =
          .ok (.cond "create_time" .eq (.vtime (civilSub now (n * 60)))) ∧
      parseRule ("create_time == " ++ natStr n ++ "s") .dsl now =
          .ok (.cond "create_time" .eq (.vtime (civilSub now (n * 1))))) ∧
    (∀ (n : Nat) (w : String) (c0 : Char) (cs : List Char),
      w.data = c0 :: cs → isIdentStart c0 = true →
      (c0 :: cs).all isIdentChar = true →
      unitSecs w = none → w ≠ "年" →
      ∃ e, parseRule ("create_time == " ++ natStr n ++ w) .dsl now =
        .error e) ∧
    parseRule "create_time == 10x" .dsl now =
      .error "Parsing failed at position 3: unexpected trailing input" := by
  refine ⟨fun n => ⟨?_, ?_, ?_, ?_⟩,
    fun n w c0 cs hw hst hall hu hyne =>
      parseRule_num_badSuffix now n w c0 cs hw hst hall hu hyne,
    by rfl⟩
  · have hlex := lexAux_num_unit n 'd' (by decide) (by decide)
    simp only [parseRule]
    rw [hlex]
    rfl
  · have hlex := lexAux_num_unit n 'h' (by decide) (by decide)
    simp only [parseRule]
    rw [hlex]
    rfl
  · have hlex := lexAux_num_unit n 'm' (by decide) (by decide)
    simp only [parseRule]
    rw [hlex]
    rfl
  · have hlex := lexAux_num_unit n 's' (by decide) (by decide)
    simp only [parseRule]
    rw [hlex]
    rfl

/-- Witness for C5: the universal failure half applied at the concrete
numeral 10 and the unrecognized suffix x. -/
theorem claim_C5_witness :
    ∃ e, parseRule ("create_time == " ++ natStr 10 ++ "x") .dsl testNow =
      .error e :=
  (claim_C5_longest_match testNow).2.1 10 "x" 'x' [] rfl (by decide)
    (by decide) (by decide) (by decide)

end TiebaMeow
